import Mathlib

/-!
# Road_Map: shortest-path engine and binary map loader

A shallow embedding of `src/map_route.c` (indexed binary min-heap,
`djikstra`, route reconstruction) and `src/roadmap.c` (`load_map` and its
field readers), followed by theorems about them.

Conventions of the embedding.

* C `int` values that serve as array indices or vertex numbers are `Int`
  (no wrap-around: a block of `nnodes` heap entries cannot exceed `2^31`
  elements).  C `unsigned int` values are `Nat`; where a theorem needs the
  bound of the type it says so (`n < 4294967296`).
* Distances are C `int` and arc weights are C `unsigned int`; the sum
  `Q[size+1].d + wt` is therefore computed and compared as `unsigned int`
  and stored back into an `int`.  Both conversions are explicit
  (`toU32`, `toI32`).
* An array is a function from its C index to the cell content.  A cell
  outside the allocated block reads as whatever the function holds there;
  whether an access is inside the block is stated by separate predicates.
-/

namespace RoadMap

/-! ## Machine integers -/

/-- Conversion of a C `int` to `unsigned int`: reduction modulo `2^32`. -/
def toU32 (x : Int) : Nat := (x % 4294967296).toNat

/-- Conversion of a C `unsigned int` to `int` (two's complement). -/
def toI32 (x : Nat) : Int :=
  if x % 4294967296 < 2147483648 then ((x % 4294967296 : Nat) : Int)
  else ((x % 4294967296 : Nat) : Int) - 4294967296

/-! ## Data model (`roadmap.h`) -/

/-- Modelled from the spec: `struct arc` of `roadmap.h` (the header is not
among the sources).  Target node number and weight, both `unsigned int`. -/
structure arc where
  target : Nat
  wt : Nat
deriving DecidableEq, Repr

/-- Modelled from the spec: `struct node` of `roadmap.h`.  `num` and `narcs`
are `unsigned int`, `x` and `y` are `int`, `arcv` is the array of arcs. -/
structure node where
  num : Nat
  x : Int
  y : Int
  narcs : Nat
  arcv : List arc
deriving DecidableEq, Repr

/-- Modelled from the spec: `struct heap_node` of `roadmap.h`.  The spec
describes the infinite distance as the reserved negative integer `-1`, and
the code guards every comparison of distances with an explicit test against
`-1` (`Pull_Up` line 48, `Min_Heapify` lines 62 and 66, `djikstra` line 103),
which an unsigned field would make redundant; so all three fields are
`int`. -/
structure heap_node where
  d : Int
  pi : Int
  v_ind : Int
deriving DecidableEq, Repr

/-- The heap array `A` (or `Q`) together with the position table. -/
structure Heap where
  A : Int → heap_node
  track : Int → Int

/-- Element `i` of a C array of arcs. -/
def arc_at (arcv : List arc) (i : Nat) : arc := arcv.getD i ⟨0, 0⟩

/-- Element `i` of the C array `nodes`. -/
def node_at (nodes : List node) (i : Int) : node := nodes.getD i.toNat ⟨0, 0, 0, 0, []⟩

/-! ## Heap primitives (`map_route.c`) -/

/-- `swap_Heap(A, x, y, track)`. -/
def swap_Heap (A : Int → heap_node) (x y : Int) (track : Int → Int) : Heap :=
  let heap_swap := A x
  let A1 := Function.update A x (A y)
  let A2 := Function.update A1 y heap_swap
  let t1 := Function.update track (A2 x).v_ind x
  let t2 := Function.update t1 (A2 y).v_ind y
  ⟨A2, t2⟩

/-- The parent index `P` computed at the top of `Pull_Up`.  The divisions are
applied to `i ≥ 3` only, where C truncation and floor agree. -/
def Pull_Up_P (i : Int) : Int :=
  if i = 0 then -1
  else if i = 1 ∨ i = 2 then 0
  else if i % 2 = 0 then (i - 2) / 2
  else (i - 1) / 2

/-- `Pull_Up(A, i, track)` with an explicit recursion budget.  The result is
the mutated heap and the returned slot. -/
def Pull_Up_fuel : Nat → (Int → heap_node) → Int → (Int → Int) → Heap × Int
  | 0, A, i, track => (⟨A, track⟩, i)
  | fuel + 1, A, i, track =>
    let P := Pull_Up_P i
    if (decide ((A P).d > (A i).d) || decide ((A P).d = -1)) && decide (P ≠ -1) then
      let h := swap_Heap A i P track
      Pull_Up_fuel fuel h.A P h.track
    else (⟨A, track⟩, i)

/-- `Pull_Up(A, i, track)`: the index strictly decreases at every recursive
call, so `i + 1` calls are enough. -/
def Pull_Up (A : Int → heap_node) (i : Int) (track : Int → Int) : Heap × Int :=
  Pull_Up_fuel (i.toNat + 1) A i track

/-- The slot `smallest` chosen by `Min_Heapify`. -/
def Min_Heapify_smallest (A : Int → heap_node) (i size : Int) : Int :=
  let L := 2 * i + 1
  let R := 2 * i + 2
  let smallest :=
    if decide (L ≤ size) && decide ((A L).d < (A i).d) && decide ((A L).d ≠ -1) then L else i
  if decide (R ≤ size) && decide ((A R).d < (A smallest).d) && decide ((A R).d ≠ -1) then R
  else smallest

/-- `Min_Heapify(A, i, size, track)` with an explicit recursion budget. -/
def Min_Heapify_fuel : Nat → (Int → heap_node) → Int → Int → (Int → Int) → Heap
  | 0, A, _, _, track => ⟨A, track⟩
  | fuel + 1, A, i, size, track =>
    let smallest := Min_Heapify_smallest A i size
    if smallest ≠ i then
      let h := swap_Heap A i smallest track
      Min_Heapify_fuel fuel h.A smallest size h.track
    else ⟨A, track⟩

/-- `Min_Heapify(A, i, size, track)`: a recursive call is made on a slot that
is larger than `i` and at most `size`. -/
def Min_Heapify (A : Int → heap_node) (i size : Int) (track : Int → Int) : Heap :=
  Min_Heapify_fuel ((size - i).toNat + 1) A i size track

/-! ## `djikstra` -/

/-- The local state of `djikstra` during the main loop. -/
structure DjState where
  Q : Int → heap_node
  heap_track : Int → Int
  size : Int

/-- One round of the initialisation loop (`i` is the loop counter). -/
def init_step (nodes : List node) (h : Heap) (i : Nat) : Heap :=
  let num : Int := ((node_at nodes i).num : Int)
  ⟨Function.update h.A i ⟨-1, -1, num⟩, Function.update h.track num i⟩

/-- The content of the freshly allocated blocks before they are written. -/
def fresh : Heap := ⟨fun _ => ⟨0, 0, 0⟩, fun _ => 0⟩

/-- Lines 80 to 94: allocation, the initialisation loop, `Q[source].d = 0`
and the swap of the source into slot 0. -/
def dj_init (nodes : List node) (nnodes source : Nat) : DjState :=
  let h := (List.range nnodes).foldl (init_step nodes) fresh
  let Q1 := Function.update h.A source { h.A source with d := 0 }
  let h2 := swap_Heap Q1 source 0 h.track
  ⟨h2.A, h2.track, (nnodes : Int) - 1⟩

/-- Lines 97 to 100: take `u` from slot 0, swap slot 0 with slot `size`,
decrement `size`, sift down from slot 0. -/
def dj_extract (st : DjState) : DjState × Int :=
  let u := (st.Q 0).v_ind
  let h := swap_Heap st.Q st.size 0 st.heap_track
  let size := st.size - 1
  let h2 := Min_Heapify h.A 0 size h.track
  (⟨h2.A, h2.track, size⟩, u)

/-- The candidate distance `Q[size+1].d + wt`, an `unsigned int`. -/
def dj_cand (st : DjState) (a : arc) : Nat :=
  (toU32 (st.Q (st.size + 1)).d + a.wt) % 4294967296

/-- Lines 102 to 108: the body of the relaxation loop for one arc. -/
def dj_relax (u : Int) (st : DjState) (a : arc) : DjState :=
  let v := st.heap_track a.target
  if (decide ((st.Q v).d = -1) || decide (toU32 (st.Q v).d > dj_cand st a))
      && decide (v ≤ st.size) then
    let Q1 := Function.update st.Q v { st.Q v with d := toI32 (dj_cand st a), pi := u }
    let p := Pull_Up Q1 v st.heap_track
    let h := Min_Heapify p.1.A p.2 st.size p.1.track
    ⟨h.A, h.track, st.size⟩
  else st

/-- Lines 101 to 109: the relaxation loop over the arcs of `nodes[u]`. -/
def dj_relax_all (nodes : List node) (u : Int) (st : DjState) : DjState :=
  (List.range (node_at nodes u).narcs).foldl
    (fun s i => dj_relax u s (arc_at (node_at nodes u).arcv i)) st

/-- One iteration of the main loop (lines 97 to 111). -/
def dj_iter (nodes : List node) (target : Nat) (st : DjState) : DjState :=
  let e := dj_extract st
  let s := dj_relax_all nodes e.2 e.1
  if toU32 e.2 = target then { s with size := -1 } else s

/-- The main loop `while (size > 0)` with an iteration budget. -/
def dj_loop (nodes : List node) (target : Nat) : Nat → DjState → DjState
  | 0, st => st
  | fuel + 1, st =>
    if st.size > 0 then dj_loop nodes target fuel (dj_iter nodes target st) else st

/-- The state when the main loop has ended; `size` drops at every iteration,
so `nnodes` iterations are enough. -/
def dj_final (nodes : List node) (nnodes source target : Nat) : DjState :=
  dj_loop nodes target nnodes (dj_init nodes nnodes source)

/-- The predecessor walk of lines 118 to 123.  `sol` holds `solution[0..size)`
with `size = sol.length`.  The result is `none` when the walk touches a cell
outside the blocks of `nnodes` elements (`solution[size]`, `heap_track[u]` or
`Q[heap_track[u]]`); otherwise it is the final content of `solution[0..size]`.
The budget is never exhausted first: `size` grows with every round. -/
def dj_walk (nnodes : Nat) (Q : Int → heap_node) (track : Int → Int) (source : Nat) :
    Nat → Int → List Int → Option (List Int)
  | 0, _, _ => none
  | fuel + 1, u, sol =>
    if toU32 u ≠ source then
      if sol.length < nnodes ∧ 0 ≤ u ∧ u < nnodes ∧ 0 ≤ track u ∧ track u < nnodes then
        dj_walk nnodes Q track source fuel (Q (track u)).pi (sol ++ [u])
      else none
    else if sol.length < nnodes then some (sol ++ [u]) else none

/-- What a call of `djikstra` produces: the return value, the value stored
through `costp`, and the printed route (`none` when the predecessor walk
leaves the allocated blocks). -/
structure DjResult where
  ret : Nat
  cost : Nat
  route : Option (List Int)
deriving DecidableEq, Repr

/-- `djikstra(outfile, nodes, nnodes, source, target, costp)`. -/
def djikstra (nodes : List node) (nnodes source target : Nat) : DjResult :=
  let st := dj_final nodes nnodes source target
  let cost := toU32 (st.Q (st.heap_track target)).d
  let u := (st.Q (st.heap_track target)).pi
  let sol := dj_walk nnodes st.Q st.heap_track source (nnodes + 1) u [(target : Int)]
  ⟨0, cost, sol.map List.reverse⟩

/-! ## The map loader (`roadmap.c`)

The stream is the list of the bytes still to be read.  A reader returns
`none` where the C function returns 1 (failure); otherwise it returns what it
stored through its pointer arguments and the rest of the stream.  Allocation
is assumed to succeed.
-/

/-- The value of four bytes in network byte order (`ntohl` of the bytes as
read). -/
def be32_val (b0 b1 b2 b3 : Nat) : Nat :=
  (b0 % 256) * 16777216 + (b1 % 256) * 65536 + (b2 % 256) * 256 + b3 % 256

/-- `read_uint_field(f, field)`: `fread` of one item of four bytes. -/
def read_uint_field : List Nat → Option (Nat × List Nat)
  | b0 :: b1 :: b2 :: b3 :: rest => some (be32_val b0 b1 b2 b3, rest)
  | _ => none

/-- `read_int_field(f, field)`: the same bytes stored into an `int`. -/
def read_int_field (f : List Nat) : Option (Int × List Nat) :=
  match read_uint_field f with
  | none => none
  | some (v, rest) => some (toI32 v, rest)

/-- `read_arc(f, a)`; `a->target - 1` is an `unsigned int` subtraction. -/
def read_arc (f : List Nat) : Option (arc × List Nat) :=
  match read_uint_field f with
  | none => none
  | some (t, f1) =>
    match read_uint_field f1 with
    | none => none
    | some (w, f2) => some (⟨(t + 4294967295) % 4294967296, w⟩, f2)

/-- The loop of `read_arcs`: the first argument counts the rounds still to
run, `err` is the current content of the local `err`, `acc` the arcs stored
so far.  The result is the returned `err`, the arcs and the rest of the
stream. -/
def read_arcs_loop : Nat → Int → List Nat → List arc → Int × List arc × List Nat
  | 0, err, f, acc => (err, acc, f)
  | k + 1, _, f, acc =>
    match read_arc f with
    | none => (1, acc, f)
    | some (a, f1) => read_arcs_loop k 0 f1 (acc ++ [a])

/-- `read_arcs(f, arcs, narcs)`.  The local `err` is not initialised; `err0`
is the indeterminate value it holds when the function is entered. -/
def read_arcs (err0 : Int) (f : List Nat) (narcs : Nat) : Int × List arc × List Nat :=
  read_arcs_loop narcs err0 f []

/-- `read_node(f, n)`; `err0` is the indeterminate initial `err` of the
`read_arcs` call it makes. -/
def read_node (err0 : Int) (f : List Nat) : Option (node × List Nat) :=
  match read_uint_field f with
  | none => none
  | some (num, f1) =>
    match read_int_field f1 with
    | none => none
    | some (x, f2) =>
      match read_int_field f2 with
      | none => none
      | some (y, f3) =>
        match read_uint_field f3 with
        | none => none
        | some (narcs, f4) =>
          let r := read_arcs err0 f4 narcs
          if r.1 ≠ 0 then none
          else some (⟨(num + 4294967295) % 4294967296, x, y, narcs, r.2.1⟩, r.2.2)

/-- The loop of `read_nodes`: rounds still to run, loop counter `i`, current
`err`, stream, nodes stored so far.  `arcs_err i` is the indeterminate initial
`err` of the `read_arcs` call made for node `i`. -/
def read_nodes_loop (arcs_err : Nat → Int) :
    Nat → Nat → Int → List Nat → List node → Int × List node × List Nat
  | 0, _, err, f, acc => (err, acc, f)
  | k + 1, i, _, f, acc =>
    match read_node (arcs_err i) f with
    | none => (1, acc, f)
    | some (nd, f1) => read_nodes_loop arcs_err k (i + 1) 0 f1 (acc ++ [nd])

/-- The indeterminate values of the two uninitialised `err` locals. -/
structure Indet where
  arcs_err : Nat → Int
  nodes_err : Int

/-- `read_nodes(f, nodes, nnodes)`. -/
def read_nodes (ind : Indet) (f : List Nat) (nnodes : Nat) : Int × List node × List Nat :=
  read_nodes_loop ind.arcs_err nnodes 0 ind.nodes_err f []

/-- `read_header(f, ver, nnodes)`: the version byte, the node count and, for
a version above 1, one more field that is dropped. -/
def read_header : List Nat → Option (Nat × Nat × List Nat)
  | [] => none
  | b :: f1 =>
    match read_uint_field f1 with
    | none => none
    | some (nnodes, f2) =>
      if b % 256 > 1 then
        match read_uint_field f2 with
        | none => none
        | some (_, f3) => some (b % 256, nnodes, f3)
      else some (b % 256, nnodes, f2)

/-- What a successful `load_map` leaves: the node count, the nodes and the
unread rest of the stream. -/
structure Loaded where
  nnodes : Nat
  nodes : List node
  rest : List Nat
deriving DecidableEq, Repr

/-- `load_map(f, nodesp, nnodes)`; `current_version` is 2. -/
def load_map (ind : Indet) (f : List Nat) : Option Loaded :=
  match read_header f with
  | none => none
  | some (ver, nnodes, f1) =>
    if ver > 2 then none
    else if nnodes = 0 then none
    else
      let r := read_nodes ind f1 nnodes
      if r.1 ≠ 0 then none else some ⟨nnodes, r.2.1, r.2.2⟩

/-! ## The documented file layout -/

/-- An arc record of the file: target identifier and weight. -/
structure DiskArc where
  target : Nat
  wt : Nat
deriving DecidableEq, Repr

/-- A node record of the file: identifier, coordinates, arc records. -/
structure DiskNode where
  id : Nat
  x : Int
  y : Int
  arcs : List DiskArc
deriving DecidableEq, Repr

/-- The four bytes of a 32-bit value, most significant first. -/
def be32 (v : Nat) : List Nat :=
  [v / 16777216 % 256, v / 65536 % 256, v / 256 % 256, v % 256]

/-- The bytes of an arc record. -/
def ser_arc (a : DiskArc) : List Nat := be32 a.target ++ be32 a.wt

/-- The bytes of a sequence of arc records. -/
def ser_arcs : List DiskArc → List Nat
  | [] => []
  | a :: l => ser_arc a ++ ser_arcs l

/-- The bytes of a node record. -/
def ser_node (nd : DiskNode) : List Nat :=
  be32 nd.id ++ (be32 (toU32 nd.x) ++ (be32 (toU32 nd.y) ++
    (be32 nd.arcs.length ++ ser_arcs nd.arcs)))

/-- The bytes of a sequence of node records. -/
def ser_nodes : List DiskNode → List Nat
  | [] => []
  | nd :: l => ser_node nd ++ ser_nodes l

/-- The file: version byte, node count, the reserved field when the version
is at least 2, the node records. -/
def serialise (ver reserved : Nat) (g : List DiskNode) : List Nat :=
  ver :: (be32 g.length ++ ((if ver ≥ 2 then be32 reserved else []) ++ ser_nodes g))

/-- The in-memory arc that the layout prescribes for an arc record. -/
def arc_of (a : DiskArc) : arc := ⟨(a.target % 4294967296 + 4294967295) % 4294967296, a.wt % 4294967296⟩

/-- The in-memory node that the layout prescribes for a node record. -/
def node_of (nd : DiskNode) : node :=
  ⟨(nd.id % 4294967296 + 4294967295) % 4294967296, toI32 (toU32 nd.x), toI32 (toU32 nd.y),
    nd.arcs.length, nd.arcs.map arc_of⟩

/-- `p` is the stream `s` cut short by at least one byte. -/
def StrictPrefix (p s : List Nat) : Prop := ∃ t, t ≠ [] ∧ p ++ t = s

/-! ## Scenario graphs -/

/-- The four-node graph of the concrete scenario. -/
def scenario4 : List node :=
  [⟨0, 0, 0, 2, [⟨1, 1⟩, ⟨2, 5⟩]⟩, ⟨1, 0, 0, 1, [⟨2, 2⟩]⟩, ⟨2, 0, 0, 1, [⟨3, 1⟩]⟩, ⟨3, 0, 0, 0, []⟩]

/-- A four-node graph on which the sift-down meets the sentinel at the
root: arcs 0 -> 1 (weight 1), 0 -> 3 (weight 5) and 3 -> 2 (weight 1). -/
def bug4 : List node :=
  [⟨0, 0, 0, 2, [⟨1, 1⟩, ⟨3, 5⟩]⟩, ⟨1, 0, 0, 0, []⟩, ⟨2, 0, 0, 0, []⟩, ⟨3, 0, 0, 1, [⟨2, 1⟩]⟩]

/-- The graph with the single node 0 and no arc. -/
def single1 : List node := [⟨0, 0, 0, 0, []⟩]

/-- Two nodes stored in swapped order: slot 0 holds node 1 (one arc to node
0) and slot 1 holds node 0. -/
def swapped2 : List node := [⟨1, 0, 0, 1, [⟨0, 3⟩]⟩, ⟨0, 0, 0, 0, []⟩]

/-- Three nodes in a line, each arc of weight 3000000000: the path sum from
node 0 to node 2 is 6000000000, above `2^32`. -/
def overflow3 : List node :=
  [⟨0, 0, 0, 1, [⟨1, 3000000000⟩]⟩, ⟨1, 0, 0, 1, [⟨2, 3000000000⟩]⟩, ⟨2, 0, 0, 0, []⟩]

/-- Two nodes; node 0 has a self-loop and an arc to node 1. -/
def loop2 : List node := [⟨0, 0, 0, 2, [⟨0, 3⟩, ⟨1, 2⟩]⟩, ⟨1, 0, 0, 0, []⟩]

/-! ## Observation points of a run -/

/-- The states after the extraction step and after each relaxation round of
one iteration of the main loop. -/
def dj_iter_marks (nodes : List node) (st : DjState) : List DjState :=
  let e := dj_extract st
  List.scanl (fun s i => dj_relax e.2 s (arc_at (node_at nodes e.2).arcv i)) e.1
    (List.range (node_at nodes e.2).narcs)

/-- The states after every extraction step and every relaxation round of the
main loop started in `st`. -/
def dj_loop_marks (nodes : List node) (target : Nat) : Nat → DjState → List DjState
  | 0, _ => []
  | fuel + 1, st =>
    if st.size > 0 then
      dj_iter_marks nodes st ++ dj_loop_marks nodes target fuel (dj_iter nodes target st)
    else []

/-- The states of a run of `djikstra` after the initialisation, after every
extraction step and after every relaxation round. -/
def dj_marks (nodes : List node) (nnodes source target : Nat) : List DjState :=
  dj_init nodes nnodes source :: dj_loop_marks nodes target nnodes (dj_init nodes nnodes source)

/-- The heaps after each `swap_Heap` call made by `Pull_Up`. -/
def Pull_Up_points : Nat → (Int → heap_node) → Int → (Int → Int) → List Heap
  | 0, _, _, _ => []
  | fuel + 1, A, i, track =>
    let P := Pull_Up_P i
    if (decide ((A P).d > (A i).d) || decide ((A P).d = -1)) && decide (P ≠ -1) then
      let h := swap_Heap A i P track
      h :: Pull_Up_points fuel h.A P h.track
    else []

/-- The heaps after each `swap_Heap` call made by `Min_Heapify`. -/
def Min_Heapify_points : Nat → (Int → heap_node) → Int → Int → (Int → Int) → List Heap
  | 0, _, _, _, _ => []
  | fuel + 1, A, i, size, track =>
    let smallest := Min_Heapify_smallest A i size
    if smallest ≠ i then
      let h := swap_Heap A i smallest track
      h :: Min_Heapify_points fuel h.A smallest size h.track
    else []

/-- The heaps passed through by one relaxation round: after the update of
`d` and `pi`, after every swap inside `Pull_Up`, after `Pull_Up`, after every
swap inside `Min_Heapify`, after `Min_Heapify`. -/
def dj_relax_points (u : Int) (st : DjState) (a : arc) : List Heap :=
  let v := st.heap_track a.target
  if (decide ((st.Q v).d = -1) || decide (toU32 (st.Q v).d > dj_cand st a))
      && decide (v ≤ st.size) then
    let Q1 := Function.update st.Q v { st.Q v with d := toI32 (dj_cand st a), pi := u }
    let p := Pull_Up Q1 v st.heap_track
    let h := Min_Heapify p.1.A p.2 st.size p.1.track
    [⟨Q1, st.heap_track⟩] ++ Pull_Up_points (v.toNat + 1) Q1 v st.heap_track ++ [p.1]
      ++ Min_Heapify_points ((st.size - p.2).toNat + 1) p.1.A p.2 st.size p.1.track ++ [h]
  else []

/-- The heaps passed through by the relaxation rounds for the arcs with the
listed indices. -/
def dj_relax_all_points (nodes : List node) (u : Int) : List Nat → DjState → List Heap
  | [], _ => []
  | i :: l, st =>
    dj_relax_points u st (arc_at (node_at nodes u).arcv i)
      ++ dj_relax_all_points nodes u l (dj_relax u st (arc_at (node_at nodes u).arcv i))

/-- The heaps passed through by one iteration of the main loop. -/
def dj_iter_points (nodes : List node) (st : DjState) : List Heap :=
  let h := swap_Heap st.Q st.size 0 st.heap_track
  let e := dj_extract st
  [h] ++ Min_Heapify_points ((st.size - 1 - 0).toNat + 1) h.A 0 (st.size - 1) h.track
    ++ [⟨e.1.Q, e.1.heap_track⟩]
    ++ dj_relax_all_points nodes e.2 (List.range (node_at nodes e.2).narcs) e.1

/-- The heaps passed through by the main loop started in `st`. -/
def dj_loop_points (nodes : List node) (target : Nat) : Nat → DjState → List Heap
  | 0, _ => []
  | fuel + 1, st =>
    if st.size > 0 then
      dj_iter_points nodes st ++ dj_loop_points nodes target fuel (dj_iter nodes target st)
    else []

/-- Every heap that a run of `djikstra` passes through from the end of the
initialisation on: after each `swap_Heap`, `Pull_Up` and `Min_Heapify` call
and after each update of a distance. -/
def dj_points (nodes : List node) (nnodes source target : Nat) : List Heap :=
  ⟨(dj_init nodes nnodes source).Q, (dj_init nodes nnodes source).heap_track⟩
    :: dj_loop_points nodes target nnodes (dj_init nodes nnodes source)

/-- The states at the head of every executed iteration of the main loop. -/
def dj_loop_heads (nodes : List node) (target : Nat) : Nat → DjState → List DjState
  | 0, _ => []
  | fuel + 1, st =>
    if st.size > 0 then st :: dj_loop_heads nodes target fuel (dj_iter nodes target st) else []

/-- The states in which `djikstra` takes `u` from slot 0. -/
def dj_heads (nodes : List node) (nnodes source target : Nat) : List DjState :=
  dj_loop_heads nodes target nnodes (dj_init nodes nnodes source)

/-! ## Specification vocabulary -/

/-- Order on distances with the sentinel `-1` as the largest value. -/
def dist_le (a b : Int) : Prop := b = -1 ∨ (a ≠ -1 ∧ a ≤ b)

instance (a b : Int) : Decidable (dist_le a b) := by unfold dist_le; infer_instance

/-- Heap order on slots `0..size`. -/
def HeapOrder (st : DjState) : Prop :=
  ∀ i : Int, 1 ≤ i → i ≤ st.size → dist_le (st.Q ((i - 1) / 2)).d (st.Q i).d

/-- Slot 0 holds a minimum of slots `0..size`. -/
def RootMin (st : DjState) : Prop :=
  ∀ i : Int, 0 ≤ i → i ≤ st.size → dist_le (st.Q 0).d (st.Q i).d

/-- Every node's arc count is the length of its arc array and every arc
points to a node of the array. -/
def ArcsOK (nodes : List node) (nnodes : Nat) : Prop :=
  ∀ nd ∈ nodes, nd.narcs = nd.arcv.length ∧ ∀ a ∈ nd.arcv, a.target < nnodes

instance (nodes : List node) (nnodes : Nat) : Decidable (ArcsOK nodes nnodes) := by
  unfold ArcsOK; infer_instance

/-- A graph of `nnodes` nodes in which node `i` of the array has number `i`. -/
def GraphOK (nodes : List node) (nnodes : Nat) : Prop :=
  nodes.length = nnodes ∧ (∀ i : Nat, i < nnodes → (node_at nodes i).num = i) ∧
    ArcsOK nodes nnodes

/-- A graph of `nnodes` nodes whose node numbers are a permutation of
`0..nnodes-1`. -/
def GraphPermOK (nodes : List node) (nnodes : Nat) : Prop :=
  (nodes.map node.num).Perm (List.range nnodes) ∧ ArcsOK nodes nnodes

/-- The position table and the heap array invert each other on the `n` slots
and the `n` vertex numbers, and neither leaves the range `0..n-1`. -/
structure HInv (n : Nat) (A : Int → heap_node) (track : Int → Int) : Prop where
  vr : ∀ i : Int, 0 ≤ i → i < n → 0 ≤ (A i).v_ind ∧ (A i).v_ind < n
  tv : ∀ i : Int, 0 ≤ i → i < n → track (A i).v_ind = i
  tr : ∀ v : Int, 0 ≤ v → v < n → 0 ≤ track v ∧ track v < n
  vt : ∀ v : Int, 0 ≤ v → v < n → (A (track v)).v_ind = v

/-- `Moves n b A track A1 track1`: the heap `(A1, track1)` arises from
`(A, track)` by moving entries among the slots `0..b`: the tables still invert
each other, every vertex keeps its entry, and a vertex in a slot above `b`
keeps its slot. -/
def Moves (n : Nat) (b : Int) (A : Int → heap_node) (track : Int → Int)
    (A1 : Int → heap_node) (track1 : Int → Int) : Prop :=
  HInv n A1 track1 ∧ (∀ v : Int, 0 ≤ v → v < n → A1 (track1 v) = A (track v)) ∧
    (∀ v : Int, 0 ≤ v → v < n → b < track v → track1 v = track v)

instance (nodes : List node) (nnodes : Nat) : Decidable (GraphOK nodes nnodes) := by
  unfold GraphOK; infer_instance

/-- `Walk nodes u v w`: there is a directed path from `u` to `v` whose arc
weights add up to `w`. -/
inductive Walk (nodes : List node) : Nat → Nat → Nat → Prop
  | nil (u : Nat) : Walk nodes u u 0
  | cons {u v w : Nat} (a : arc) :
      a ∈ (node_at nodes u).arcv → Walk nodes a.target v w → Walk nodes u v (a.wt + w)

/-- `RouteCost nodes r c`: every consecutive pair of `r` is joined by an arc of
the graph, and `c` is the sum of the weights of one such arc per pair. -/
inductive RouteCost (nodes : List node) : List Int → Nat → Prop
  | single (v : Int) : RouteCost nodes [v] 0
  | step {b : Int} {r : List Int} {c : Nat} (a : Int) (e : arc) :
      e ∈ (node_at nodes a).arcv → (e.target : Int) = b → RouteCost nodes (b :: r) c →
      RouteCost nodes (a :: b :: r) (e.wt + c)

/-- The route that `djikstra` prints starts at the source, ends at the
target, joins every consecutive pair by an arc of the graph, and the stored
cost is the sum of the weights of one such arc per pair. -/
def RouteValid (nodes : List node) (nnodes source target : Nat) : Prop :=
  ∃ r : List Int, (djikstra nodes nnodes source target).route = some r ∧
    r.head? = some (source : Int) ∧ r.getLast? = some (target : Int) ∧
    RouteCost nodes r (djikstra nodes nnodes source target).cost

/-- The heap entry of vertex `v`: `Q[heap_track[v]]`. -/
def ent (st : DjState) (v : Int) : heap_node := st.Q (st.heap_track v)

instance (nodes : List node) (nnodes : Nat) : Decidable (GraphPermOK nodes nnodes) := by
  unfold GraphPermOK; infer_instance

/-- The test of line 103 for the arc `a` in the state `st`. -/
def dj_relax_cond (st : DjState) (a : arc) : Bool :=
  (decide ((st.Q (st.heap_track a.target)).d = -1)
      || decide (toU32 (st.Q (st.heap_track a.target)).d > dj_cand st a))
    && decide (st.heap_track a.target ≤ st.size)

/-- The heap array after lines 104 and 105 for the arc `a`. -/
def dj_relax_Q1 (u : Int) (st : DjState) (a : arc) : Int → heap_node :=
  Function.update st.Q (st.heap_track a.target)
    { st.Q (st.heap_track a.target) with d := toI32 (dj_cand st a), pi := u }

/-- What the entries say about paths while the main loop runs from `source`:
the tables are exact, `0 ≤ size < n`, the source has distance 0 and no
predecessor, every other vertex with a finite distance has an extracted
predecessor in a higher slot from which one arc leads to it with matching
distance, a finite distance is the weight of a path from the source, and
every extracted vertex (slot above `size`) has a finite distance. -/
structure PInv (nodes : List node) (n source : Nat) (st : DjState) : Prop where
  hinv : HInv n st.Q st.heap_track
  size_lt : st.size < n
  size_nonneg : 0 ≤ st.size
  src : ent st source = ⟨0, -1, source⟩
  chain : ∀ v : Int, 0 ≤ v → v < n → v ≠ source → (ent st v).d ≠ -1 →
    0 ≤ (ent st v).pi ∧ (ent st v).pi < n ∧ st.size < st.heap_track (ent st v).pi ∧
    st.heap_track v < st.heap_track (ent st v).pi ∧
    ∃ e ∈ (node_at nodes (ent st v).pi).arcv,
      (e.target : Int) = v ∧ (ent st v).d = (ent st (ent st v).pi).d + e.wt
  walk : ∀ v : Nat, v < n → (ent st v).d ≠ -1 →
    ∃ w : Nat, Walk nodes source v w ∧ (ent st v).d = w
  fin : ∀ v : Int, 0 ≤ v → v < n → st.size < st.heap_track v → (ent st v).d ≠ -1

/-- Every arc of an extracted vertex leads to a vertex with a finite
distance. -/
def Closed (nodes : List node) (n : Nat) (st : DjState) : Prop :=
  ∀ x : Nat, x < n → st.size < st.heap_track x →
    ∀ e ∈ (node_at nodes x).arcv, (ent st e.target).d ≠ -1

/-! ## The main loop without the early exit -/

/-- One iteration of the main loop with the test `u == target` of lines 110
and 111 removed. -/
def dj_iter_full (nodes : List node) (st : DjState) : DjState :=
  let e := dj_extract st
  dj_relax_all nodes e.2 e.1

/-- The main loop without the early exit, with an iteration budget: it runs
until `size > 0` fails. -/
def dj_loop_full (nodes : List node) : Nat → DjState → DjState
  | 0, st => st
  | fuel + 1, st =>
    if st.size > 0 then dj_loop_full nodes fuel (dj_iter_full nodes st) else st

/-- The state when the main loop without the early exit has ended. -/
def dj_final_full (nodes : List node) (nnodes source : Nat) : DjState :=
  dj_loop_full nodes nnodes (dj_init nodes nnodes source)

/-- The result of `djikstra` with the early exit removed from its main loop;
everything else is as in `djikstra`. -/
def djikstra_full (nodes : List node) (nnodes source target : Nat) : DjResult :=
  let st := dj_final_full nodes nnodes source
  let cost := toU32 (st.Q (st.heap_track target)).d
  let u := (st.Q (st.heap_track target)).pi
  let sol := dj_walk nnodes st.Q st.heap_track source (nnodes + 1) u [(target : Int)]
  ⟨0, cost, sol.map List.reverse⟩

/-! ## Accesses of `Pull_Up` and further vocabulary -/

/-- The indices of the elements of `A` that `Pull_Up(A, i, track)` reads or
writes, in order: the test of line 48 reads `A[P]` and `A[i]` before it looks
at `P != -1`; `swap_Heap(A, i, P, track)` reads and writes `A[i]` and `A[P]`. -/
def Pull_Up_accesses : Nat → (Int → heap_node) → Int → (Int → Int) → List Int
  | 0, _, _, _ => []
  | fuel + 1, A, i, track =>
    let P := Pull_Up_P i
    if (decide ((A P).d > (A i).d) || decide ((A P).d = -1)) && decide (P ≠ -1) then
      let h := swap_Heap A i P track
      [P, i, i, P] ++ Pull_Up_accesses fuel h.A P h.track
    else [P, i]

/-- The accesses of a call `Pull_Up(A, i, track)`, with the budget of
`Pull_Up`. -/
def Pull_Up_trace (A : Int → heap_node) (i : Int) (track : Int → Int) : List Int :=
  Pull_Up_accesses (i.toNat + 1) A i track

/-- `Desc i j`: slot `j` lies in the subtree rooted at slot `i`. -/
inductive Desc : Int → Int → Prop
  | self (i : Int) : Desc i i
  | left {i j : Int} : Desc (2 * i + 1) j → Desc i j
  | right {i j : Int} : Desc (2 * i + 2) j → Desc i j

/-- Heap order, with `-1` as the largest distance, inside the subtree rooted
at `i`, restricted to the slots `0..size`. -/
def SubtreeOrder (A : Int → heap_node) (size i : Int) : Prop :=
  ∀ j : Int, Desc i j → ∀ c : Int, c = 2 * j + 1 ∨ c = 2 * j + 2 → c ≤ size →
    dist_le (A j).d (A c).d

/-- Heap order, with `-1` as the largest distance, on the slots `0..size` of
an array. -/
def HeapOrderOn (A : Int → heap_node) (size : Int) : Prop :=
  ∀ j : Int, 1 ≤ j → j ≤ size → dist_le (A ((j - 1) / 2)).d (A j).d

/-- The entries in the slots `0..size` of `A1` are a permutation of those of
`A`. -/
def SlotsPerm (size : Int) (A A1 : Int → heap_node) : Prop :=
  ((List.range (size + 1).toNat).map (fun j : Nat => A1 j)).Perm
    ((List.range (size + 1).toNat).map (fun j : Nat => A j))

/-- Every vertex that is extracted in `a` (slot above `size`) has the same
slot and the same entry in `b`. -/
def FrozenKept (n : Nat) (a b : DjState) : Prop :=
  ∀ v : Int, 0 ≤ v → v < n → a.size < a.heap_track v →
    b.heap_track v = a.heap_track v ∧ b.Q (b.heap_track v) = a.Q (a.heap_track v)

/-- `b` comes no earlier than `a` in a run: `size` has not grown and the
extracted vertices of `a` are kept. -/
def Later (n : Nat) (a b : DjState) : Prop :=
  b.size ≤ a.size ∧ FrozenKept n a b

/-- Every predecessor field is `-1` or an extracted vertex. -/
def PiInv (n : Nat) (st : DjState) : Prop :=
  ∀ x : Int, 0 ≤ x → x < n →
    (ent st x).pi = -1 ∨
      (0 ≤ (ent st x).pi ∧ (ent st x).pi < n ∧ st.size < st.heap_track (ent st x).pi)

/-- Two nodes without arcs. -/
def isolated2 : List node := [⟨0, 0, 0, 0, []⟩, ⟨1, 0, 0, 0, []⟩]

/-- A two-slot heap array with the sentinel in slot 0 above the finite
distance 5 in slot 1. -/
def heapA2 : Int → heap_node :=
  fun j => if j = 0 then ⟨-1, -1, 0⟩ else if j = 1 then ⟨5, -1, 1⟩ else ⟨0, 0, 0⟩

/-- A one-slot heap array. -/
def heapA1 : Int → heap_node := fun _ => ⟨0, -1, 0⟩

/-- The position table in which vertex `v` is in slot `v`. -/
def trackId : Int → Int := fun v => v


/-- A three-slot heap array in heap order except for slot 2, whose distance 2
is smaller than the distance 4 of its parent; slot 1 holds the sentinel. -/
def heapA3 : Int → heap_node :=
  fun j => if j = 0 then ⟨4, -1, 0⟩ else if j = 1 then ⟨-1, -1, 1⟩
    else if j = 2 then ⟨2, 0, 2⟩ else ⟨0, 0, 0⟩

/-- The version-1 stream of one node record that carries the number 5 and one
arc to node 5 of weight 1. -/
def stream_id5 : List Nat := serialise 1 0 [⟨5, 0, 0, [⟨5, 1⟩]⟩]


/-! ## The position table under the heap primitives -/

theorem node_at_nat (nodes : List node) (n : Nat) :
    node_at nodes (n : Int) = nodes.getD n ⟨0, 0, 0, 0, []⟩ := by
  unfold node_at
  rw [Int.toNat_natCast]

theorem swap_A (A : Int → heap_node) (x y : Int) (track : Int → Int) (j : Int) :
    (swap_Heap A x y track).A j = if j = y then A x else if j = x then A y else A j := by
  simp only [swap_Heap, Function.update_apply]

theorem swap_track (A : Int → heap_node) (x y : Int) (track : Int → Int) (v : Int) :
    (swap_Heap A x y track).track v =
      if v = (A x).v_ind then y else if v = (A y).v_ind then x else track v := by
  simp only [swap_Heap, Function.update_apply]
  simp only [if_true]
  by_cases hxy : x = y
  · subst hxy; simp
  · simp [hxy]

theorem HInv.inj {n : Nat} {A : Int → heap_node} {track : Int → Int} (h : HInv n A track)
    {i j : Int} (hi : 0 ≤ i) (hi2 : i < n) (hj : 0 ≤ j) (hj2 : j < n)
    (e : (A i).v_ind = (A j).v_ind) : i = j := by
  have h1 := h.tv i hi hi2
  have h2 := h.tv j hj hj2
  rw [e] at h1
  omega

theorem HInv.slot_eq {n : Nat} {A : Int → heap_node} {track : Int → Int} (h : HInv n A track)
    {i v : Int} (hi : 0 ≤ i) (hi2 : i < n) (hv : 0 ≤ v) (hv2 : v < n) :
    v = (A i).v_ind ↔ track v = i := by
  constructor
  · intro e; rw [e]; exact h.tv i hi hi2
  · intro e; rw [← e]; exact (h.vt v hv hv2).symm

theorem swap_Moves {n : Nat} {b : Int} {A : Int → heap_node} {track : Int → Int}
    (h : HInv n A track) {x y : Int} (hx : 0 ≤ x) (hxb : x ≤ b) (hy : 0 ≤ y) (hyb : y ≤ b)
    (hb : b < n) :
    Moves n b A track (swap_Heap A x y track).A (swap_Heap A x y track).track := by
  have hxn : x < n := by omega
  have hyn : y < n := by omega
  have tx := h.tv x hx hxn
  have ty := h.tv y hy hyn
  refine ⟨⟨?_, ?_, ?_, ?_⟩, ?_, ?_⟩
  · intro i hi hin
    rw [swap_A]
    split_ifs
    · exact h.vr x hx hxn
    · exact h.vr y hy hyn
    · exact h.vr i hi hin
  · intro i hi hin
    have ti := h.tv i hi hin
    rw [swap_A, swap_track]
    by_cases h1 : i = y
    · subst h1; simp
    · by_cases h2 : i = x
      · subst h2
        have hne : ¬ (A y).v_ind = (A i).v_ind := fun e => h1 (h.inj hi hin hy hyn e.symm)
        rw [if_neg h1, if_pos rfl, if_neg hne, if_pos rfl]
      · have hne1 : ¬ (A i).v_ind = (A x).v_ind := fun e => h2 (h.inj hi hin hx hxn e)
        have hne2 : ¬ (A i).v_ind = (A y).v_ind := fun e => h1 (h.inj hi hin hy hyn e)
        rw [if_neg h1, if_neg h2, if_neg hne1, if_neg hne2, ti]
  · intro v hv hvn
    have := h.tr v hv hvn
    rw [swap_track]
    split_ifs
    · exact ⟨hy, hyn⟩
    · exact ⟨hx, hxn⟩
    · exact this
  · intro v hv hvn
    have e1 := h.slot_eq hx hxn hv hvn
    have e2 := h.slot_eq hy hyn hv hvn
    have tvv := h.vt v hv hvn
    rw [swap_track]
    by_cases h1 : v = (A x).v_ind
    · rw [if_pos h1, swap_A, if_pos rfl, ← h1]
    · rw [if_neg h1]
      by_cases h2 : v = (A y).v_ind
      · have hxy : ¬ x = y := by
          intro e; rw [e] at h1; exact h1 h2
        rw [if_pos h2, swap_A, if_neg hxy, if_pos rfl, ← h2]
      · rw [if_neg h2, swap_A, if_neg (fun e => h2 (e2.2 e)), if_neg (fun e => h1 (e1.2 e)), tvv]
  · intro v hv hvn
    have e1 := h.slot_eq hx hxn hv hvn
    have e2 := h.slot_eq hy hyn hv hvn
    rw [swap_track]
    by_cases h1 : v = (A x).v_ind
    · rw [if_pos h1, swap_A, if_pos rfl, e1.1 h1]
    · rw [if_neg h1]
      by_cases h2 : v = (A y).v_ind
      · have hxy : ¬ x = y := by
          intro e; rw [e] at h1; exact h1 h2
        rw [if_pos h2, swap_A, if_neg hxy, if_pos rfl, e2.1 h2]
      · rw [if_neg h2, swap_A, if_neg (fun e => h2 (e2.2 e)), if_neg (fun e => h1 (e1.2 e))]
  · intro v hv hvn hbv
    have e1 := h.slot_eq hx hxn hv hvn
    have e2 := h.slot_eq hy hyn hv hvn
    rw [swap_track]
    have h1 : ¬ v = (A x).v_ind := by
      intro e; have := e1.1 e; omega
    have h2 : ¬ v = (A y).v_ind := by
      intro e; have := e2.1 e; omega
    rw [if_neg h1, if_neg h2]

theorem Moves.refl {n : Nat} {A : Int → heap_node} {track : Int → Int} (b : Int)
    (h : HInv n A track) : Moves n b A track A track :=
  ⟨h, fun _ _ _ => rfl, fun _ _ _ _ => rfl⟩

theorem Moves.trans {n : Nat} {b : Int} {A A1 A2 : Int → heap_node} {t t1 t2 : Int → Int}
    (h1 : Moves n b A t A1 t1) (h2 : Moves n b A1 t1 A2 t2) : Moves n b A t A2 t2 := by
  refine ⟨h2.1, ?_, ?_⟩
  · intro v hv hvn
    rw [h2.2.1 v hv hvn, h1.2.1 v hv hvn]
  · intro v hv hvn hb
    have e1 := h1.2.2 v hv hvn hb
    rw [h2.2.2 v hv hvn (by rw [e1]; exact hb), e1]

theorem Moves.mono {n : Nat} {b c : Int} {A A1 : Int → heap_node} {t t1 : Int → Int}
    (h : Moves n b A t A1 t1) (hbc : b ≤ c) : Moves n c A t A1 t1 :=
  ⟨h.1, h.2.1, fun v hv hvn hc => h.2.2 v hv hvn (by omega)⟩

theorem Pull_Up_P_range {i : Int} (hi : 0 < i) : 0 ≤ Pull_Up_P i ∧ Pull_Up_P i < i := by
  unfold Pull_Up_P
  split_ifs <;> omega

theorem Pull_Up_P_zero : Pull_Up_P 0 = -1 := by
  simp [Pull_Up_P]

/-- `Pull_Up` only moves entries among the slots `0..i`; the same holds after
each of its swaps; the returned slot lies in `0..i`. -/
theorem Pull_Up_fuel_Moves {n : Nat} (fuel : Nat) :
    ∀ (A : Int → heap_node) (i : Int) (track : Int → Int), HInv n A track → 0 ≤ i → i < n →
      Moves n i A track (Pull_Up_fuel fuel A i track).1.A (Pull_Up_fuel fuel A i track).1.track ∧
      0 ≤ (Pull_Up_fuel fuel A i track).2 ∧ (Pull_Up_fuel fuel A i track).2 ≤ i ∧
      ∀ h ∈ Pull_Up_points fuel A i track, Moves n i A track h.A h.track := by
  induction fuel with
  | zero =>
    intro A i track h hi hin
    exact ⟨Moves.refl i h, hi, le_refl i, by simp [Pull_Up_points]⟩
  | succ fuel ih =>
    intro A i track h hi hin
    simp only [Pull_Up_fuel, Pull_Up_points]
    split_ifs with hc
    · have hP : Pull_Up_P i ≠ -1 := by
        simp only [Bool.and_eq_true, decide_eq_true_eq] at hc
        exact hc.2
      have hi0 : 0 < i := by
        rcases lt_or_eq_of_le hi with h0 | h0
        · exact h0
        · exfalso; apply hP; rw [← h0]; exact Pull_Up_P_zero
      have hr := Pull_Up_P_range hi0
      have hs : Moves n i A track (swap_Heap A i (Pull_Up_P i) track).A
          (swap_Heap A i (Pull_Up_P i) track).track :=
        swap_Moves h hi (le_refl i) hr.1 (le_of_lt hr.2) hin
      have := ih (swap_Heap A i (Pull_Up_P i) track).A (Pull_Up_P i)
        (swap_Heap A i (Pull_Up_P i) track).track hs.1 hr.1 (by omega)
      refine ⟨hs.trans (this.1.mono (le_of_lt hr.2)), this.2.1, by omega, ?_⟩
      intro h1 hm
      rcases List.mem_cons.1 hm with e | hm
      · rw [e]; exact hs
      · exact hs.trans ((this.2.2.2 h1 hm).mono (le_of_lt hr.2))
    · exact ⟨Moves.refl i h, hi, le_refl i, by simp⟩

theorem Min_Heapify_smallest_cases (A : Int → heap_node) (i size : Int) :
    Min_Heapify_smallest A i size = i ∨
      (Min_Heapify_smallest A i size = 2 * i + 1 ∧ 2 * i + 1 ≤ size) ∨
      (Min_Heapify_smallest A i size = 2 * i + 2 ∧ 2 * i + 2 ≤ size) := by
  unfold Min_Heapify_smallest
  simp only [Bool.and_eq_true, decide_eq_true_eq]
  by_cases hL : (2 * i + 1 ≤ size ∧ (A (2 * i + 1)).d < (A i).d) ∧ (A (2 * i + 1)).d ≠ -1
  · rw [if_pos hL]
    split_ifs with hR
    · exact Or.inr (Or.inr ⟨rfl, hR.1.1⟩)
    · exact Or.inr (Or.inl ⟨rfl, hL.1.1⟩)
  · rw [if_neg hL]
    split_ifs with hR
    · exact Or.inr (Or.inr ⟨rfl, hR.1.1⟩)
    · exact Or.inl rfl

/-- `Min_Heapify` only moves entries among the slots `0..size`, and the same
holds after each of its swaps. -/
theorem Min_Heapify_fuel_Moves {n : Nat} (size : Int) (hs : size < n) (fuel : Nat) :
    ∀ (A : Int → heap_node) (i : Int) (track : Int → Int), HInv n A track → 0 ≤ i →
      Moves n size A track (Min_Heapify_fuel fuel A i size track).A
        (Min_Heapify_fuel fuel A i size track).track ∧
      ∀ h ∈ Min_Heapify_points fuel A i size track, Moves n size A track h.A h.track := by
  induction fuel with
  | zero =>
    intro A i track h hi
    exact ⟨Moves.refl size h, by simp [Min_Heapify_points]⟩
  | succ fuel ih =>
    intro A i track h hi
    simp only [Min_Heapify_fuel, Min_Heapify_points]
    by_cases hc : Min_Heapify_smallest A i size = i
    · rw [if_neg (not_not.2 hc), if_neg (not_not.2 hc)]
      exact ⟨Moves.refl size h, by simp⟩
    · rw [if_pos hc, if_pos hc]
      have hsm : 0 ≤ Min_Heapify_smallest A i size ∧ Min_Heapify_smallest A i size ≤ size ∧
          i ≤ size := by
        rcases Min_Heapify_smallest_cases A i size with e | e | e
        · exact absurd e hc
        · rw [e.1]; omega
        · rw [e.1]; omega
      have hsw : Moves n size A track (swap_Heap A i (Min_Heapify_smallest A i size) track).A
          (swap_Heap A i (Min_Heapify_smallest A i size) track).track :=
        swap_Moves h hi hsm.2.2 hsm.1 hsm.2.1 hs
      have := ih (swap_Heap A i (Min_Heapify_smallest A i size) track).A
        (Min_Heapify_smallest A i size)
        (swap_Heap A i (Min_Heapify_smallest A i size) track).track hsw.1 hsm.1
      refine ⟨hsw.trans this.1, ?_⟩
      intro h1 hm
      rcases List.mem_cons.1 hm with e | hm
      · rw [e]; exact hsw
      · exact hsw.trans (this.2 h1 hm)

/-! ## Recursion budgets

The recursive C functions are embedded with a budget.  The theorems of this
section show that the budgets chosen above are never used up: each function
satisfies the recursion equation of its C body.
-/

/-- At the root `Pull_Up` returns at once, whatever the cell `A[-1]` that its
test reads before `P != -1` holds. -/
theorem Pull_Up_fuel_root (fuel : Nat) (A : Int → heap_node) (track : Int → Int) :
    Pull_Up_fuel fuel A 0 track = (⟨A, track⟩, 0) := by
  cases fuel with
  | zero => rfl
  | succ fuel => simp [Pull_Up_fuel, Pull_Up_P]

theorem Pull_Up_fuel_succ (fuel : Nat) :
    ∀ (A : Int → heap_node) (i : Int) (track : Int → Int), 0 ≤ i → i.toNat < fuel →
      Pull_Up_fuel (fuel + 1) A i track = Pull_Up_fuel fuel A i track := by
  induction fuel with
  | zero => intro A i track _ h; omega
  | succ fuel ih =>
    intro A i track hi hf
    rw [Pull_Up_fuel]
    conv_rhs => rw [Pull_Up_fuel]
    split_ifs with hc
    · have hP : Pull_Up_P i ≠ -1 := by
        simp only [Bool.and_eq_true, decide_eq_true_eq] at hc
        exact hc.2
      have hi0 : 0 < i := by
        rcases lt_or_eq_of_le hi with h0 | h0
        · exact h0
        · exfalso; apply hP; rw [← h0]; exact Pull_Up_P_zero
      have hr := Pull_Up_P_range hi0
      exact ih _ _ _ hr.1 (by omega)
    · rfl

theorem Pull_Up_fuel_stable (A : Int → heap_node) (i : Int) (track : Int → Int) (hi : 0 ≤ i)
    (k : Nat) : Pull_Up_fuel (i.toNat + 1 + k) A i track = Pull_Up A i track := by
  induction k with
  | zero => rfl
  | succ k ih =>
    rw [← ih, ← Nat.add_assoc]
    exact Pull_Up_fuel_succ _ A i track hi (by omega)

/-- `Pull_Up` satisfies the recursion equation of the C function. -/
theorem Pull_Up_eq (A : Int → heap_node) (i : Int) (track : Int → Int) (hi : 0 ≤ i) :
    Pull_Up A i track =
      if (decide ((A (Pull_Up_P i)).d > (A i).d) || decide ((A (Pull_Up_P i)).d = -1))
          && decide (Pull_Up_P i ≠ -1) then
        Pull_Up (swap_Heap A i (Pull_Up_P i) track).A (Pull_Up_P i)
          (swap_Heap A i (Pull_Up_P i) track).track
      else (⟨A, track⟩, i) := by
  conv_lhs => rw [Pull_Up, Pull_Up_fuel]
  split_ifs with hc
  · have hP : Pull_Up_P i ≠ -1 := by
      simp only [Bool.and_eq_true, decide_eq_true_eq] at hc
      exact hc.2
    have hi0 : 0 < i := by
      rcases lt_or_eq_of_le hi with h0 | h0
      · exact h0
      · exfalso; apply hP; rw [← h0]; exact Pull_Up_P_zero
    have hr := Pull_Up_P_range hi0
    have := Pull_Up_fuel_stable (swap_Heap A i (Pull_Up_P i) track).A (Pull_Up_P i)
      (swap_Heap A i (Pull_Up_P i) track).track hr.1 (i.toNat - (Pull_Up_P i).toNat - 1)
    have e : (Pull_Up_P i).toNat + 1 + (i.toNat - (Pull_Up_P i).toNat - 1) = i.toNat := by
      omega
    rw [e] at this
    exact this
  · rfl

theorem Min_Heapify_fuel_succ (size : Int) (fuel : Nat) :
    ∀ (A : Int → heap_node) (i : Int) (track : Int → Int), 0 ≤ i → (size - i).toNat < fuel →
      Min_Heapify_fuel (fuel + 1) A i size track = Min_Heapify_fuel fuel A i size track := by
  induction fuel with
  | zero => intro A i track _ h; omega
  | succ fuel ih =>
    intro A i track hi hf
    rw [Min_Heapify_fuel]
    conv_rhs => rw [Min_Heapify_fuel]
    by_cases hc : Min_Heapify_smallest A i size = i
    · simp only [ne_eq, hc, not_true_eq_false, if_false]
    · simp only [ne_eq, hc, not_false_eq_true, if_true]
      rcases Min_Heapify_smallest_cases A i size with e | e | e
      · exact absurd e hc
      · rw [e.1]; exact ih _ _ _ (by omega) (by omega)
      · rw [e.1]; exact ih _ _ _ (by omega) (by omega)

theorem Min_Heapify_fuel_stable (A : Int → heap_node) (i size : Int) (track : Int → Int)
    (hi : 0 ≤ i) (k : Nat) :
    Min_Heapify_fuel ((size - i).toNat + 1 + k) A i size track = Min_Heapify A i size track := by
  induction k with
  | zero => rfl
  | succ k ih =>
    rw [← ih, ← Nat.add_assoc]
    exact Min_Heapify_fuel_succ size _ A i track hi (by omega)

/-- `Min_Heapify` satisfies the recursion equation of the C function. -/
theorem Min_Heapify_eq (A : Int → heap_node) (i size : Int) (track : Int → Int) (hi : 0 ≤ i) :
    Min_Heapify A i size track =
      if Min_Heapify_smallest A i size ≠ i then
        Min_Heapify (swap_Heap A i (Min_Heapify_smallest A i size) track).A
          (Min_Heapify_smallest A i size) size
          (swap_Heap A i (Min_Heapify_smallest A i size) track).track
      else ⟨A, track⟩ := by
  conv_lhs => rw [Min_Heapify, Min_Heapify_fuel]
  by_cases hc : Min_Heapify_smallest A i size = i
  · simp only [ne_eq, hc, not_true_eq_false, if_false]
  · simp only [ne_eq, hc, not_false_eq_true, if_true]
    have hsm : 0 ≤ Min_Heapify_smallest A i size ∧ i < Min_Heapify_smallest A i size ∧
        Min_Heapify_smallest A i size ≤ size := by
      rcases Min_Heapify_smallest_cases A i size with e | e | e
      · exact absurd e hc
      · rw [e.1]; omega
      · rw [e.1]; omega
    have := Min_Heapify_fuel_stable
      (swap_Heap A i (Min_Heapify_smallest A i size) track).A
      (Min_Heapify_smallest A i size) size
      (swap_Heap A i (Min_Heapify_smallest A i size) track).track hsm.1
      ((size - i).toNat - (size - Min_Heapify_smallest A i size).toNat - 1)
    have e : (size - Min_Heapify_smallest A i size).toNat + 1
        + ((size - i).toNat - (size - Min_Heapify_smallest A i size).toNat - 1)
        = (size - i).toNat := by
      omega
    rw [e] at this
    exact this

/-- The budget of the predecessor walk is never used up before the bound of
`solution` is reached: with `nnodes + 1` rounds for the first call, one more
round changes nothing. -/
theorem dj_walk_fuel_succ (nnodes : Nat) (Q : Int → heap_node) (track : Int → Int)
    (source : Nat) (fuel : Nat) :
    ∀ (u : Int) (sol : List Int), nnodes + 1 ≤ fuel + sol.length →
      dj_walk nnodes Q track source (fuel + 1) u sol = dj_walk nnodes Q track source fuel u sol := by
  induction fuel with
  | zero =>
    intro u sol h
    have hl : ¬ sol.length < nnodes := by omega
    simp [dj_walk, hl]
  | succ fuel ih =>
    intro u sol h
    rw [dj_walk]
    conv_rhs => rw [dj_walk]
    split_ifs with h1 h2
    · exact ih _ _ (by rw [List.length_append]; simp only [List.length_singleton]; omega)
    · rfl
    · rfl
    · rfl

/-! ## The position table along a run of `djikstra` -/

theorem HInv.update_same_vind {n : Nat} {A : Int → heap_node} {track : Int → Int}
    (h : HInv n A track) (j : Int) (e : heap_node) (he : e.v_ind = (A j).v_ind) :
    HInv n (Function.update A j e) track := by
  have key : ∀ i : Int, (Function.update A j e i).v_ind = (A i).v_ind := by
    intro i
    rw [Function.update_apply]
    split_ifs with hij
    · rw [hij]; exact he
    · rfl
  refine ⟨?_, ?_, h.tr, ?_⟩
  · intro i hi hin; rw [key]; exact h.vr i hi hin
  · intro i hi hin; rw [key]; exact h.tv i hi hin
  · intro v hv hvn; rw [key]; exact h.vt v hv hvn

theorem dj_relax_of_not_cond (u : Int) (st : DjState) (a : arc)
    (hc : dj_relax_cond st a = false) : dj_relax u st a = st := by
  unfold dj_relax_cond at hc
  simp only [dj_relax, hc]
  simp

theorem dj_relax_of_cond (u : Int) (st : DjState) (a : arc) (hc : dj_relax_cond st a = true) :
    dj_relax u st a =
      ⟨(Min_Heapify (Pull_Up (dj_relax_Q1 u st a) (st.heap_track a.target) st.heap_track).1.A
          (Pull_Up (dj_relax_Q1 u st a) (st.heap_track a.target) st.heap_track).2 st.size
          (Pull_Up (dj_relax_Q1 u st a) (st.heap_track a.target) st.heap_track).1.track).A,
        (Min_Heapify (Pull_Up (dj_relax_Q1 u st a) (st.heap_track a.target) st.heap_track).1.A
          (Pull_Up (dj_relax_Q1 u st a) (st.heap_track a.target) st.heap_track).2 st.size
          (Pull_Up (dj_relax_Q1 u st a) (st.heap_track a.target) st.heap_track).1.track).track,
        st.size⟩ := by
  unfold dj_relax_cond at hc
  simp only [dj_relax, hc, dj_relax_Q1]
  simp

theorem dj_relax_size (u : Int) (st : DjState) (a : arc) : (dj_relax u st a).size = st.size := by
  cases hc : dj_relax_cond st a
  · rw [dj_relax_of_not_cond u st a hc]
  · rw [dj_relax_of_cond u st a hc]

/-- One relaxation round, when its test succeeds, updates the entry in slot
`heap_track[target]` and then only moves entries among the slots `0..size`;
all heaps it passes through keep the position table exact. -/
theorem dj_relax_Moves {n : Nat} (u : Int) (st : DjState) (a : arc)
    (h : HInv n st.Q st.heap_track) (hs : st.size < n) (ha : a.target < n) :
    (dj_relax_cond st a = true →
      Moves n st.size (dj_relax_Q1 u st a) st.heap_track (dj_relax u st a).Q
        (dj_relax u st a).heap_track) ∧
    HInv n (dj_relax u st a).Q (dj_relax u st a).heap_track ∧
    ∀ p ∈ dj_relax_points u st a, HInv n p.A p.track := by
  cases hc : dj_relax_cond st a
  · rw [dj_relax_of_not_cond u st a hc]
    refine ⟨by simp, h, ?_⟩
    unfold dj_relax_cond at hc
    simp only [dj_relax_points, hc]
    simp
  · have hv := h.tr a.target (by omega) (by exact_mod_cast ha)
    have hvs : st.heap_track a.target ≤ st.size := by
      unfold dj_relax_cond at hc
      simp only [Bool.and_eq_true, decide_eq_true_eq] at hc
      exact hc.2
    have h1 : HInv n (dj_relax_Q1 u st a) st.heap_track :=
      h.update_same_vind _ _ rfl
    have hp := Pull_Up_fuel_Moves ((st.heap_track a.target).toNat + 1) (dj_relax_Q1 u st a)
      (st.heap_track a.target) st.heap_track h1 hv.1 hv.2
    have hm := Min_Heapify_fuel_Moves st.size hs
      ((st.size - (Pull_Up (dj_relax_Q1 u st a) (st.heap_track a.target) st.heap_track).2).toNat + 1)
      (Pull_Up (dj_relax_Q1 u st a) (st.heap_track a.target) st.heap_track).1.A
      (Pull_Up (dj_relax_Q1 u st a) (st.heap_track a.target) st.heap_track).2
      (Pull_Up (dj_relax_Q1 u st a) (st.heap_track a.target) st.heap_track).1.track
      hp.1.1 hp.2.1
    have hfin : Moves n st.size (dj_relax_Q1 u st a) st.heap_track (dj_relax u st a).Q
        (dj_relax u st a).heap_track := by
      rw [dj_relax_of_cond u st a hc]
      exact (hp.1.mono hvs).trans hm.1
    refine ⟨fun _ => hfin, hfin.1, ?_⟩
    intro p hpm
    unfold dj_relax_cond at hc
    simp only [dj_relax_points, hc, if_true, List.mem_append, List.mem_singleton] at hpm
    rcases hpm with (((hpm | hpm) | hpm) | hpm) | hpm
    · rw [hpm]; exact h1
    · exact (hp.2.2.2 p hpm).1
    · rw [hpm]; exact hp.1.1
    · exact (hm.2 p hpm).1
    · rw [hpm]; exact hm.1.1

theorem arc_at_mem {arcv : List arc} {i : Nat} (hi : i < arcv.length) :
    arc_at arcv i ∈ arcv := by
  unfold arc_at
  rw [List.getD_eq_getElem _ _ hi]
  exact List.getElem_mem _

theorem node_at_mem {nodes : List node} {u : Int} (hu : 0 ≤ u) (hun : u < nodes.length) :
    node_at nodes u ∈ nodes := by
  unfold node_at
  have : u.toNat < nodes.length := by omega
  rw [List.getD_eq_getElem _ _ this]
  exact List.getElem_mem _

/-- The arcs that the relaxation loop of `nodes[u]` reads point into the
graph. -/
theorem ArcsOK.target_lt {nodes : List node} {n : Nat} (hg : ArcsOK nodes n) {u : Int}
    (hu : 0 ≤ u) (hun : u < nodes.length) {i : Nat}
    (hi : i ∈ List.range (node_at nodes u).narcs) :
    (arc_at (node_at nodes u).arcv i).target < n := by
  have hm := hg _ (node_at_mem hu hun)
  rw [List.mem_range, hm.1] at hi
  exact hm.2 _ (arc_at_mem hi)

theorem dj_relax_all_HInv {n : Nat} (nodes : List node) (u : Int) (l : List Nat)
    (hl : ∀ i ∈ l, (arc_at (node_at nodes u).arcv i).target < n) :
    ∀ st : DjState, HInv n st.Q st.heap_track → st.size < n →
      HInv n (l.foldl (fun s i => dj_relax u s (arc_at (node_at nodes u).arcv i)) st).Q
        (l.foldl (fun s i => dj_relax u s (arc_at (node_at nodes u).arcv i)) st).heap_track ∧
      (l.foldl (fun s i => dj_relax u s (arc_at (node_at nodes u).arcv i)) st).size = st.size ∧
      ∀ p ∈ dj_relax_all_points nodes u l st, HInv n p.A p.track := by
  induction l with
  | nil =>
    intro st h _
    exact ⟨h, rfl, by simp [dj_relax_all_points]⟩
  | cons i l ih =>
    intro st h hs
    have hi := hl i (List.mem_cons_self _ _)
    have hr := dj_relax_Moves u st (arc_at (node_at nodes u).arcv i) h hs hi
    have hsz := dj_relax_size u st (arc_at (node_at nodes u).arcv i)
    have := ih (fun j hj => hl j (List.mem_cons_of_mem _ hj))
      (dj_relax u st (arc_at (node_at nodes u).arcv i)) hr.2.1 (by rw [hsz]; exact hs)
    simp only [List.foldl_cons, dj_relax_all_points, List.mem_append]
    refine ⟨this.1, by rw [this.2.1, hsz], ?_⟩
    intro p hp
    rcases hp with hp | hp
    · exact hr.2.2 p hp
    · exact this.2.2 p hp

/-- The extraction step keeps the position table exact, lowers `size` by one
and takes a vertex of the graph. -/
theorem dj_extract_HInv {n : Nat} (st : DjState) (h : HInv n st.Q st.heap_track)
    (hs0 : 0 < st.size) (hs : st.size < n) :
    Moves n st.size st.Q st.heap_track (dj_extract st).1.Q (dj_extract st).1.heap_track ∧
    (dj_extract st).1.size = st.size - 1 ∧
    (dj_extract st).2 = (st.Q 0).v_ind ∧
    ∀ p ∈ [swap_Heap st.Q st.size 0 st.heap_track] ++
        Min_Heapify_points ((st.size - 1 - 0).toNat + 1) (swap_Heap st.Q st.size 0 st.heap_track).A
          0 (st.size - 1) (swap_Heap st.Q st.size 0 st.heap_track).track ++
        [⟨(dj_extract st).1.Q, (dj_extract st).1.heap_track⟩], HInv n p.A p.track := by
  have hsw : Moves n st.size st.Q st.heap_track (swap_Heap st.Q st.size 0 st.heap_track).A
      (swap_Heap st.Q st.size 0 st.heap_track).track :=
    swap_Moves h (le_of_lt hs0) (le_refl _) (le_refl _) (le_of_lt hs0) hs
  have hm := Min_Heapify_fuel_Moves (st.size - 1) (by omega) ((st.size - 1 - 0).toNat + 1)
    (swap_Heap st.Q st.size 0 st.heap_track).A 0 (swap_Heap st.Q st.size 0 st.heap_track).track
    hsw.1 (le_refl _)
  have hfin : Moves n st.size st.Q st.heap_track (dj_extract st).1.Q
      (dj_extract st).1.heap_track := by
    simp only [dj_extract, Min_Heapify]
    exact hsw.trans (hm.1.mono (by omega))
  refine ⟨hfin, rfl, rfl, ?_⟩
  intro p hp
  simp only [List.mem_append, List.mem_singleton] at hp
  rcases hp with (hp | hp) | hp
  · rw [hp]; exact hsw.1
  · exact (hm.2 p hp).1
  · rw [hp]; exact hfin.1

/-- One iteration of the main loop keeps the position table exact in every
heap it passes through and lowers `size`. -/
theorem dj_iter_HInv {n : Nat} (nodes : List node) (target : Nat) (hlen : nodes.length = n)
    (hg : ArcsOK nodes n) (st : DjState) (h : HInv n st.Q st.heap_track)
    (hs0 : 0 < st.size) (hs : st.size < n) :
    HInv n (dj_iter nodes target st).Q (dj_iter nodes target st).heap_track ∧
    (dj_iter nodes target st).size < st.size ∧
    ∀ p ∈ dj_iter_points nodes st, HInv n p.A p.track := by
  have he := dj_extract_HInv st h hs0 hs
  have hu := h.vr 0 (le_refl _) (by omega)
  rw [← he.2.2.1] at hu
  have hra := dj_relax_all_HInv nodes (dj_extract st).2
    (List.range (node_at nodes (dj_extract st).2).narcs)
    (fun i hi => hg.target_lt hu.1 (by rw [hlen]; exact hu.2) hi)
    (dj_extract st).1 he.1.1 (by rw [he.2.1]; omega)
  refine ⟨?_, ?_, ?_⟩
  · simp only [dj_iter, dj_relax_all]
    split_ifs
    · exact hra.1
    · exact hra.1
  · simp only [dj_iter, dj_relax_all]
    split_ifs
    · simp only; omega
    · rw [hra.2.1, he.2.1]; omega
  · intro p hp
    simp only [dj_iter_points, List.mem_append] at hp
    rcases hp with hp | hp
    · exact he.2.2.2 p (by simpa only [List.mem_append] using hp)
    · exact hra.2.2 p hp

theorem dj_loop_HInv {n : Nat} (nodes : List node) (target : Nat) (hlen : nodes.length = n)
    (hg : ArcsOK nodes n) (fuel : Nat) :
    ∀ st : DjState, HInv n st.Q st.heap_track → st.size < n →
      HInv n (dj_loop nodes target fuel st).Q (dj_loop nodes target fuel st).heap_track ∧
      ∀ p ∈ dj_loop_points nodes target fuel st, HInv n p.A p.track := by
  induction fuel with
  | zero =>
    intro st h _
    exact ⟨h, by simp [dj_loop_points]⟩
  | succ fuel ih =>
    intro st h hs
    simp only [dj_loop, dj_loop_points]
    split_ifs with h0
    · have hi := dj_iter_HInv nodes target hlen hg st h h0 hs
      have := ih (dj_iter nodes target st) hi.1 (by omega)
      refine ⟨this.1, ?_⟩
      intro p hp
      rcases List.mem_append.1 hp with hp | hp
      · exact hi.2.2 p hp
      · exact this.2 p hp
    · exact ⟨h, by simp⟩

/-- The budget of the main loop is never used up: `size > 0` fails in the
state that `dj_loop` returns. -/
theorem dj_loop_exit {n : Nat} (nodes : List node) (target : Nat) (hlen : nodes.length = n)
    (hg : ArcsOK nodes n) (fuel : Nat) :
    ∀ st : DjState, HInv n st.Q st.heap_track → st.size < n → st.size ≤ fuel →
      (dj_loop nodes target fuel st).size ≤ 0 := by
  induction fuel with
  | zero => intro st _ _ hf; simpa [dj_loop] using hf
  | succ fuel ih =>
    intro st h hs hf
    simp only [dj_loop]
    split_ifs with h0
    · have hi := dj_iter_HInv nodes target hlen hg st h h0 hs
      exact ih _ hi.1 (by omega) (by omega)
    · omega

/-! ## The initialisation -/

/-- What a permutation of `0..n-1` as node numbers means for the array. -/
theorem perm_facts {nodes : List node} {n : Nat}
    (hp : (nodes.map node.num).Perm (List.range n)) :
    nodes.length = n ∧ (∀ i : Nat, i < n → (node_at nodes i).num < n) ∧
    (∀ i j : Nat, i < n → j < n → (node_at nodes i).num = (node_at nodes j).num → i = j) ∧
    (∀ v : Nat, v < n → ∃ i : Nat, i < n ∧ (node_at nodes i).num = v) := by
  have hlen : nodes.length = n := by
    have := hp.length_eq
    simpa using this
  have hnd : (nodes.map node.num).Nodup := hp.nodup_iff.2 (List.nodup_range n)
  have hget : ∀ i : Nat, ∀ hi : i < n,
      (node_at nodes i).num = (nodes.map node.num).get ⟨i, by simpa [hlen] using hi⟩ := by
    intro i hi
    rw [node_at_nat, List.getD_eq_getElem _ _ (by omega)]
    simp
  refine ⟨hlen, ?_, ?_, ?_⟩
  · intro i hi
    rw [hget i hi]
    have := hp.mem_iff.1 (List.get_mem (nodes.map node.num) i (by simpa [hlen] using hi))
    exact List.mem_range.1 this
  · intro i j hi hj e
    rw [hget i hi, hget j hj] at e
    have := (List.Nodup.get_inj_iff hnd).1 e
    exact Fin.mk.inj_iff.1 this
  · intro v hv
    have hm : v ∈ nodes.map node.num := hp.mem_iff.2 (List.mem_range.2 hv)
    obtain ⟨k, hk⟩ := List.get_of_mem hm
    have hkn : (k : Nat) < n := by
      have := k.isLt
      simpa [hlen] using this
    refine ⟨k, hkn, ?_⟩
    rw [hget k hkn]
    exact hk

/-- The node numbers of a `GraphOK` array are the identity permutation. -/
theorem GraphOK.perm {nodes : List node} {n : Nat} (hg : GraphOK nodes n) :
    GraphPermOK nodes n := by
  refine ⟨?_, hg.2.2⟩
  have : nodes.map node.num = List.range n := by
    apply List.ext_getElem
    · simp [hg.1]
    · intro i h1 h2
      have hi : i < n := by simpa using h2
      have hil : i < nodes.length := by rw [hg.1]; exact hi
      have := hg.2.1 i hi
      rw [node_at_nat, List.getD_eq_getElem _ _ hil] at this
      simpa using this
  rw [this]

/-- The heap after `k` rounds of the initialisation loop. -/
theorem init_loop_spec {nodes : List node} {n : Nat}
    (hinj : ∀ i j : Nat, i < n → j < n →
      (node_at nodes i).num = (node_at nodes j).num → i = j) (k : Nat) (hk : k ≤ n) :
    ∀ i : Nat, i < k →
      ((List.range k).foldl (init_step nodes) fresh).A i
          = ⟨-1, -1, ((node_at nodes i).num : Int)⟩ ∧
      ((List.range k).foldl (init_step nodes) fresh).track ((node_at nodes i).num : Int) = i := by
  induction k with
  | zero => intro i hi; omega
  | succ k ih =>
    intro i hi
    rw [List.range_succ, List.foldl_append]
    simp only [List.foldl_cons, List.foldl_nil, init_step]
    by_cases hik : i = k
    · subst hik
      simp
    · have hlt : i < k := by omega
      have := ih (by omega) i hlt
      have hne : ((i : Int)) ≠ (k : Int) := by exact_mod_cast hik
      have hne2 : (((node_at nodes i).num : Int)) ≠ ((node_at nodes k).num : Int) := by
        intro e
        have e2 : (node_at nodes i).num = (node_at nodes k).num := by exact_mod_cast e
        exact hik (hinj i k (by omega) (by omega) e2)
      rw [Function.update_noteq hne, Function.update_noteq hne2]
      exact this

/-- After the initialisation loop the position table is exact. -/
theorem init_loop_HInv {nodes : List node} {n : Nat}
    (hp : (nodes.map node.num).Perm (List.range n)) :
    HInv n ((List.range n).foldl (init_step nodes) fresh).A
      ((List.range n).foldl (init_step nodes) fresh).track := by
  obtain ⟨_, hr, hinj, hsurj⟩ := perm_facts hp
  have hs := init_loop_spec hinj n (le_refl n)
  refine ⟨?_, ?_, ?_, ?_⟩
  · intro i hi hin
    lift i to ℕ using hi
    have hin2 : i < n := by exact_mod_cast hin
    rw [(hs i hin2).1]
    have := hr i hin2
    simp only
    omega
  · intro i hi hin
    lift i to ℕ using hi
    have hin2 : i < n := by exact_mod_cast hin
    rw [(hs i hin2).1]
    exact (hs i hin2).2
  · intro v hv hvn
    lift v to ℕ using hv
    have hvn2 : v < n := by exact_mod_cast hvn
    obtain ⟨i, hi, e⟩ := hsurj v hvn2
    rw [← e, (hs i hi).2]
    omega
  · intro v hv hvn
    lift v to ℕ using hv
    have hvn2 : v < n := by exact_mod_cast hvn
    obtain ⟨i, hi, e⟩ := hsurj v hvn2
    rw [← e, (hs i hi).2, (hs i hi).1]

/-- The state at the head of the main loop has an exact position table, and
`size = nnodes - 1`. -/
theorem dj_init_HInv {nodes : List node} {n : Nat}
    (hp : (nodes.map node.num).Perm (List.range n)) {source : Nat} (hs : source < n) :
    HInv n (dj_init nodes n source).Q (dj_init nodes n source).heap_track ∧
    (dj_init nodes n source).size = (n : Int) - 1 := by
  have h0 := init_loop_HInv hp
  have h1 := h0.update_same_vind (source : Int)
    { ((List.range n).foldl (init_step nodes) fresh).A source with d := 0 } rfl
  have hsw := @swap_Moves n ((n : Int) - 1) _ _ h1 (source : Int) 0
    (by omega) (by omega) (le_refl _) (by omega) (by omega)
  exact ⟨hsw.1, rfl⟩

/-- The main loop of `djikstra` ends within its budget of `nnodes`
iterations. -/
theorem dj_final_exit {nodes : List node} {n : Nat} (hg : GraphPermOK nodes n) {source : Nat}
    (hs : source < n) (target : Nat) : (dj_final nodes n source target).size ≤ 0 := by
  have hi := dj_init_HInv hg.1 hs
  exact dj_loop_exit nodes target (perm_facts hg.1).1 hg.2 n _ hi.1 (by rw [hi.2]; omega)
    (by rw [hi.2]; omega)

/-- C4: in a run of `djikstra` on a graph whose node numbers are a
permutation of `0..n-1`, every heap passed through after the initialisation
(after each `swap_Heap`, `Pull_Up` and `Min_Heapify` call) has
`heap_track[Q[i].v_ind] = i` for every slot `i < n` and
`Q[heap_track[v]].v_ind = v` for every vertex `v < n`. -/
theorem C4_position_table_inverts_heap (nodes : List node) (n source target : Nat)
    (hg : GraphPermOK nodes n) (hs : source < n) :
    ∀ p ∈ dj_points nodes n source target,
      (∀ i : Nat, i < n → p.track (p.A i).v_ind = i) ∧
      (∀ v : Nat, v < n → (p.A (p.track v)).v_ind = v) := by
  have hall : ∀ p ∈ dj_points nodes n source target, HInv n p.A p.track := by
    have hi := dj_init_HInv hg.1 hs
    have hl := dj_loop_HInv nodes target (perm_facts hg.1).1 hg.2 n (dj_init nodes n source)
      hi.1 (by rw [hi.2]; omega)
    intro p hp
    rcases List.mem_cons.1 hp with e | hp
    · rw [e]; exact hi.1
    · exact hl.2 p hp
  intro p hp
  have h := hall p hp
  exact ⟨fun i hi => h.tv i (by omega) (by exact_mod_cast hi),
    fun v hv => h.vt v (by omega) (by exact_mod_cast hv)⟩

/-- C4 at the two-node graph stored in swapped order, source 1, target 0. -/
theorem C4_position_table_inverts_heap_witness :
    GraphPermOK swapped2 2 ∧ 1 < 2 ∧
    ∀ p ∈ dj_points swapped2 2 1 0,
      (∀ i : Nat, i < 2 → p.track (p.A i).v_ind = i) ∧
      (∀ v : Nat, v < 2 → (p.A (p.track v)).v_ind = v) :=
  ⟨by decide, by decide,
    C4_position_table_inverts_heap swapped2 2 1 0 (by decide) (by decide)⟩

/-! ## Entries above `size` are frozen -/

/-- A relaxation round changes neither the slot nor the entry of a vertex
whose slot is above `size`. -/
theorem dj_relax_frozen {n : Nat} (u : Int) (st : DjState) (a : arc)
    (h : HInv n st.Q st.heap_track) (hs : st.size < n) (ha : a.target < n)
    (w : Int) (hw : 0 ≤ w) (hwn : w < n) (hf : st.size < st.heap_track w) :
    (dj_relax u st a).heap_track w = st.heap_track w ∧ ent (dj_relax u st a) w = ent st w := by
  cases hc : dj_relax_cond st a
  · rw [dj_relax_of_not_cond u st a hc]
    exact ⟨rfl, rfl⟩
  · have hm := (dj_relax_Moves u st a h hs ha).1 hc
    have hvs : st.heap_track a.target ≤ st.size := by
      unfold dj_relax_cond at hc
      simp only [Bool.and_eq_true, decide_eq_true_eq] at hc
      exact hc.2
    refine ⟨hm.2.2 w hw hwn hf, ?_⟩
    unfold ent
    rw [hm.2.1 w hw hwn, dj_relax_Q1, Function.update_noteq (by omega)]

theorem dj_relax_all_frozen {n : Nat} (nodes : List node) (u : Int) (l : List Nat)
    (hl : ∀ i ∈ l, (arc_at (node_at nodes u).arcv i).target < n)
    (w : Int) (hw : 0 ≤ w) (hwn : w < n) :
    ∀ st : DjState, HInv n st.Q st.heap_track → st.size < n → st.size < st.heap_track w →
      (l.foldl (fun s i => dj_relax u s (arc_at (node_at nodes u).arcv i)) st).heap_track w
        = st.heap_track w ∧
      ent (l.foldl (fun s i => dj_relax u s (arc_at (node_at nodes u).arcv i)) st) w
        = ent st w := by
  induction l with
  | nil => intro st _ _ _; exact ⟨rfl, rfl⟩
  | cons i l ih =>
    intro st h hs hf
    have hi := hl i (List.mem_cons_self _ _)
    have hr := dj_relax_Moves u st (arc_at (node_at nodes u).arcv i) h hs hi
    have hsz := dj_relax_size u st (arc_at (node_at nodes u).arcv i)
    have hfz := dj_relax_frozen u st (arc_at (node_at nodes u).arcv i) h hs hi w hw hwn hf
    have := ih (fun j hj => hl j (List.mem_cons_of_mem _ hj))
      (dj_relax u st (arc_at (node_at nodes u).arcv i)) hr.2.1 (by rw [hsz]; exact hs)
      (by rw [hsz, hfz.1]; exact hf)
    simp only [List.foldl_cons]
    exact ⟨by rw [this.1, hfz.1], by rw [this.2, hfz.2]⟩

/-- The extraction step puts the vertex of slot 0 into slot `size` (the old
value of `size`) and keeps every entry. -/
theorem dj_extract_slot {n : Nat} (st : DjState) (h : HInv n st.Q st.heap_track)
    (hs0 : 0 < st.size) (hs : st.size < n) :
    (dj_extract st).1.heap_track (st.Q 0).v_ind = st.size ∧
    ∀ v : Int, 0 ≤ v → v < n → ent (dj_extract st).1 v = ent st v := by
  have hsw : Moves n st.size st.Q st.heap_track (swap_Heap st.Q st.size 0 st.heap_track).A
      (swap_Heap st.Q st.size 0 st.heap_track).track :=
    swap_Moves h (le_of_lt hs0) (le_refl _) (le_refl _) (le_of_lt hs0) hs
  have hm := Min_Heapify_fuel_Moves (st.size - 1) (by omega) ((st.size - 1 - 0).toNat + 1)
    (swap_Heap st.Q st.size 0 st.heap_track).A 0 (swap_Heap st.Q st.size 0 st.heap_track).track
    hsw.1 (le_refl _)
  have hu := h.vr 0 (le_refl _) (by omega)
  have hne : ¬ (st.Q 0).v_ind = (st.Q st.size).v_ind := by
    intro e
    have := h.inj (le_refl _) (by omega) (le_of_lt hs0) hs e
    omega
  have ht : (swap_Heap st.Q st.size 0 st.heap_track).track (st.Q 0).v_ind = st.size := by
    rw [swap_track, if_neg hne, if_pos rfl]
  constructor
  · simp only [dj_extract, Min_Heapify]
    rw [hm.1.2.2 _ hu.1 hu.2 (by rw [ht]; omega), ht]
  · intro v hv hvn
    simp only [dj_extract, Min_Heapify, ent]
    rw [hm.1.2.1 v hv hvn, hsw.2.1 v hv hvn]

theorem dj_loop_of_size_le (nodes : List node) (target : Nat) (fuel : Nat) (st : DjState)
    (h : st.size ≤ 0) : dj_loop nodes target fuel st = st := by
  cases fuel with
  | zero => rfl
  | succ fuel =>
    simp only [dj_loop]
    rw [if_neg (by omega)]

theorem toU32_natCast {v : Nat} (hv : v < 4294967296) : toU32 (v : Int) = v := by
  unfold toU32
  omega

/-- The state at the head of the main loop for a `GraphOK` array: the source
is in slot 0 with distance 0 and no predecessor. -/
theorem dj_init_source {nodes : List node} {n : Nat} (hg : GraphOK nodes n) {source : Nat}
    (hs : source < n) :
    (dj_init nodes n source).heap_track source = 0 ∧
    ent (dj_init nodes n source) source = ⟨0, -1, source⟩ := by
  have hp := hg.perm
  have hinj := (perm_facts hp.1).2.2.1
  have hsp := init_loop_spec hinj n (le_refl n) source hs
  rw [hg.2.1 source hs] at hsp
  have h0 := init_loop_HInv hp.1
  have h1 := h0.update_same_vind (source : Int)
    { ((List.range n).foldl (init_step nodes) fresh).A source with d := 0 } rfl
  have hsw := @swap_Moves n ((n : Int) - 1) _ _ h1 (source : Int) 0
    (by omega) (by omega) (le_refl _) (by omega) (by omega)
  constructor
  · simp only [dj_init]
    rw [swap_track, if_pos]
    rw [Function.update_same]
    simp [hsp.1]
  · simp only [dj_init, ent]
    rw [hsw.2.1 source (by omega) (by exact_mod_cast hs), hsp.2, Function.update_same, hsp.1]

/-- The first iteration of the main loop takes the source and leaves its
entry (distance 0, no predecessor) in slot `nnodes - 1`. -/
theorem dj_iter_first {nodes : List node} {n : Nat} (hg : GraphOK nodes n) {source : Nat}
    (hs : source < n) (hn : 2 ≤ n) (target : Nat) :
    (dj_extract (dj_init nodes n source)).2 = source ∧
    ent (dj_iter nodes target (dj_init nodes n source)) source = ⟨0, -1, source⟩ ∧
    (dj_iter nodes target (dj_init nodes n source)).heap_track source = (n : Int) - 1 := by
  have hi := dj_init_HInv hg.perm.1 hs
  have hsrc := dj_init_source hg hs
  have hq0 : ((dj_init nodes n source).Q 0).v_ind = source := by
    have := hi.1.vt source (by omega) (by exact_mod_cast hs)
    rw [hsrc.1] at this
    exact this
  have hs0 : 0 < (dj_init nodes n source).size := by rw [hi.2]; omega
  have hsn : (dj_init nodes n source).size < n := by rw [hi.2]; omega
  have he := dj_extract_HInv (dj_init nodes n source) hi.1 hs0 hsn
  have hes := dj_extract_slot (dj_init nodes n source) hi.1 hs0 hsn
  have hu : (dj_extract (dj_init nodes n source)).2 = source := by rw [he.2.2.1, hq0]
  rw [hq0] at hes
  have hfz := dj_relax_all_frozen nodes (dj_extract (dj_init nodes n source)).2
    (List.range (node_at nodes (dj_extract (dj_init nodes n source)).2).narcs)
    (fun i hi2 => hg.2.2.target_lt (by rw [hu]; omega)
      (by rw [hu, hg.1]; exact_mod_cast hs) hi2)
    source (by omega) (by exact_mod_cast hs)
    (dj_extract (dj_init nodes n source)).1 he.1.1 (by rw [he.2.1]; omega)
    (by rw [he.2.1, hes.1]; omega)
  refine ⟨hu, ?_, ?_⟩
  · have e1 : ent (dj_iter nodes target (dj_init nodes n source)) source
        = ent (dj_relax_all nodes (dj_extract (dj_init nodes n source)).2
            (dj_extract (dj_init nodes n source)).1) source := by
      simp only [dj_iter]
      split_ifs <;> rfl
    rw [e1]
    simp only [dj_relax_all]
    rw [hfz.2, hes.2 source (by omega) (by exact_mod_cast hs), hsrc.2]
  · have e1 : (dj_iter nodes target (dj_init nodes n source)).heap_track source
        = (dj_relax_all nodes (dj_extract (dj_init nodes n source)).2
            (dj_extract (dj_init nodes n source)).1).heap_track source := by
      simp only [dj_iter]
      split_ifs <;> rfl
    rw [e1]
    simp only [dj_relax_all]
    rw [hfz.1, hes.1, hi.2]

/-- The source entry when the main loop has ended, for source = target. -/
theorem dj_final_self {nodes : List node} {n : Nat} (hg : GraphOK nodes n) {v : Nat}
    (hv : v < n) (hn32 : n < 4294967296) :
    ent (dj_final nodes n v v) v = ⟨0, -1, v⟩ := by
  by_cases hn : 2 ≤ n
  · have hi := dj_init_HInv hg.perm.1 hv
    have hf := dj_iter_first hg hv hn v
    obtain ⟨k, hk⟩ : ∃ k, n = k + 1 := ⟨n - 1, by omega⟩
    have hsz : (dj_iter nodes v (dj_init nodes n v)).size = -1 := by
      simp only [dj_iter]
      rw [if_pos (by rw [hf.1]; exact toU32_natCast (by omega))]
    have : dj_final nodes n v v = dj_iter nodes v (dj_init nodes n v) := by
      unfold dj_final
      rw [hk, dj_loop, if_pos (by rw [← hk, hi.2]; omega), ← hk]
      exact dj_loop_of_size_le _ _ _ _ (by rw [hsz]; omega)
    rw [this]
    exact hf.2.1
  · have hi := dj_init_HInv hg.perm.1 hv
    have : dj_final nodes n v v = dj_init nodes n v := by
      unfold dj_final
      exact dj_loop_of_size_le _ _ _ _ (by rw [hi.2]; omega)
    rw [this]
    exact (dj_init_source hg hv).2

/-- C6: for a graph of `n ≥ 1` nodes in which node `i` has number `i` and
every arc points into the graph, `djikstra` called with source = target = `v`
stores the cost 0, whatever the arcs of `v` are. -/
theorem C6_self_path_cost_zero (nodes : List node) (n v : Nat) (_hn : 1 ≤ n)
    (hn32 : n < 4294967296) (hg : GraphOK nodes n) (hv : v < n) :
    (djikstra nodes n v v).cost = 0 := by
  have := dj_final_self hg hv hn32
  simp only [djikstra]
  unfold ent at this
  rw [this]
  rfl

/-! ## Runs on the scenario graphs -/

/-- The path 0 -> 1 -> 2 -> 3 of the scenario graph weighs 4. -/
theorem scenario4_walk : Walk scenario4 0 3 4 :=
  @Walk.cons scenario4 0 3 3 ⟨1, 1⟩ (by decide)
    (@Walk.cons scenario4 1 3 1 ⟨2, 2⟩ (by decide)
      (@Walk.cons scenario4 2 3 0 ⟨3, 1⟩ (by decide) (Walk.nil 3)))

/-- Every path of `scenario4` that starts in `u` weighs at most 6. -/
theorem scenario4_walk_le {u v w : Nat} (h : Walk scenario4 u v w) :
    w ≤ (if u = 0 then 6 else if u = 1 then 3 else if u = 2 then 1 else 0) := by
  induction h with
  | nil u => split_ifs <;> omega
  | @cons u v w a ha _ ih =>
    have key : ∀ u : Nat, ∀ a ∈ (node_at scenario4 u).arcv,
        a.wt + (if a.target = 0 then 6 else if a.target = 1 then 3
            else if a.target = 2 then 1 else 0)
          ≤ (if u = 0 then 6 else if u = 1 then 3 else if u = 2 then 1 else 0) := by
      intro u
      match u with
      | 0 => decide
      | 1 => decide
      | 2 => decide
      | 3 => decide
      | (k + 4) =>
        intro a ha
        rw [node_at_nat] at ha
        simp [scenario4] at ha
    have := key u a ha
    omega

/-- All path sums of `scenario4` fit in a signed 32-bit integer. -/
theorem scenario4_fits (u : Nat) : ∀ v w, Walk scenario4 u v w → w < 2147483648 := by
  intro v w h
  have := scenario4_walk_le h
  split_ifs at this <;> omega

set_option maxRecDepth 100000 in
/-- In the run on the scenario graph every iteration takes an entry with a
finite distance from slot 0. -/
theorem scenario4_heads_finite : ∀ h ∈ dj_heads scenario4 4 0 3, (h.Q 0).d ≠ -1 := by
  have hall : (dj_heads scenario4 4 0 3).all (fun h => decide ((h.Q 0).d ≠ -1)) = true := by
    decide
  intro h hh
  have := List.all_eq_true.1 hall h hh
  exact of_decide_eq_true this

/-- Every path of `bug4` that starts in `u` weighs at most 6. -/
theorem bug4_walk_le {u v w : Nat} (h : Walk bug4 u v w) : w ≤ (if u = 0 then 6 else if u = 3 then 1 else 0) := by
  induction h with
  | nil u => split_ifs <;> omega
  | @cons u v w a ha _ ih =>
    have key : ∀ u : Nat, ∀ a ∈ (node_at bug4 u).arcv,
        a.wt + (if a.target = 0 then 6 else if a.target = 3 then 1 else 0)
          ≤ (if u = 0 then 6 else if u = 3 then 1 else 0) := by
      intro u
      match u with
      | 0 => decide
      | 1 => decide
      | 2 => decide
      | 3 => decide
      | (k + 4) =>
        intro a ha
        rw [node_at_nat] at ha
        simp [bug4] at ha
    have := key u a ha
    omega

set_option maxRecDepth 100000 in
/-- C8: on the four-node scenario graph, `djikstra` with source 0 and target 3
prints the route 0, 1, 2, 3 and stores the cost 4. -/
theorem C8_scenario_route_and_cost :
    djikstra scenario4 4 0 3 = ⟨0, 4, some [0, 1, 2, 3]⟩ := by
  decide

set_option maxRecDepth 100000 in
/-- C1 (failing input): `bug4` is a graph in the sense of the claim, all its
path sums are at most 6, node 2 is reachable from node 0 by a path of weight
6, and yet `djikstra` stores 4294967295 (the sentinel `-1`) as the cost. -/
theorem C1_cost_not_minimal_on_bug4 :
    GraphOK bug4 4 ∧ (∀ u v w, Walk bug4 u v w → w < 2147483648) ∧ Walk bug4 0 2 6 ∧
      (djikstra bug4 4 0 2).cost = 4294967295 ∧
      ¬ (∀ w, Walk bug4 0 2 w → (djikstra bug4 4 0 2).cost ≤ w) := by
  have hw : Walk bug4 0 2 6 :=
    @Walk.cons bug4 0 2 1 ⟨3, 5⟩ (by decide)
      (@Walk.cons bug4 3 2 0 ⟨2, 1⟩ (by decide) (Walk.nil 2))
  have hc : (djikstra bug4 4 0 2).cost = 4294967295 := by decide
  refine ⟨by decide, ?_, hw, hc, ?_⟩
  · intro u v w h
    have := bug4_walk_le h
    split_ifs at this <;> omega
  · intro h
    have := h 6 hw
    omega

set_option maxRecDepth 100000 in
/-- C3 (failing input): in the run of `djikstra` on `bug4` from source 0, the
state after the second extraction step has the sentinel `-1` in slot 0 and the
finite distance 5 in slot 1 with `size = 1`, so heap order fails there. -/
theorem C3_heap_order_broken_on_bug4 :
    ¬ (∀ st ∈ dj_marks bug4 4 0 2, HeapOrder st) := by
  intro h
  have hm : (dj_marks bug4 4 0 2).get ⟨4, by decide⟩ ∈ dj_marks bug4 4 0 2 := List.get_mem _ _ _
  have h1 := h _ hm 1 (by decide) (by decide)
  revert h1
  decide

set_option maxRecDepth 100000 in
/-- C5 (failing input): in the run of `djikstra` on `bug4` from source 0, the
third iteration takes from slot 0 an entry with the sentinel distance `-1`
while slot 1 (within `0..size`) holds the finite distance 5. -/
theorem C5_root_not_minimal_on_bug4 :
    ¬ (∀ st ∈ dj_heads bug4 4 0 2, RootMin st) := by
  intro h
  have hm : (dj_heads bug4 4 0 2).get ⟨2, by decide⟩ ∈ dj_heads bug4 4 0 2 := List.get_mem _ _ _
  have h1 := h _ hm 1 (by decide) (by decide)
  revert h1
  decide

set_option maxRecDepth 100000 in
/-- C7 (failing input): for the one-node graph and source = target = 0 the
predecessor walk leaves the allocated blocks (it stores into `solution[1]` and
reads `heap_track[-1]`), so no route `[0]` is produced. -/
theorem C7_self_route_leaves_blocks_on_single1 :
    GraphOK single1 1 ∧ (djikstra single1 1 0 0).route = none ∧
      (djikstra single1 1 0 0).route ≠ some [0] := by
  decide

/-! ## Entries and slots across the steps of the main loop -/

/-- Moving entries among the slots `0..b` keeps a vertex of these slots
inside them. -/
theorem Moves.le_of_le {n : Nat} {b : Int} {A A1 : Int → heap_node} {t t1 : Int → Int}
    (h0 : HInv n A t) (h : Moves n b A t A1 t1) {v : Int} (hv : 0 ≤ v) (hvn : v < n)
    (hb : t v ≤ b) : t1 v ≤ b := by
  by_contra hc
  have hj := h.1.tr v hv hvn
  have hw := h0.vr (t1 v) hj.1 hj.2
  have htw := h0.tv (t1 v) hj.1 hj.2
  have hfr := h.2.2 (A (t1 v)).v_ind hw.1 hw.2 (by rw [htw]; omega)
  rw [htw] at hfr
  have e1 := h.1.vt v hv hvn
  have e2 := h.1.vt (A (t1 v)).v_ind hw.1 hw.2
  rw [hfr, e1] at e2
  rw [e2, htw] at hb
  omega

theorem HInv.track_inj {n : Nat} {A : Int → heap_node} {track : Int → Int} (h : HInv n A track)
    {v w : Int} (hv : 0 ≤ v) (hvn : v < n) (hw : 0 ≤ w) (hwn : w < n)
    (e : track v = track w) : v = w := by
  have h1 := h.vt v hv hvn
  have h2 := h.vt w hw hwn
  rw [e, h2] at h1
  exact h1.symm

/-- The relaxation loop reads the arcs of `nodes[u]` in order. -/
theorem dj_relax_all_eq {nodes : List node} {u : Int} (st : DjState)
    (hn : (node_at nodes u).narcs = (node_at nodes u).arcv.length) :
    dj_relax_all nodes u st = (node_at nodes u).arcv.foldl (dj_relax u) st := by
  unfold dj_relax_all
  rw [hn]
  have hm : (List.range (node_at nodes u).arcv.length).map (arc_at (node_at nodes u).arcv)
      = (node_at nodes u).arcv := by
    apply List.ext_getElem
    · simp
    · intro i h1 h2
      simp only [List.getElem_map, List.getElem_range, arc_at]
      exact List.getD_eq_getElem _ _ h2
  conv_rhs => rw [← hm]
  rw [List.foldl_map]

/-- What one relaxation round does to slots and entries. -/
theorem dj_relax_spec {n : Nat} (u : Int) (st : DjState) (a : arc)
    (h : HInv n st.Q st.heap_track) (hs : st.size < n) (ha : a.target < n) :
    HInv n (dj_relax u st a).Q (dj_relax u st a).heap_track ∧
    (dj_relax u st a).size = st.size ∧
    (∀ x : Int, 0 ≤ x → x < n → st.size < st.heap_track x →
      (dj_relax u st a).heap_track x = st.heap_track x) ∧
    (∀ x : Int, 0 ≤ x → x < n → st.heap_track x ≤ st.size →
      (dj_relax u st a).heap_track x ≤ st.size) ∧
    (dj_relax_cond st a = false → dj_relax u st a = st) ∧
    (dj_relax_cond st a = true → ∀ x : Int, 0 ≤ x → x < n →
      ent (dj_relax u st a) x =
        if x = a.target then { ent st x with d := toI32 (dj_cand st a), pi := u }
        else ent st x) := by
  have hM := dj_relax_Moves u st a h hs ha
  refine ⟨hM.2.1, dj_relax_size u st a, ?_, ?_, dj_relax_of_not_cond u st a, ?_⟩
  · intro x hx hxn hf
    exact (dj_relax_frozen u st a h hs ha x hx hxn hf).1
  · intro x hx hxn hle
    cases hc : dj_relax_cond st a
    · rw [dj_relax_of_not_cond u st a hc]; exact hle
    · have h1 : HInv n (dj_relax_Q1 u st a) st.heap_track := h.update_same_vind _ _ rfl
      exact Moves.le_of_le h1 (hM.1 hc) hx hxn hle
  · intro hc x hx hxn
    have hm := hM.1 hc
    unfold ent
    rw [hm.2.1 x hx hxn, dj_relax_Q1, Function.update_apply]
    by_cases hxa : x = a.target
    · rw [if_pos (by rw [hxa]), if_pos hxa, hxa]
    · rw [if_neg, if_neg hxa]
      intro e
      exact hxa (h.track_inj hx hxn (by omega) (by exact_mod_cast ha) e)

/-- What the extraction step does to slots and entries. -/
theorem dj_extract_spec {n : Nat} (st : DjState) (h : HInv n st.Q st.heap_track)
    (hs0 : 0 < st.size) (hs : st.size < n) :
    HInv n (dj_extract st).1.Q (dj_extract st).1.heap_track ∧
    (dj_extract st).1.size = st.size - 1 ∧
    (dj_extract st).2 = (st.Q 0).v_ind ∧
    (dj_extract st).1.heap_track (st.Q 0).v_ind = st.size ∧
    (∀ x : Int, 0 ≤ x → x < n → ent (dj_extract st).1 x = ent st x) ∧
    (∀ x : Int, 0 ≤ x → x < n → st.size < st.heap_track x →
      (dj_extract st).1.heap_track x = st.heap_track x) ∧
    (∀ x : Int, 0 ≤ x → x < n → st.heap_track x ≤ st.size →
      (dj_extract st).1.heap_track x ≤ st.size) := by
  have he := dj_extract_HInv st h hs0 hs
  have hsl := dj_extract_slot st h hs0 hs
  exact ⟨he.1.1, he.2.1, he.2.2.1, hsl.1, hsl.2, fun x hx hxn hf => he.1.2.2 x hx hxn hf,
    fun x hx hxn hle => Moves.le_of_le h he.1 hx hxn hle⟩

/-! ## Paths and the entries of the heap -/

theorem Walk.extend {nodes : List node} {s u w : Nat} (h : Walk nodes s u w) (e : arc)
    (he : e ∈ (node_at nodes u).arcv) : Walk nodes s e.target (w + e.wt) := by
  induction h with
  | nil u =>
    have := Walk.cons e he (Walk.nil e.target)
    rw [Nat.add_comm] at this
    exact this
  | cons a ha _ ih =>
    have := Walk.cons a ha (ih he)
    rw [← Nat.add_assoc] at this
    exact this

theorem toI32_small {v : Nat} (hv : v < 2147483648) : toI32 v = v := by
  unfold toI32
  have : v % 4294967296 = v := Nat.mod_eq_of_lt (by omega)
  rw [this, if_pos hv]

/-- A relaxation round from the extracted vertex `u` (in slot `size + 1`)
along its arc `a` keeps `PInv`, keeps finite distances finite, and leaves the
target of `a` with a finite distance. -/
theorem dj_relax_PInv {nodes : List node} {n source : Nat}
    (hfit : ∀ v w, Walk nodes source v w → w < 2147483648)
    (u : Nat) (hu : u < n) (st : DjState) (a : arc) (ha : a ∈ (node_at nodes u).arcv)
    (hat : a.target < n) (hs : source < n)
    (hP : PInv nodes n source st) (hsf : st.size < st.heap_track source)
    (hut : st.heap_track u = st.size + 1) :
    PInv nodes n source (dj_relax u st a) ∧
    (dj_relax u st a).size < (dj_relax u st a).heap_track source ∧
    (dj_relax u st a).heap_track u = (dj_relax u st a).size + 1 ∧
    (∀ x : Int, 0 ≤ x → x < n → (st.size < (dj_relax u st a).heap_track x ↔
      st.size < st.heap_track x)) ∧
    (∀ x : Int, 0 ≤ x → x < n → (ent st x).d ≠ -1 → (ent (dj_relax u st a) x).d ≠ -1) ∧
    (ent (dj_relax u st a) a.target).d ≠ -1 := by
  have hsp := dj_relax_spec (u : Int) st a hP.hinv hP.size_lt hat
  obtain ⟨hI, hsz, hfr, hle, hnc, hc⟩ := hsp
  have hext : ∀ x : Int, 0 ≤ x → x < n → (st.size < (dj_relax u st a).heap_track x ↔
      st.size < st.heap_track x) := by
    intro x hx hxn
    constructor
    · intro h1
      by_contra h2
      have := hle x hx hxn (by omega)
      omega
    · intro h1
      rw [hfr x hx hxn h1]; exact h1
  have hu0 : (0 : Int) ≤ u := by omega
  have hun : (u : Int) < n := by exact_mod_cast hu
  have hs0 : (0 : Int) ≤ source := by omega
  have hsn : (source : Int) < n := by exact_mod_cast hs
  have ht0 : (0 : Int) ≤ a.target := by omega
  have htn : (a.target : Int) < n := by exact_mod_cast hat
  have hufz : st.size < st.heap_track u := by omega
  cases hcond : dj_relax_cond st a
  · -- the test fails: nothing changes
    rw [hnc hcond]
    refine ⟨hP, hsf, hut, fun x _ _ => Iff.rfl, fun x _ _ hx => hx, ?_⟩
    unfold dj_relax_cond at hcond
    simp only [Bool.and_eq_false_iff, Bool.or_eq_false_iff, decide_eq_false_iff_not] at hcond
    rcases hcond with h1 | h1
    · exact h1.1
    · exact hP.fin _ ht0 htn (by omega)
  · -- the test succeeds
    have hentz := hc hcond
    have htle : st.heap_track a.target ≤ st.size := by
      unfold dj_relax_cond at hcond
      simp only [Bool.and_eq_true, decide_eq_true_eq] at hcond
      exact hcond.2
    -- the distance of `u` is the weight of a path
    have hud : (ent st u).d ≠ -1 := hP.fin _ hu0 hun hufz
    obtain ⟨w, hw, hdw⟩ := hP.walk u hu hud
    have hw2 := hfit _ _ (hw.extend a ha)
    have hQ : (st.Q (st.size + 1)).d = w := by
      rw [← hut]; exact hdw
    have hcand : dj_cand st a = w + a.wt := by
      unfold dj_cand
      rw [hQ, toU32_natCast (by omega)]
      exact Nat.mod_eq_of_lt (by omega)
    have hnew : toI32 (dj_cand st a) = ((w + a.wt : Nat) : Int) := by
      rw [hcand]; exact toI32_small hw2
    have hne_src : (source : Int) ≠ a.target := by
      intro e; rw [e] at hsf; omega
    have hne_u : (u : Int) ≠ a.target := by
      intro e; rw [e] at hufz; omega
    have hent_other : ∀ x : Int, 0 ≤ x → x < n → x ≠ a.target →
        ent (dj_relax u st a) x = ent st x := by
      intro x hx hxn hxa
      rw [hentz x hx hxn, if_neg hxa]
    have hent_t : ent (dj_relax u st a) a.target
        = { ent st a.target with d := ((w + a.wt : Nat) : Int), pi := u } := by
      rw [hentz _ ht0 htn, if_pos rfl, hnew]
    have hfrozen_ne : ∀ x : Int, 0 ≤ x → x < n → st.size < st.heap_track x →
        x ≠ a.target := by
      intro x _ _ hf e
      rw [e] at hf; omega
    refine ⟨⟨hI, by rw [hsz]; exact hP.size_lt, by rw [hsz]; exact hP.size_nonneg, ?_, ?_, ?_,
      ?_⟩, ?_, ?_, hext, ?_, ?_⟩
    · rw [hent_other _ hs0 hsn hne_src]; exact hP.src
    · intro v hv hvn hvs hvd
      rw [hsz]
      by_cases hva : v = a.target
      · subst hva
        rw [hent_t]
        simp only
        rw [hfr _ hu0 hun hufz, hent_other _ hu0 hun hne_u]
        refine ⟨hu0, hun, hufz, ?_, a, ha, rfl, ?_⟩
        · have := hle _ ht0 htn htle
          omega
        · rw [hdw]; push_cast; ring
      · rw [hent_other v hv hvn hva] at hvd ⊢
        obtain ⟨c1, c2, c3, c4, c5⟩ := hP.chain v hv hvn hvs hvd
        have hpa := hfrozen_ne _ c1 c2 c3
        rw [hfr _ c1 c2 c3, hent_other _ c1 c2 hpa]
        refine ⟨c1, c2, c3, ?_, c5⟩
        by_cases hvf : st.size < st.heap_track v
        · rw [hfr v hv hvn hvf]; exact c4
        · have := hle v hv hvn (by omega)
          omega
    · intro v hv hvd
      by_cases hva : (v : Int) = a.target
      · have hva2 : v = a.target := by exact_mod_cast hva
        subst hva2
        exact ⟨w + a.wt, hw.extend a ha, by rw [hent_t]⟩
      · rw [hent_other v (by omega) (by exact_mod_cast hv) hva] at hvd ⊢
        exact hP.walk v hv hvd
    · intro v hv hvn hvf
      rw [hsz] at hvf
      have hvf2 := (hext v hv hvn).1 hvf
      rw [hent_other v hv hvn (hfrozen_ne v hv hvn hvf2)]
      exact hP.fin v hv hvn hvf2
    · rw [hsz, hfr _ hs0 hsn hsf]; exact hsf
    · rw [hsz, hfr _ hu0 hun hufz]; exact hut
    · intro x hx hxn hxd
      by_cases hxa : x = a.target
      · subst hxa
        rw [hent_t]
        simp only
        omega
      · rw [hent_other x hx hxn hxa]; exact hxd
    · rw [hent_t]
      simp only
      omega

/-- The relaxation rounds for a list `l` of arcs of the extracted vertex
`u`. -/
theorem dj_relax_fold_PInv {nodes : List node} {n source : Nat}
    (hfit : ∀ v w, Walk nodes source v w → w < 2147483648)
    (u : Nat) (hu : u < n) (hs : source < n) (l : List arc)
    (hl : ∀ a ∈ l, a ∈ (node_at nodes u).arcv ∧ a.target < n) :
    ∀ st : DjState, PInv nodes n source st → st.size < st.heap_track source →
      st.heap_track u = st.size + 1 →
      PInv nodes n source (l.foldl (dj_relax u) st) ∧
      (l.foldl (dj_relax u) st).size = st.size ∧
      st.size < (l.foldl (dj_relax u) st).heap_track source ∧
      (l.foldl (dj_relax u) st).heap_track u = st.size + 1 ∧
      (∀ x : Int, 0 ≤ x → x < n → (st.size < (l.foldl (dj_relax u) st).heap_track x ↔
        st.size < st.heap_track x)) ∧
      (∀ x : Int, 0 ≤ x → x < n → (ent st x).d ≠ -1 →
        (ent (l.foldl (dj_relax u) st) x).d ≠ -1) ∧
      (∀ e ∈ l, (ent (l.foldl (dj_relax u) st) e.target).d ≠ -1) := by
  induction l with
  | nil =>
    intro st hP hsf hut
    exact ⟨hP, rfl, hsf, hut, fun _ _ _ => Iff.rfl, fun _ _ _ h => h, by simp⟩
  | cons a l ih =>
    intro st hP hsf hut
    have ha := hl a (List.mem_cons_self _ _)
    obtain ⟨r1, r2, r3, r4, r5, r6⟩ := dj_relax_PInv hfit u hu st a ha.1 ha.2 hs hP hsf hut
    have hsz := dj_relax_size (u : Int) st a
    obtain ⟨i1, i2, i3, i4, i5, i6, i7⟩ := ih (fun b hb => hl b (List.mem_cons_of_mem _ hb))
      (dj_relax u st a) r1 r2 r3
    simp only [List.foldl_cons]
    rw [hsz] at i2 i3 i4 i5
    refine ⟨i1, i2, i3, i4, ?_, ?_, ?_⟩
    · intro x hx hxn
      exact (i5 x hx hxn).trans (r4 x hx hxn)
    · intro x hx hxn hxd
      exact i6 x hx hxn (r5 x hx hxn hxd)
    · intro e he
      rcases List.mem_cons.1 he with e1 | e1
      · rw [e1]
        exact i6 _ (by omega) (by exact_mod_cast ha.2) r6
      · exact i7 e e1

/-- One iteration of the main loop that takes an entry with a finite distance
from slot 0: the state before the test `u == target` satisfies `PInv` and
`Closed` again, with `size` lowered by one and `u` in slot `size + 1`. -/
theorem dj_iter_PInv {nodes : List node} {n source : Nat} (hg : GraphOK nodes n)
    (hfit : ∀ v w, Walk nodes source v w → w < 2147483648) (hs : source < n)
    (st : DjState) (hP : PInv nodes n source st) (hC : Closed nodes n st)
    (hs0 : 0 < st.size) (hhead : (st.Q 0).d ≠ -1)
    (hsrc : st.size < st.heap_track source ∨ st.heap_track source = 0) :
    PInv nodes n source (dj_relax_all nodes (dj_extract st).2 (dj_extract st).1) ∧
    Closed nodes n (dj_relax_all nodes (dj_extract st).2 (dj_extract st).1) ∧
    (dj_relax_all nodes (dj_extract st).2 (dj_extract st).1).size = st.size - 1 ∧
    st.size - 1 < (dj_relax_all nodes (dj_extract st).2 (dj_extract st).1).heap_track source ∧
    0 ≤ (dj_extract st).2 ∧ (dj_extract st).2 < n ∧
    (dj_relax_all nodes (dj_extract st).2 (dj_extract st).1).heap_track (dj_extract st).2
      = st.size := by
  obtain ⟨e1, e2, e3, e4, e5, e6, e7⟩ := dj_extract_spec st hP.hinv hs0 hP.size_lt
  have hur := hP.hinv.vr 0 (le_refl _) (by have := hP.size_lt; omega)
  have hu0 : st.heap_track (st.Q 0).v_ind = 0 :=
    hP.hinv.tv 0 (le_refl _) (by have := hP.size_lt; omega)
  obtain ⟨u, hu⟩ : ∃ u : Nat, (st.Q 0).v_ind = (u : Int) := ⟨(st.Q 0).v_ind.toNat, by omega⟩
  have hun : u < n := by
    have := hur.2; rw [hu] at this; exact_mod_cast this
  rw [hu] at e3 e4 hu0
  have hs0' : (0 : Int) ≤ source := by omega
  have hsn : (source : Int) < n := by exact_mod_cast hs
  -- the state after the extraction step
  have hPe : PInv nodes n source (dj_extract st).1 := by
    refine ⟨e1, by rw [e2]; have := hP.size_lt; omega, by rw [e2]; omega, ?_, ?_, ?_, ?_⟩
    · rw [e5 _ hs0' hsn]; exact hP.src
    · intro v hv hvn hvs hvd
      rw [e5 v hv hvn] at hvd ⊢
      obtain ⟨c1, c2, c3, c4, c5⟩ := hP.chain v hv hvn hvs hvd
      rw [e6 _ c1 c2 c3, e5 _ c1 c2, e2]
      refine ⟨c1, c2, by omega, ?_, c5⟩
      by_cases hvf : st.size < st.heap_track v
      · rw [e6 v hv hvn hvf]; exact c4
      · have := e7 v hv hvn (by omega)
        omega
    · intro v hv hvd
      rw [e5 v (by omega) (by exact_mod_cast hv)] at hvd ⊢
      exact hP.walk v hv hvd
    · intro v hv hvn hvf
      rw [e2] at hvf
      rw [e5 v hv hvn]
      by_cases hvf2 : st.size < st.heap_track v
      · exact hP.fin v hv hvn hvf2
      · have h1 := e7 v hv hvn (by omega)
        have h2 : (dj_extract st).1.heap_track v = (dj_extract st).1.heap_track u := by
          rw [e4]; omega
        have h3 := e1.track_inj hv hvn (by omega) (by exact_mod_cast hun) h2
        rw [h3]
        unfold ent
        rw [hu0]
        exact hhead
  have hsrc2 : (dj_extract st).1.size < (dj_extract st).1.heap_track source := by
    rw [e2]
    rcases hsrc with h1 | h1
    · rw [e6 _ hs0' hsn h1]; omega
    · have h2 : (source : Int) = u := by
        apply hP.hinv.track_inj hs0' hsn (by omega) (by exact_mod_cast hun)
        rw [h1, hu0]
      rw [h2, e4]; omega
  have hut : (dj_extract st).1.heap_track u = (dj_extract st).1.size + 1 := by
    rw [e4, e2]; omega
  have hnode : node_at nodes (u : Int) ∈ nodes :=
    node_at_mem (by omega) (by rw [hg.1]; exact_mod_cast hun)
  have harcs := hg.2.2 _ hnode
  have hfold := dj_relax_fold_PInv hfit u hun hs (node_at nodes (u : Int)).arcv
    (fun a ha => ⟨ha, harcs.2 a ha⟩) (dj_extract st).1 hPe hsrc2 hut
  rw [e3, dj_relax_all_eq _ harcs.1]
  obtain ⟨f1, f2, f3, f4, f5, f6, f7⟩ := hfold
  rw [e2] at f2 f3 f4 f5
  refine ⟨f1, ?_, f2, f3, by omega, by exact_mod_cast hun, by rw [f4]; omega⟩
  intro x hx hxf e he
  rw [f2] at hxf
  have hx0 : (0 : Int) ≤ x := by omega
  have hxn : (x : Int) < n := by exact_mod_cast hx
  have hxf2 := (f5 x hx0 hxn).1 hxf
  by_cases hxu : x = u
  · subst hxu
    exact f7 e he
  · have hxold : st.size < st.heap_track x := by
      by_contra hc
      have h1 := e7 x hx0 hxn (by omega)
      have h2 : (dj_extract st).1.heap_track x = (dj_extract st).1.heap_track u := by
        rw [e4]; omega
      have h3 := e1.track_inj hx0 hxn (by omega) (by exact_mod_cast hun) h2
      exact hxu (by exact_mod_cast h3)
    have htn : e.target < n := (hg.2.2 _
      (node_at_mem hx0 (by rw [hg.1]; exact_mod_cast hx))).2 e he
    have hold := hC x hx hxold e he
    rw [← e5 _ (by omega) (by exact_mod_cast htn)] at hold
    exact f6 _ (by omega) (by exact_mod_cast htn) hold

/-- The state at the head of the main loop satisfies `PInv` and `Closed`,
with the source in slot 0. -/
theorem dj_init_PInv {nodes : List node} {n source : Nat} (hg : GraphOK nodes n)
    (hs : source < n) :
    PInv nodes n source (dj_init nodes n source) ∧ Closed nodes n (dj_init nodes n source) ∧
    (dj_init nodes n source).heap_track source = 0 := by
  have hi := dj_init_HInv hg.perm.1 hs
  have hsrc := dj_init_source hg hs
  have hinj := (perm_facts hg.perm.1).2.2.1
  have hother : ∀ v : Nat, v < n → v ≠ source →
      ent (dj_init nodes n source) v = ⟨-1, -1, v⟩ := by
    intro v hv hvs
    have hsp := init_loop_spec hinj n (le_refl n) v hv
    rw [hg.2.1 v hv] at hsp
    have h0 := init_loop_HInv hg.perm.1
    have h1 := h0.update_same_vind (source : Int)
      { ((List.range n).foldl (init_step nodes) fresh).A source with d := 0 } rfl
    have hsw := @swap_Moves n ((n : Int) - 1) _ _ h1 (source : Int) 0
      (by omega) (by omega) (le_refl _) (by omega) (by omega)
    simp only [dj_init, ent]
    rw [hsw.2.1 v (by omega) (by exact_mod_cast hv), hsp.2,
      Function.update_noteq (by exact_mod_cast hvs), hsp.1]
  have hfin_src : ∀ v : Int, 0 ≤ v → v < n → (ent (dj_init nodes n source) v).d ≠ -1 →
      v = source := by
    intro v hv hvn hd
    by_contra hc
    lift v to ℕ using hv
    have hv2 : v < n := by exact_mod_cast hvn
    rw [hother v hv2 (by intro e; exact hc (by rw [e]))] at hd
    exact hd rfl
  have hnofz : ∀ v : Int, 0 ≤ v → v < n →
      ¬ (dj_init nodes n source).size < (dj_init nodes n source).heap_track v := by
    intro v hv hvn
    have := hi.1.tr v hv hvn
    rw [hi.2]; omega
  refine ⟨⟨hi.1, by rw [hi.2]; omega, by rw [hi.2]; omega, hsrc.2, ?_, ?_, ?_⟩, ?_, hsrc.1⟩
  · intro v hv hvn hvs hd
    exact absurd (hfin_src v hv hvn hd) hvs
  · intro v hv hd
    have := hfin_src v (by omega) (by exact_mod_cast hv) hd
    have hvs : v = source := by exact_mod_cast this
    subst hvs
    refine ⟨0, Walk.nil v, ?_⟩
    rw [hsrc.2]; rfl
  · intro v hv hvn hf
    exact absurd hf (hnofz v hv hvn)
  · intro x hx hf
    exact absurd hf (hnofz x (by omega) (by exact_mod_cast hx))

theorem toU32_eq_natCast {x : Int} {t n : Nat} (hx : 0 ≤ x) (hxn : x < n) (hn32 : n < 4294967296) :
    toU32 x = t ↔ x = t := by
  unfold toU32
  omega

/-- The main loop, when every iteration takes an entry with a finite distance
from slot 0: for some value `sz` of `size` the final heap satisfies `PInv`,
and either the target is extracted or `sz = 0` and the heap is `Closed`. -/
theorem dj_loop_PInv {nodes : List node} {n source target : Nat} (hg : GraphOK nodes n)
    (hn32 : n < 4294967296) (hfit : ∀ v w, Walk nodes source v w → w < 2147483648)
    (hs : source < n) (fuel : Nat) :
    ∀ st : DjState, PInv nodes n source st → Closed nodes n st →
      (st.size < st.heap_track source ∨ st.heap_track source = 0) → st.size ≤ fuel →
      (∀ h ∈ dj_loop_heads nodes target fuel st, (h.Q 0).d ≠ -1) →
      ∃ sz : Int,
        PInv nodes n source ⟨(dj_loop nodes target fuel st).Q,
          (dj_loop nodes target fuel st).heap_track, sz⟩ ∧
        (sz < (dj_loop nodes target fuel st).heap_track target ∨
          (sz = 0 ∧ Closed nodes n ⟨(dj_loop nodes target fuel st).Q,
            (dj_loop nodes target fuel st).heap_track, 0⟩)) := by
  induction fuel with
  | zero =>
    intro st hP hC _ hf _
    have h0 : st.size = 0 := by have := hP.size_nonneg; omega
    refine ⟨0, ?_, Or.inr ⟨rfl, ?_⟩⟩
    · rw [← h0]; exact hP
    · rw [← h0]; exact hC
  | succ fuel ih =>
    intro st hP hC hsrc hf hheads
    simp only [dj_loop]
    by_cases hs0 : st.size > 0
    · rw [if_pos hs0]
      simp only [dj_loop_heads, if_pos hs0] at hheads
      have hhead := hheads st (List.mem_cons_self _ _)
      obtain ⟨i1, i2, i3, i4, i5, i6, i7⟩ := dj_iter_PInv hg hfit hs st hP hC hs0 hhead hsrc
      by_cases hut : toU32 (dj_extract st).2 = target
      · have hit : dj_iter nodes target st
            = { dj_relax_all nodes (dj_extract st).2 (dj_extract st).1 with size := -1 } := by
          simp only [dj_iter, if_pos hut]
        rw [hit, dj_loop_of_size_le _ _ _ _ (by simp)]
        refine ⟨(dj_relax_all nodes (dj_extract st).2 (dj_extract st).1).size, i1, Or.inl ?_⟩
        simp only
        rw [← (toU32_eq_natCast i5 i6 hn32).1 hut, i7, i3]
        omega
      · have hit : dj_iter nodes target st
            = dj_relax_all nodes (dj_extract st).2 (dj_extract st).1 := by
          simp only [dj_iter, if_neg hut]
        rw [hit] at hheads ⊢
        exact ih _ i1 i2 (Or.inl (by rw [i3]; exact i4)) (by rw [i3]; omega)
          (fun h hh => hheads h (List.mem_cons_of_mem _ hh))
    · rw [if_neg hs0]
      have h0 : st.size = 0 := by have := hP.size_nonneg; omega
      refine ⟨0, ?_, Or.inr ⟨rfl, ?_⟩⟩
      · rw [← h0]; exact hP
      · rw [← h0]; exact hC

/-- In a `Closed` heap with `size = 0` whose slot 0 holds `t`, every vertex
from which a path leads to `t` gives `t` a finite distance. -/
theorem closed_reach {nodes : List node} {n : Nat} (hg : GraphOK nodes n) (st : DjState)
    (hI : HInv n st.Q st.heap_track) (hsz : st.size = 0) (hC : Closed nodes n st) {t : Nat}
    (ht : t < n) (ht0 : st.heap_track t = 0) {u v w : Nat} (h : Walk nodes u v w) :
    v = t → u ≠ t → u < n → (ent st t).d ≠ -1 := by
  induction h with
  | nil u => intro e hne _; exact absurd e hne
  | @cons u v w a ha _ ih =>
    intro e hne hun
    have hfz : st.size < st.heap_track u := by
      have h1 := hI.tr u (by omega) (by exact_mod_cast hun)
      have h2 : st.heap_track u ≠ 0 := by
        intro e2
        have := hI.track_inj (by omega) (by exact_mod_cast hun) (by omega)
          (by exact_mod_cast ht) (e2.trans ht0.symm)
        exact hne (by exact_mod_cast this)
      omega
    have hat : a.target < n :=
      (hg.2.2 _ (node_at_mem (by omega) (by rw [hg.1]; exact_mod_cast hun))).2 a ha
    by_cases hta : a.target = t
    · rw [← hta]
      exact hC u hun hfz a ha
    · exact ih e hta hat

/-! ## The predecessor walk -/

theorem RouteCost.append_arc {nodes : List node} {l : List Int} {c : Nat}
    (h : RouteCost nodes l c) :
    ∀ {p u : Int} (e : arc), l.getLast? = some p → e ∈ (node_at nodes p).arcv →
      (e.target : Int) = u → RouteCost nodes (l ++ [u]) (c + e.wt) := by
  induction h with
  | single v =>
    intro p u e hl he ht
    simp only [List.getLast?_singleton, Option.some.injEq] at hl
    subst hl
    have := RouteCost.step v e he ht (RouteCost.single u)
    simpa [Nat.add_comm] using this
  | @step b r c a e1 he1 ht1 _ ih =>
    intro p u e hl he ht
    rw [List.getLast?_cons_cons] at hl
    have h1 := ih e hl he ht
    have := RouteCost.step a e1 he1 ht1 h1
    rw [← Nat.add_assoc] at this
    exact this

/-- The predecessor walk from a vertex `u` with a finite distance: it stays
inside the blocks, ends at the source, and the stored vertices, read from the
source to `u`, form a route whose cost is the distance of `u`. -/
theorem dj_walk_spec {nodes : List node} {n source : Nat} (hn32 : n < 4294967296)
    (F : DjState) (hP : PInv nodes n source F) (hs : source < n) (k : Nat) :
    ∀ (u : Int) (sol : List Int) (fuel : Nat), 0 ≤ u → u < n → (ent F u).d ≠ -1 →
      (n : Int) - 1 - F.heap_track u ≤ k → (sol.length : Int) ≤ F.heap_track u →
      n + 1 ≤ fuel + sol.length →
      ∃ (c : List Int) (w : Nat),
        dj_walk n F.Q F.heap_track source fuel u sol = some (sol ++ c) ∧
        c.head? = some u ∧ c.getLast? = some (source : Int) ∧
        (ent F u).d = w ∧ RouteCost nodes c.reverse w := by
  induction k with
  | zero =>
    intro u sol fuel hu hun hd hk hsol hfuel
    have htr := hP.hinv.tr u hu hun
    obtain ⟨f, hf⟩ : ∃ f, fuel = f + 1 := ⟨fuel - 1, by omega⟩
    by_cases hus : u = source
    · subst hus
      refine ⟨[(source : Int)], 0, ?_, rfl, rfl, ?_, RouteCost.single _⟩
      · rw [hf]
        simp only [dj_walk]
        rw [if_neg (by rw [not_not]; exact toU32_natCast (by omega)), if_pos (by omega)]
      · rw [hP.src]; rfl
    · exfalso
      have := hP.chain u hu hun hus hd
      have h2 := hP.hinv.tr _ this.1 this.2.1
      omega
  | succ k ih =>
    intro u sol fuel hu hun hd hk hsol hfuel
    have htr := hP.hinv.tr u hu hun
    obtain ⟨f, hf⟩ : ∃ f, fuel = f + 1 := ⟨fuel - 1, by omega⟩
    by_cases hus : u = source
    · subst hus
      refine ⟨[(source : Int)], 0, ?_, rfl, rfl, ?_, RouteCost.single _⟩
      · rw [hf]
        simp only [dj_walk]
        rw [if_neg (by rw [not_not]; exact toU32_natCast (by omega)), if_pos (by omega)]
      · rw [hP.src]; rfl
    · obtain ⟨c1, c2, c3, c4, e, he, het, hed⟩ := hP.chain u hu hun hus hd
      have hpd := hP.fin _ c1 c2 c3
      have h2 := hP.hinv.tr _ c1 c2
      obtain ⟨c, w, r1, r2, r3, r4, r5⟩ := ih (ent F u).pi (sol ++ [u]) f c1 c2 hpd
        (by omega) (by rw [List.length_append]; simp only [List.length_singleton]; push_cast; omega)
        (by rw [List.length_append]; simp only [List.length_singleton]; omega)
      have hne : toU32 u ≠ source := by
        intro e1
        exact hus ((toU32_eq_natCast hu hun hn32).1 e1)
      refine ⟨u :: c, w + e.wt, ?_, rfl, ?_, ?_, ?_⟩
      · rw [hf]
        simp only [dj_walk]
        rw [if_pos hne, if_pos ⟨by omega, hu, hun, htr.1, htr.2⟩]
        unfold ent at r1
        rw [r1]
        simp
      · cases c with
        | nil => simp at r2
        | cons x c => rw [List.getLast?_cons_cons]; exact r3
      · rw [hed, r4]; push_cast; ring
      · rw [List.reverse_cons]
        refine r5.append_arc e ?_ he het
        rw [List.getLast?_reverse]
        exact r2

/-- The entry of a reachable target is finite when the main loop has ended
without ever taking a sentinel entry from slot 0, and the final heap satisfies
`PInv` for some value of `size`. -/
theorem dj_final_PInv {nodes : List node} {n source target : Nat} (hg : GraphOK nodes n)
    (hn32 : n < 4294967296) (hfit : ∀ v w, Walk nodes source v w → w < 2147483648)
    (hs : source < n) (ht : target < n) (hne : source ≠ target)
    (hreach : ∃ w, Walk nodes source target w)
    (hheads : ∀ h ∈ dj_heads nodes n source target, (h.Q 0).d ≠ -1) :
    ∃ st : DjState, st.Q = (dj_final nodes n source target).Q ∧
      st.heap_track = (dj_final nodes n source target).heap_track ∧
      PInv nodes n source st ∧ (ent st target).d ≠ -1 := by
  obtain ⟨p1, p2, p3⟩ := dj_init_PInv hg hs
  obtain ⟨sz, hP, hcase⟩ := dj_loop_PInv hg hn32 hfit hs n (dj_init nodes n source) p1 p2
    (Or.inr p3) (by have := p1.size_lt; omega) hheads
  refine ⟨⟨(dj_loop nodes target n (dj_init nodes n source)).Q,
    (dj_loop nodes target n (dj_init nodes n source)).heap_track, sz⟩, rfl, rfl, hP, ?_⟩
  have ht0 : (0 : Int) ≤ target := by omega
  have htn : (target : Int) < n := by exact_mod_cast ht
  rcases hcase with h1 | ⟨h1, hC⟩
  · exact hP.fin target ht0 htn h1
  · subst h1
    have h3 := hP.hinv.tr target ht0 htn
    by_cases h2 : (0 : Int) < (dj_loop nodes target n (dj_init nodes n source)).heap_track target
    · exact hP.fin target ht0 htn h2
    · obtain ⟨w, hw⟩ := hreach
      have h4 : (dj_loop nodes target n (dj_init nodes n source)).heap_track target = 0 := by
        have := h3.1
        dsimp only at this
        omega
      exact closed_reach hg _ hP.hinv rfl hC ht h4 hw rfl hne hs

/-- From a heap that satisfies `PInv` and gives the target a finite distance,
the predecessor walk of `djikstra` yields a route from the source to the
target whose cost is that distance. -/
theorem route_of_PInv {nodes : List node} {n source target : Nat} (hn32 : n < 4294967296)
    (hfit : ∀ v w, Walk nodes source v w → w < 2147483648)
    (hs : source < n) (ht : target < n) (hne : source ≠ target)
    (st : DjState) (hP : PInv nodes n source st) (hd : (ent st target).d ≠ -1) :
    ∃ r : List Int,
      (dj_walk n st.Q st.heap_track source (n + 1) (st.Q (st.heap_track target)).pi
        [(target : Int)]).map List.reverse = some r ∧
      r.head? = some (source : Int) ∧ r.getLast? = some (target : Int) ∧
      RouteCost nodes r (toU32 (st.Q (st.heap_track target)).d) := by
  have ht0 : (0 : Int) ≤ target := by omega
  have htn : (target : Int) < n := by exact_mod_cast ht
  have hts : (target : Int) ≠ source := by
    intro e; exact hne (by exact_mod_cast e.symm)
  obtain ⟨c1, c2, c3, c4, e, he, het, hed⟩ := hP.chain target ht0 htn hts hd
  have hpd := hP.fin _ c1 c2 c3
  have htr := hP.hinv.tr target ht0 htn
  have h2 := hP.hinv.tr _ c1 c2
  obtain ⟨c, w, r1, r2, r3, r4, r5⟩ := dj_walk_spec hn32 st hP hs
    ((n : Int) - 1 - st.heap_track (ent st target).pi).toNat
    (ent st target).pi [(target : Int)] (n + 1) c1 c2 hpd
    (by omega)
    (by simp only [List.length_singleton]; push_cast; omega)
    (by simp)
  obtain ⟨wt, hwt, hwd⟩ := hP.walk target ht hd
  have hwt2 := hfit _ _ hwt
  have hcost : toU32 (ent st target).d = w + e.wt := by
    have h3 : (ent st target).d = ((w + e.wt : Nat) : Int) := by
      rw [hed, r4]; push_cast; ring
    rw [h3]
    rw [h3] at hwd
    have : w + e.wt = wt := by exact_mod_cast hwd
    exact toU32_natCast (by omega)
  unfold ent at r1 hcost
  refine ⟨c.reverse ++ [(target : Int)], ?_, ?_, ?_, ?_⟩
  · rw [r1]
    simp
  · cases c with
    | nil => simp at r2
    | cons x c =>
      rw [List.head?_append_of_ne_nil _ (by simp), List.head?_reverse]
      exact r3
  · simp
  · rw [hcost]
    refine r5.append_arc e ?_ he het
    rw [List.getLast?_reverse]
    exact r2

/-- For a graph of `n` nodes in which node `i` has number `i` and every arc
points into the graph, whose walk sums from the source fit in a signed 32-bit
integer, for source and target below `n`, different from each other, with the
target reachable from the source, and for a run in which no iteration of the
main loop takes an entry with the sentinel distance `-1` from slot 0:
`djikstra` prints a route that starts at the source, ends at the target, in
which every consecutive pair is joined by an arc of the graph, and the stored
cost is the sum of the weights of one such arc per pair. -/
theorem route_valid_of_fit_and_finite_heads (nodes : List node) (n source target : Nat)
    (hn32 : n < 4294967296) (hg : GraphOK nodes n) (hs : source < n) (ht : target < n)
    (hne : source ≠ target) (hreach : ∃ w, Walk nodes source target w)
    (hfit : ∀ v w, Walk nodes source v w → w < 2147483648)
    (hheads : ∀ h ∈ dj_heads nodes n source target, (h.Q 0).d ≠ -1) :
    RouteValid nodes n source target := by
  obtain ⟨st, hQ, hT, hP, hd⟩ := dj_final_PInv hg hn32 hfit hs ht hne hreach hheads
  have := route_of_PInv hn32 hfit hs ht hne st hP hd
  rw [hQ, hT] at this
  exact this

/-- The four-node scenario graph, source 0, target 3, meets the conditions of
`route_valid_of_fit_and_finite_heads`. -/
theorem route_valid_scenario4 : RouteValid scenario4 4 0 3 :=
  route_valid_of_fit_and_finite_heads scenario4 4 0 3 (by decide) (by decide) (by decide)
    (by decide) (by decide) ⟨4, scenario4_walk⟩ (scenario4_fits 0) scenario4_heads_finite

theorem RouteCost.inv {nodes : List node} {l : List Int} {c : Nat} (h : RouteCost nodes l c) :
    (∃ v, l = [v] ∧ c = 0) ∨
    ∃ (a b : Int) (r : List Int) (e : arc) (c1 : Nat), l = a :: b :: r ∧
      e ∈ (node_at nodes a).arcv ∧ (e.target : Int) = b ∧ RouteCost nodes (b :: r) c1 ∧
      c = e.wt + c1 := by
  cases h with
  | single v => exact Or.inl ⟨v, rfl, rfl⟩
  | @step b r c1 a e he ht hr => exact Or.inr ⟨a, b, r, e, c1, rfl, he, ht, hr, rfl⟩

/-- The only cost that `RouteCost` gives the route 0, 1, 2 of `overflow3` is
6000000000. -/
theorem overflow3_route_cost {c : Nat} (h : RouteCost overflow3 [0, 1, 2] c) :
    c = 6000000000 := by
  rcases h.inv with ⟨v, hl, _⟩ | ⟨a, b, r, e, c1, hl, he, _, hr, hc⟩
  · simp at hl
  · simp only [List.cons.injEq] at hl
    obtain ⟨rfl, rfl, rfl⟩ := hl
    rcases hr.inv with ⟨v, hl, _⟩ | ⟨a2, b2, r2, e2, c2, hl2, he2, _, hr2, hc2⟩
    · simp at hl
    · simp only [List.cons.injEq] at hl2
      obtain ⟨rfl, rfl, rfl⟩ := hl2
      rcases hr2.inv with ⟨v, _, hc3⟩ | ⟨a3, b3, r3, e3, c3, hl3, _⟩
      · have h1 : e.wt = 3000000000 := by
          have : e ∈ [(⟨1, 3000000000⟩ : arc)] := he
          simp at this
          rw [this]
        have h2 : e2.wt = 3000000000 := by
          have : e2 ∈ [(⟨2, 3000000000⟩ : arc)] := he2
          simp at this
          rw [this]
        omega
      · simp at hl3

set_option maxRecDepth 100000 in
/-- Distances are summed in 32 bits: on `overflow3` (source 0, target 2, no
sentinel ever taken from slot 0) the printed route is 0, 1, 2 and the stored
cost 1705032704 is the path sum 6000000000 reduced modulo `2^32`. -/
theorem overflow3_cost_wraps :
    GraphOK overflow3 3 ∧ Walk overflow3 0 2 6000000000 ∧
    (∀ h ∈ dj_heads overflow3 3 0 2, (h.Q 0).d ≠ -1) ∧
    (djikstra overflow3 3 0 2).route = some [0, 1, 2] ∧
    (djikstra overflow3 3 0 2).cost = 1705032704 ∧ ¬ RouteValid overflow3 3 0 2 := by
  have hr1 : (djikstra overflow3 3 0 2).route = some [0, 1, 2] := by decide
  have hc1 : (djikstra overflow3 3 0 2).cost = 1705032704 := by decide
  refine ⟨by decide, ?_, ?_, hr1, hc1, ?_⟩
  · exact @Walk.cons overflow3 0 2 3000000000 ⟨1, 3000000000⟩ (by decide)
      (@Walk.cons overflow3 1 2 0 ⟨2, 3000000000⟩ (by decide) (Walk.nil 2))
  · have hall : (dj_heads overflow3 3 0 2).all (fun h => decide ((h.Q 0).d ≠ -1)) = true := by
      decide
    intro h hh
    exact of_decide_eq_true (List.all_eq_true.1 hall h hh)
  · rintro ⟨r, h1, _, _, h4⟩
    rw [hr1] at h1
    rw [← Option.some.inj h1, hc1] at h4
    have := overflow3_route_cost h4
    omega

set_option maxRecDepth 100000 in
/-- C2 (failing input): `bug4` is a graph in the sense of the claim, all its
path sums from node 0 are at most 6 and node 2 is reachable from node 0 by the
path 0, 3, 2 of weight 6.  `djikstra` with source 0 and target 2 stores
4294967295 (the sentinel `-1`) as the cost and its predecessor walk starts
with `u = -1` and leaves the arrays, so no route is printed: there is no route
from 0 to 2 whose arcs sum to the stored cost. -/
theorem C2_no_route_to_reachable_target_on_bug4 :
    GraphOK bug4 4 ∧ Walk bug4 0 2 6 ∧ (∀ v w, Walk bug4 0 v w → w ≤ 6) ∧
    (djikstra bug4 4 0 2).cost = 4294967295 ∧
    ((dj_final bug4 4 0 2).Q ((dj_final bug4 4 0 2).heap_track 2)).pi = -1 ∧
    (djikstra bug4 4 0 2).route = none ∧ ¬ RouteValid bug4 4 0 2 := by
  have hr2 : (djikstra bug4 4 0 2).route = none := by decide
  refine ⟨by decide, ?_, ?_, by decide, by decide, hr2, ?_⟩
  · exact @Walk.cons bug4 0 2 1 ⟨3, 5⟩ (by decide)
      (@Walk.cons bug4 3 2 0 ⟨2, 1⟩ (by decide) (Walk.nil 2))
  · intro v w h
    have := bug4_walk_le h
    simp only [if_true] at this
    exact this
  · rintro ⟨r, h1, _⟩
    rw [hr2] at h1
    exact Option.noConfusion h1

/-- C6 at the two-node graph whose node 0 has a self-loop, with `v = 0`. -/
theorem C6_self_path_cost_zero_witness :
    1 ≤ 2 ∧ 2 < 4294967296 ∧ GraphOK loop2 2 ∧ 0 < 2 ∧ (djikstra loop2 2 0 0).cost = 0 :=
  ⟨by decide, by decide, by decide, by decide,
    C6_self_path_cost_zero loop2 2 0 (by decide) (by decide) (by decide) (by decide)⟩

/-- For source = target the predecessor walk always starts with `u = -1`,
which differs from the source, and then indexes `heap_track` with `-1`: no
self-path query yields a route. -/
theorem self_route_none (nodes : List node) (n v : Nat) (hn32 : n < 4294967296)
    (hg : GraphOK nodes n) (hv : v < n) : (djikstra nodes n v v).route = none := by
  have := dj_final_self hg hv hn32
  simp only [djikstra]
  unfold ent at this
  rw [this]
  have h1 : toU32 (-1) ≠ v := by
    have : toU32 (-1) = 4294967295 := by decide
    omega
  simp [dj_walk, h1]

/-! ## Reading a serialised stream -/

theorem read_uint_field_be32 (v : Nat) (t : List Nat) :
    read_uint_field (be32 v ++ t) = some (v % 4294967296, t) := by
  simp only [be32, List.cons_append, List.nil_append, read_uint_field, be32_val]
  congr 2
  omega

theorem read_int_field_be32 (v : Nat) (t : List Nat) :
    read_int_field (be32 v ++ t) = some (toI32 (v % 4294967296), t) := by
  simp only [read_int_field, read_uint_field_be32]

theorem toI32_mod (v : Nat) : toI32 (v % 4294967296) = toI32 v := by
  simp only [toI32, Nat.mod_mod]

theorem toU32_lt (x : Int) : toU32 x < 4294967296 := by
  unfold toU32
  omega

theorem be32_length (v : Nat) : (be32 v).length = 4 := rfl

theorem read_uint_field_short {p : List Nat} (h : p.length < 4) : read_uint_field p = none := by
  match p, h with
  | [], _ => rfl
  | [_], _ => rfl
  | [_, _], _ => rfl
  | [_, _, _], _ => rfl
  | _ :: _ :: _ :: _ :: _, h => simp at h; omega

theorem StrictPrefix.length_lt {p s : List Nat} (h : StrictPrefix p s) : p.length < s.length := by
  obtain ⟨t, ht, e⟩ := h
  rw [← e, List.length_append]
  have : 0 < t.length := List.length_pos.2 ht
  omega

theorem StrictPrefix.not_nil {p : List Nat} (h : StrictPrefix p []) : False := by
  have := h.length_lt
  simp at this

/-- A stream cut short inside `a ++ b` is cut short inside `a`, or contains
`a` and is cut short inside `b`. -/
theorem StrictPrefix.append_cases {p a b : List Nat} (h : StrictPrefix p (a ++ b)) :
    StrictPrefix p a ∨ ∃ q, p = a ++ q ∧ StrictPrefix q b := by
  obtain ⟨t, ht, e⟩ := h
  rcases List.append_eq_append_iff.1 e with ⟨a1, e1, e2⟩ | ⟨c1, e1, e2⟩
  · by_cases h1 : a1 = []
    · right
      refine ⟨[], ?_, t, ht, ?_⟩
      · rw [e1, h1]; simp
      · rw [e2, h1]; rfl
    · left
      exact ⟨a1, h1, e1.symm⟩
  · right
    exact ⟨c1, e1, t, ht, e2.symm⟩

theorem read_uint_field_cut {p : List Nat} {v : Nat} (h : StrictPrefix p (be32 v)) :
    read_uint_field p = none :=
  read_uint_field_short (by have := h.length_lt; rwa [be32_length] at this)

theorem read_int_field_cut {p : List Nat} {v : Nat} (h : StrictPrefix p (be32 v)) :
    read_int_field p = none := by
  simp only [read_int_field, read_uint_field_cut h]

theorem read_arc_ser (a : DiskArc) (t : List Nat) :
    read_arc (ser_arc a ++ t) = some (arc_of a, t) := by
  simp only [read_arc, ser_arc, List.append_assoc, read_uint_field_be32, arc_of]

theorem read_arc_cut {p : List Nat} {a : DiskArc} (h : StrictPrefix p (ser_arc a)) :
    read_arc p = none := by
  rcases h.append_cases with h1 | ⟨q, e, h2⟩
  · simp only [read_arc, read_uint_field_cut h1]
  · rw [e]
    simp only [read_arc, read_uint_field_be32, read_uint_field_cut h2]

/-- `read_arcs` on the records of `l` followed by `t`: all arcs are read; the
returned `err` is 0 after at least one round and the entry value otherwise. -/
theorem read_arcs_loop_ser (l : List DiskArc) :
    ∀ (err : Int) (t : List Nat) (acc : List arc),
      read_arcs_loop l.length err (ser_arcs l ++ t) acc
        = (if l = [] then err else 0, acc ++ l.map arc_of, t) := by
  induction l with
  | nil => intro err t acc; simp [read_arcs_loop, ser_arcs]
  | cons a l ih =>
    intro err t acc
    simp only [List.length_cons, read_arcs_loop, ser_arcs, List.append_assoc, read_arc_ser]
    rw [ih]
    by_cases hl : l = []
    · simp [hl]
    · simp [hl]

/-- `read_arcs` on a stream cut short inside the records of `l` returns 1. -/
theorem read_arcs_loop_cut (l : List DiskArc) :
    ∀ (err : Int) (p : List Nat) (acc : List arc), StrictPrefix p (ser_arcs l) →
      (read_arcs_loop l.length err p acc).1 = 1 := by
  induction l with
  | nil => intro err p acc h; exact absurd h (fun h => h.not_nil)
  | cons a l ih =>
    intro err p acc h
    simp only [ser_arcs] at h
    simp only [List.length_cons, read_arcs_loop]
    rcases h.append_cases with h1 | ⟨q, e, h2⟩
    · rw [read_arc_cut h1]
    · rw [e, read_arc_ser]
      exact ih 0 q _ h2

/-- `read_node` on a node record followed by `t`. -/
theorem read_node_ser (err0 : Int) (nd : DiskNode) (hl : nd.arcs.length < 4294967296)
    (t : List Nat) :
    read_node err0 (ser_node nd ++ t)
      = if nd.arcs = [] ∧ err0 ≠ 0 then none else some (node_of nd, t) := by
  simp only [read_node, ser_node, List.append_assoc, read_uint_field_be32, read_int_field_be32,
    read_arcs, Nat.mod_eq_of_lt hl, read_arcs_loop_ser, List.nil_append, toI32_mod, node_of]
  by_cases h1 : nd.arcs = []
  · by_cases h2 : err0 = 0
    · simp [h1, h2]
    · simp [h1, h2]
  · simp [h1]

/-- `read_node` fails on a stream cut short inside a node record. -/
theorem read_node_cut (err0 : Int) {nd : DiskNode} (hl : nd.arcs.length < 4294967296)
    {p : List Nat} (h : StrictPrefix p (ser_node nd)) : read_node err0 p = none := by
  unfold ser_node at h
  rcases h.append_cases with h1 | ⟨q1, e1, h⟩
  · simp only [read_node, read_uint_field_cut h1]
  rcases h.append_cases with h2 | ⟨q2, e2, h⟩
  · rw [e1]
    simp only [read_node, read_uint_field_be32, read_int_field_cut h2]
  rcases h.append_cases with h3 | ⟨q3, e3, h⟩
  · rw [e1, e2]
    simp only [read_node, read_uint_field_be32, read_int_field_be32, read_int_field_cut h3]
  rcases h.append_cases with h4 | ⟨q4, e4, h⟩
  · rw [e1, e2, e3]
    simp only [read_node, read_uint_field_be32, read_int_field_be32, read_uint_field_cut h4]
  · rw [e1, e2, e3, e4]
    simp only [read_node, read_uint_field_be32, read_int_field_be32, read_arcs,
      Nat.mod_eq_of_lt hl, read_arcs_loop_cut nd.arcs _ q4 _ h]
    simp

/-- `read_nodes` returns a nonzero `err` on a stream cut short inside the node
records, whatever the indeterminate values are. -/
theorem read_nodes_loop_cut (arcs_err : Nat → Int) (g : List DiskNode)
    (hl : ∀ nd ∈ g, nd.arcs.length < 4294967296) :
    ∀ (i : Nat) (err : Int) (p : List Nat) (acc : List node), StrictPrefix p (ser_nodes g) →
      (read_nodes_loop arcs_err g.length i err p acc).1 = 1 := by
  induction g with
  | nil => intro i err p acc h; exact absurd h (fun h => h.not_nil)
  | cons nd g ih =>
    intro i err p acc h
    simp only [ser_nodes] at h
    simp only [List.length_cons, read_nodes_loop]
    have hnd := hl nd (List.mem_cons_self _ _)
    rcases h.append_cases with h1 | ⟨q, e, h2⟩
    · rw [read_node_cut _ hnd h1]
    · rw [e, read_node_ser _ nd hnd]
      split_ifs
      · rfl
      · exact ih (fun x hx => hl x (List.mem_cons_of_mem _ hx)) (i + 1) 0 q _ h2

/-- `read_nodes` on the node records of `g` followed by `t`, when the
indeterminate `err` of `read_arcs` is 0 for every node without arcs. -/
theorem read_nodes_loop_ser (arcs_err : Nat → Int) (g : List DiskNode)
    (hl : ∀ nd ∈ g, nd.arcs.length < 4294967296) :
    ∀ (i : Nat) (err : Int) (t : List Nat) (acc : List node),
      (∀ k : Nat, k < g.length → (g.getD k ⟨0, 0, 0, []⟩).arcs = [] → arcs_err (i + k) = 0) →
      read_nodes_loop arcs_err g.length i err (ser_nodes g ++ t) acc
        = (if g = [] then err else 0, acc ++ g.map node_of, t) := by
  induction g with
  | nil => intro i err t acc _; simp [read_nodes_loop, ser_nodes]
  | cons nd g ih =>
    intro i err t acc hz
    have hnd := hl nd (List.mem_cons_self _ _)
    simp only [List.length_cons, read_nodes_loop, ser_nodes, List.append_assoc,
      read_node_ser _ nd hnd]
    have h0 : ¬ (nd.arcs = [] ∧ arcs_err i ≠ 0) := by
      intro hc
      have := hz 0 (by simp) (by simpa using hc.1)
      exact hc.2 (by simpa using this)
    rw [if_neg h0]
    simp only
    rw [ih (fun x hx => hl x (List.mem_cons_of_mem _ hx)) (i + 1) 0 t _]
    · by_cases hg : g = []
      · simp [hg]
      · simp [hg]
    · intro k hk hk2
      have := hz (k + 1) (by simpa using hk) (by simpa using hk2)
      rw [← this]
      congr 1
      omega

/-- `load_map` on a serialised graph, when the indeterminate `err` of
`read_arcs` is 0 for every node without arcs: the load succeeds with the
prescribed nodes and consumes the whole stream. -/
theorem load_map_serialise (ind : Indet) (ver reserved : Nat) (g : List DiskNode)
    (hv : ver = 1 ∨ ver = 2) (hg : g ≠ []) (hn : g.length < 4294967296)
    (hl : ∀ nd ∈ g, nd.arcs.length < 4294967296)
    (hz : ∀ k : Nat, k < g.length → (g.getD k ⟨0, 0, 0, []⟩).arcs = [] → ind.arcs_err k = 0) :
    load_map ind (serialise ver reserved g) = some ⟨g.length, g.map node_of, []⟩ := by
  have hlen : g.length ≠ 0 := fun e => hg (List.length_eq_zero.1 e)
  have hrn := read_nodes_loop_ser ind.arcs_err g hl 0 ind.nodes_err [] []
    (fun k hk hk2 => by rw [Nat.zero_add]; exact hz k hk hk2)
  rw [List.append_nil, if_neg hg, List.nil_append] at hrn
  rcases hv with hv | hv
  · subst hv
    simp [load_map, serialise, read_header, read_uint_field_be32, Nat.mod_eq_of_lt hn,
      read_nodes, hrn, hlen]
  · subst hv
    simp [load_map, serialise, read_header, read_uint_field_be32, Nat.mod_eq_of_lt hn,
      read_nodes, hrn, hlen]

/-- `load_map` fails on every stream that is a serialised graph cut short. -/
theorem load_map_cut (ind : Indet) (ver reserved : Nat) (g : List DiskNode)
    (hv : ver = 1 ∨ ver = 2) (hg : g ≠ []) (hn : g.length < 4294967296)
    (hl : ∀ nd ∈ g, nd.arcs.length < 4294967296) (p : List Nat)
    (h : StrictPrefix p (serialise ver reserved g)) : load_map ind p = none := by
  have hlen : g.length ≠ 0 := fun e => hg (List.length_eq_zero.1 e)
  match p, h with
  | [], _ => rfl
  | b :: q, h =>
    obtain ⟨t, ht, e⟩ := h
    simp only [serialise, List.cons_append, List.cons.injEq] at e
    obtain ⟨eb, e⟩ := e
    have hq : StrictPrefix q (be32 g.length ++
        ((if ver ≥ 2 then be32 reserved else []) ++ ser_nodes g)) := ⟨t, ht, e⟩
    rcases hq.append_cases with h1 | ⟨q1, e1, h2⟩
    · simp only [load_map, read_header, read_uint_field_cut h1]
    · rcases hv with hv | hv
      · subst hv
        subst eb
        simp only [ge_iff_le, Nat.reduceLeDiff, if_false, List.nil_append] at h2
        have hc := read_nodes_loop_cut ind.arcs_err g hl 0 ind.nodes_err q1 [] h2
        rw [e1]
        simp [load_map, read_header, read_uint_field_be32, Nat.mod_eq_of_lt hn,
          read_nodes, hc, hlen]
      · subst hv
        subst eb
        simp only [ge_iff_le, le_refl, if_true] at h2
        rcases h2.append_cases with h3 | ⟨q2, e2, h4⟩
        · rw [e1]
          simp [load_map, read_header, read_uint_field_be32, read_uint_field_cut h3]
        · have hc := read_nodes_loop_cut ind.arcs_err g hl 0 ind.nodes_err q2 [] h4
          rw [e1, e2]
          simp [load_map, read_header, read_uint_field_be32, Nat.mod_eq_of_lt hn,
            read_nodes, hc, hlen]

theorem strictPrefix_dropLast {s : List Nat} (hs : s ≠ []) : StrictPrefix s.dropLast s :=
  ⟨[s.getLast hs], by simp, List.dropLast_append_getLast hs⟩

/-- C9 (failing input): the version-1 stream of the graph with the single
node 1, coordinates (0, 0) and an empty arc list.  `read_arcs` runs no round
and returns its uninitialised `err`; when that value is nonzero `load_map`
fails, and when it is 0 the load succeeds with the prescribed node. -/
theorem C9_empty_arc_list_load_depends_on_uninitialised_err :
    serialise 1 0 [⟨1, 0, 0, []⟩] = [1, 0, 0, 0, 1, 0, 0, 0, 1, 0, 0, 0, 0, 0, 0, 0, 0, 0, 0, 0, 0] ∧
    load_map ⟨fun _ => 1, 0⟩ (serialise 1 0 [⟨1, 0, 0, []⟩]) = none ∧
    load_map ⟨fun _ => 0, 0⟩ (serialise 1 0 [⟨1, 0, 0, []⟩])
      = some ⟨1, [⟨0, 0, 0, 0, []⟩], []⟩ := by
  decide

/-- C10: `load_map` returns failure, and so no graph, on every strict prefix
of the serialisation of a graph with at least one node, for both versions and
whatever the uninitialised locals hold; in particular on the serialisation
without its last byte. -/
theorem C10_truncated_stream_is_rejected (ind : Indet) (ver reserved : Nat)
    (g : List DiskNode) (hv : ver = 1 ∨ ver = 2) (hg : g ≠ []) (hn : g.length < 4294967296)
    (hl : ∀ nd ∈ g, nd.arcs.length < 4294967296) :
    (∀ p : List Nat, StrictPrefix p (serialise ver reserved g) → load_map ind p = none) ∧
    load_map ind (serialise ver reserved g).dropLast = none :=
  ⟨fun p h => load_map_cut ind ver reserved g hv hg hn hl p h,
    load_map_cut ind ver reserved g hv hg hn hl _
      (strictPrefix_dropLast (by simp [serialise]))⟩

/-- C10 at a two-node graph with three arcs, version 2. -/
theorem C10_truncated_stream_is_rejected_witness :
    ((2 : Nat) = 1 ∨ (2 : Nat) = 2) ∧
    ([⟨1, -5, 3, [⟨2, 9⟩]⟩, ⟨2, 0, 0, [⟨1, 4⟩, ⟨1, 300⟩]⟩] : List DiskNode) ≠ [] ∧
    ((∀ p : List Nat,
        StrictPrefix p (serialise 2 77 [⟨1, -5, 3, [⟨2, 9⟩]⟩, ⟨2, 0, 0, [⟨1, 4⟩, ⟨1, 300⟩]⟩]) →
        load_map ⟨fun _ => 0, 0⟩ p = none) ∧
      load_map ⟨fun _ => 0, 0⟩
        (serialise 2 77 [⟨1, -5, 3, [⟨2, 9⟩]⟩, ⟨2, 0, 0, [⟨1, 4⟩, ⟨1, 300⟩]⟩]).dropLast = none) :=
  ⟨by decide, by decide,
    C10_truncated_stream_is_rejected ⟨fun _ => 0, 0⟩ 2 77
      [⟨1, -5, 3, [⟨2, 9⟩]⟩, ⟨2, 0, 0, [⟨1, 4⟩, ⟨1, 300⟩]⟩] (by decide) (by decide) (by decide)
      (by decide)⟩

/-! ## The header of the stream -/

/-- C11: `load_map` returns failure, and yields no graph, on every stream
whose version byte is greater than 2 and on every stream whose header declares
the node count 0, whatever bytes follow. -/
theorem C11_header_with_bad_version_or_zero_count_is_rejected (ind : Indet) (f : List Nat)
    (h : (∃ b rest, f = b :: rest ∧ 2 < b % 256) ∨
      (∃ b b0 b1 b2 b3 rest, f = b :: b0 :: b1 :: b2 :: b3 :: rest ∧
        be32_val b0 b1 b2 b3 = 0)) :
    load_map ind f = none := by
  rcases h with ⟨b, rest, rfl, hb⟩ | ⟨b, b0, b1, b2, b3, rest, rfl, hz⟩
  · simp only [load_map, read_header]
    cases h1 : read_uint_field rest with
    | none => rfl
    | some p =>
      obtain ⟨n, f2⟩ := p
      simp only
      rw [if_pos (by omega)]
      cases h2 : read_uint_field f2 with
      | none => rfl
      | some q =>
        obtain ⟨r, f3⟩ := q
        simp only
        rw [if_pos hb]
  · have e1 : read_uint_field (b0 :: b1 :: b2 :: b3 :: rest) = some (0, rest) := by
      simp [read_uint_field, hz]
    simp only [load_map, read_header, e1]
    by_cases hb : b % 256 > 1
    · rw [if_pos hb]
      cases h2 : read_uint_field rest with
      | none => rfl
      | some q =>
        obtain ⟨r, f3⟩ := q
        simp
    · rw [if_neg hb]
      simp

/-- C11 at the stream of version 3 with node count 1 and no body. -/
theorem C11_header_with_bad_version_or_zero_count_is_rejected_witness :
    ((∃ b rest, [3, 0, 0, 0, 1] = b :: rest ∧ 2 < b % 256) ∨
      (∃ b b0 b1 b2 b3 rest, [3, 0, 0, 0, 1] = b :: b0 :: b1 :: b2 :: b3 :: rest ∧
        be32_val b0 b1 b2 b3 = 0)) ∧
    load_map ⟨fun _ => 0, 0⟩ [3, 0, 0, 0, 1] = none :=
  ⟨Or.inl ⟨3, [0, 0, 0, 1], rfl, by decide⟩,
    C11_header_with_bad_version_or_zero_count_is_rejected ⟨fun _ => 0, 0⟩ [3, 0, 0, 0, 1]
      (Or.inl ⟨3, [0, 0, 0, 1], rfl, by decide⟩)⟩

/-- C12: for every node count `n`, every four bytes `r0 r1 r2 r3` of the
reserved field and every body `b`, `load_map` on the version-2 stream
`2, be32 n, r0 r1 r2 r3, b` gives the same outcome (failure, or the same node
count, nodes and unread rest) as on the version-1 stream `1, be32 n, b`, the
uninitialised locals holding the same values in both calls. -/
theorem C12_reserved_field_is_read_and_ignored (ind : Indet) (n r0 r1 r2 r3 : Nat)
    (b : List Nat) :
    load_map ind (2 :: (be32 n ++ (r0 :: r1 :: r2 :: r3 :: b)))
      = load_map ind (1 :: (be32 n ++ b)) := by
  have e1 : read_uint_field (r0 :: r1 :: r2 :: r3 :: b) = some (be32_val r0 r1 r2 r3, b) := rfl
  simp only [load_map, read_header, read_uint_field_be32, e1]
  simp


/-! ## Runs and calls that show the defects -/

/-- A path that starts at a node without arcs ends there. -/
theorem Walk.eq_of_no_arcs {nodes : List node} {u v w : Nat} (h : Walk nodes u v w)
    (hu : (node_at nodes u).arcv = []) : u = v := by
  cases h with
  | nil => rfl
  | cons a ha _ => rw [hu] at ha; simp at ha

/-- The value that `djikstra` returns is 0 on every input. -/
theorem djikstra_ret (nodes : List node) (n source target : Nat) :
    (djikstra nodes n source target).ret = 0 := rfl

set_option maxRecDepth 100000 in
/-- C13 (failing input): in the graph of two nodes without arcs no path leads
from node 0 to node 1, and `djikstra` with source 0 and target 1 returns 0
(success) with the sentinel, 4294967295 as `unsigned int`, stored as the
cost. -/
theorem C13_unreachable_target_returns_success_on_isolated2 :
    GraphOK isolated2 2 ∧ (¬ ∃ w, Walk isolated2 0 1 w) ∧
    (djikstra isolated2 2 0 1).ret = 0 ∧ (djikstra isolated2 2 0 1).cost = 4294967295 := by
  refine ⟨by decide, ?_, rfl, by decide⟩
  rintro ⟨w, hw⟩
  have := hw.eq_of_no_arcs (by decide)
  omega

theorem Desc.le {i j : Int} (h : Desc i j) (hi : 0 ≤ i) : i ≤ j := by
  induction h with
  | self i => exact le_refl i
  | left _ ih => have := ih (by omega); omega
  | right _ ih => have := ih (by omega); omega

theorem heapA2_HInv : HInv 2 heapA2 trackId := by
  refine ⟨?_, ?_, ?_, ?_⟩ <;> intro i h0 h1 <;>
    (have hi : i = 0 ∨ i = 1 := by omega) <;> rcases hi with rfl | rfl <;>
    simp [heapA2, trackId]

set_option maxRecDepth 100000 in
/-- C15 (failing input): the two-slot heap with the sentinel `-1` in slot 0
and the distance 5 in slot 1, `size = 1`, `i = 0`.  The position table is
consistent and both child subtrees are in heap order, but `Min_Heapify`
leaves the array as it is, so the subtree rooted at 0 is not in heap order
afterwards. -/
theorem C15_sift_down_keeps_sentinel_above_finite_child :
    HInv 2 heapA2 trackId ∧ SubtreeOrder heapA2 1 1 ∧ SubtreeOrder heapA2 1 2 ∧
    ((Min_Heapify heapA2 0 1 trackId).A 0).d = -1 ∧
    ((Min_Heapify heapA2 0 1 trackId).A 1).d = 5 ∧
    ¬ SubtreeOrder (Min_Heapify heapA2 0 1 trackId).A 1 0 := by
  refine ⟨heapA2_HInv, ?_, ?_, by decide, by decide, ?_⟩
  · intro j hj c hc hcs
    have := hj.le (by omega)
    omega
  · intro j hj c hc hcs
    have := hj.le (by omega)
    omega
  · intro h
    have h1 := h 0 (Desc.self 0) 1 (Or.inl (by decide)) (by decide)
    revert h1
    decide

theorem heapA1_HInv : HInv 1 heapA1 trackId := by
  refine ⟨?_, ?_, ?_, ?_⟩ <;> intro i h0 h1 <;>
    (have hi : i = 0 := by omega) <;> subst hi <;> simp [heapA1, trackId]

/-- Every call of `Pull_Up` on slot 0 accesses the element at index `-1`. -/
theorem Pull_Up_trace_root (A : Int → heap_node) (track : Int → Int) :
    Pull_Up_trace A 0 track = [-1, 0] := by
  simp [Pull_Up_trace, Pull_Up_accesses, Pull_Up_P]

/-- C19 (failing input): for the one-slot heap with a consistent position
table and `i = 0`, the call `Pull_Up(A, 0, track)` accesses the elements with
the indices `-1` and `0`: the element at index `-1`, outside `[0, n-1]`, is
read. -/
theorem C19_sift_up_reads_index_minus_one_at_root :
    HInv 1 heapA1 trackId ∧ Pull_Up_trace heapA1 0 trackId = [-1, 0] ∧
    ¬ (∀ k ∈ Pull_Up_trace heapA1 0 trackId, 0 ≤ k ∧ k ≤ 1 - 1) := by
  refine ⟨heapA1_HInv, Pull_Up_trace_root _ _, ?_⟩
  rw [Pull_Up_trace_root]
  intro h
  have := h (-1) (by simp)
  omega

/-- With `narcs = 0`, `read_arcs` consumes nothing and returns the value that
its local `err` held on entry. -/
theorem read_arcs_zero (err0 : Int) (f : List Nat) : read_arcs err0 f 0 = (err0, [], f) := rfl

/-- C20 (failing input): with the uninitialised `err` holding 1, `read_arcs`
called with `narcs = 0` returns 1 without consuming a byte, `read_node` fails
on the well-formed record of node 1 with arc count 0, and `read_nodes` stops
with failure instead of going on to the record of node 2. -/
theorem C20_empty_arc_list_returns_uninitialised_err :
    read_arcs 1 (ser_node ⟨2, 0, 0, []⟩) 0 = (1, [], ser_node ⟨2, 0, 0, []⟩) ∧
    read_node 1 (ser_node ⟨1, 0, 0, []⟩ ++ ser_node ⟨2, 0, 0, []⟩) = none ∧
    (read_nodes ⟨fun _ => 1, 0⟩ (ser_node ⟨1, 0, 0, []⟩ ++ ser_node ⟨2, 0, 0, []⟩) 2).1 = 1 := by
  decide


/-! ## Extracted vertices along the whole run -/

theorem Later.same (n : Nat) (a : DjState) : Later n a a :=
  ⟨le_refl _, fun _ _ _ _ => ⟨rfl, rfl⟩⟩

theorem Later.chain {n : Nat} {a b c : DjState} (h1 : Later n a b) (h2 : Later n b c) :
    Later n a c := by
  refine ⟨le_trans h2.1 h1.1, ?_⟩
  intro v hv hvn hf
  obtain ⟨e1, e2⟩ := h1.2 v hv hvn hf
  have hfb : b.size < b.heap_track v := by
    rw [e1]; have := h1.1; omega
  obtain ⟨e3, e4⟩ := h2.2 v hv hvn hfb
  exact ⟨e3.trans e1, e4.trans e2⟩

theorem dj_relax_Later {n : Nat} (u : Int) (st : DjState) (a : arc)
    (h : HInv n st.Q st.heap_track) (hs : st.size < n) (ha : a.target < n) :
    Later n st (dj_relax u st a) := by
  refine ⟨le_of_eq (dj_relax_size u st a), ?_⟩
  intro v hv hvn hf
  have := dj_relax_frozen u st a h hs ha v hv hvn hf
  exact ⟨this.1, this.2⟩

theorem dj_extract_Later {n : Nat} (st : DjState) (h : HInv n st.Q st.heap_track)
    (hs0 : 0 < st.size) (hs : st.size < n) : Later n st (dj_extract st).1 := by
  obtain ⟨_, e2, _, _, e5, e6, _⟩ := dj_extract_spec st h hs0 hs
  refine ⟨by rw [e2]; omega, ?_⟩
  intro v hv hvn hf
  exact ⟨e6 v hv hvn hf, e5 v hv hvn⟩

/-- The states after the relaxation rounds of one iteration: each comes later
than the ones before it, and the state after the last round comes later than
all of them. -/
theorem dj_relax_scan_Later {n : Nat} (nodes : List node) (u : Int) (l : List Nat)
    (hl : ∀ i ∈ l, (arc_at (node_at nodes u).arcv i).target < n) :
    ∀ st : DjState, HInv n st.Q st.heap_track → st.size < n →
      List.Pairwise (Later n)
        (List.scanl (fun s i => dj_relax u s (arc_at (node_at nodes u).arcv i)) st l) ∧
      ∀ b ∈ List.scanl (fun s i => dj_relax u s (arc_at (node_at nodes u).arcv i)) st l,
        Later n st b ∧
        Later n b (l.foldl (fun s i => dj_relax u s (arc_at (node_at nodes u).arcv i)) st) := by
  induction l with
  | nil =>
    intro st _ _
    simp only [List.scanl_nil, List.pairwise_singleton, List.mem_singleton, List.foldl_nil,
      true_and]
    intro b hb
    rw [hb]
    exact ⟨Later.same n st, Later.same n st⟩
  | cons i l ih =>
    intro st h hs
    have hi := hl i (List.mem_cons_self _ _)
    have hr := dj_relax_Moves u st (arc_at (node_at nodes u).arcv i) h hs hi
    have hsz := dj_relax_size u st (arc_at (node_at nodes u).arcv i)
    have hL := dj_relax_Later u st (arc_at (node_at nodes u).arcv i) h hs hi
    obtain ⟨i1, i2⟩ := ih (fun j hj => hl j (List.mem_cons_of_mem _ hj))
      (dj_relax u st (arc_at (node_at nodes u).arcv i)) hr.2.1 (by rw [hsz]; exact hs)
    have hhead : dj_relax u st (arc_at (node_at nodes u).arcv i) ∈
        List.scanl (fun s i => dj_relax u s (arc_at (node_at nodes u).arcv i))
          (dj_relax u st (arc_at (node_at nodes u).arcv i)) l := by
      cases l with
      | nil => simp
      | cons j l => simp [List.scanl_cons]
    simp only [List.scanl_cons, List.singleton_append, List.pairwise_cons, List.mem_cons,
      List.foldl_cons]
    refine ⟨⟨fun b hb => hL.chain (i2 b hb).1, i1⟩, ?_⟩
    intro b hb
    rcases hb with hb | hb
    · rw [hb]
      exact ⟨Later.same n st, hL.chain (i2 _ hhead).2⟩
    · exact ⟨hL.chain (i2 b hb).1, (i2 b hb).2⟩

theorem dj_loop_marks_of_size_le (nodes : List node) (target : Nat) (fuel : Nat) (st : DjState)
    (h : st.size ≤ 0) : dj_loop_marks nodes target fuel st = [] := by
  cases fuel with
  | zero => rfl
  | succ fuel =>
    simp only [dj_loop_marks]
    rw [if_neg (by omega)]

/-- The states after the extraction steps and relaxation rounds of the main
loop started in `st`: each comes later than `st` and than the ones before
it. -/
theorem dj_loop_marks_Later {n : Nat} (nodes : List node) (target : Nat)
    (hlen : nodes.length = n) (hg : ArcsOK nodes n) (fuel : Nat) :
    ∀ st : DjState, HInv n st.Q st.heap_track → st.size < n →
      List.Pairwise (Later n) (dj_loop_marks nodes target fuel st) ∧
      ∀ b ∈ dj_loop_marks nodes target fuel st, Later n st b := by
  induction fuel with
  | zero =>
    intro st _ _
    simp [dj_loop_marks]
  | succ fuel ih =>
    intro st h hs
    simp only [dj_loop_marks]
    by_cases hs0 : st.size > 0
    · rw [if_pos hs0]
      have he := dj_extract_HInv st h hs0 hs
      have heL := dj_extract_Later st h hs0 hs
      have hu := h.vr 0 (le_refl _) (by omega)
      rw [← he.2.2.1] at hu
      have harcs : ∀ i ∈ List.range (node_at nodes (dj_extract st).2).narcs,
          (arc_at (node_at nodes (dj_extract st).2).arcv i).target < n :=
        fun i hi => hg.target_lt hu.1 (by rw [hlen]; exact hu.2) hi
      obtain ⟨s1, s2⟩ := dj_relax_scan_Later nodes (dj_extract st).2
        (List.range (node_at nodes (dj_extract st).2).narcs) harcs (dj_extract st).1 he.1.1
        (by rw [he.2.1]; omega)
      have hit := dj_iter_HInv nodes target hlen hg st h hs0 hs
      obtain ⟨l1, l2⟩ := ih (dj_iter nodes target st) hit.1 (by omega)
      have hcross : ∀ a ∈ dj_iter_marks nodes st,
          ∀ b ∈ dj_loop_marks nodes target fuel (dj_iter nodes target st), Later n a b := by
        intro a ha b hb
        by_cases hut : toU32 (dj_extract st).2 = target
        · have hsz : (dj_iter nodes target st).size ≤ 0 := by
            simp only [dj_iter, if_pos hut]
            omega
          rw [dj_loop_marks_of_size_le _ _ _ _ hsz] at hb
          simp at hb
        · have hite : dj_iter nodes target st
              = dj_relax_all nodes (dj_extract st).2 (dj_extract st).1 := by
            simp only [dj_iter, if_neg hut]
          rw [hite] at hb l2
          exact (s2 a ha).2.chain (l2 b hb)
      refine ⟨List.pairwise_append.2 ⟨s1, l1, hcross⟩, ?_⟩
      intro b hb
      rcases List.mem_append.1 hb with hb | hb
      · exact heL.chain (s2 b hb).1
      · have hfirst : (dj_extract st).1 ∈ dj_iter_marks nodes st := by
          simp only [dj_iter_marks]
          cases List.range (node_at nodes (dj_extract st).2).narcs with
          | nil => simp
          | cons j l => simp [List.scanl_cons]
        exact heL.chain (hcross _ hfirst b hb)
    · rw [if_neg hs0]
      simp

/-- C18: in a run of `djikstra` on a graph in which node `i` has number `i`
and every arc points into the graph, take any two of the states after the
initialisation, after the extraction steps and after the relaxation rounds,
`a` before `b`.  Every vertex that is extracted in `a` (its entry is in a slot
above `size`) has in `b` the same slot (`heap_track` value) and the same entry
there, so the same distance and predecessor. -/
theorem C18_extracted_entries_are_frozen (nodes : List node) (n source target : Nat)
    (_hn : 1 ≤ n) (hg : GraphOK nodes n) (hs : source < n) (_ht : target < n) :
    List.Pairwise (FrozenKept n) (dj_marks nodes n source target) := by
  have hi := dj_init_HInv hg.perm.1 hs
  obtain ⟨l1, l2⟩ := dj_loop_marks_Later nodes target hg.1 hg.2.2 n (dj_init nodes n source)
    hi.1 (by rw [hi.2]; omega)
  have : List.Pairwise (Later n) (dj_marks nodes n source target) := by
    simp only [dj_marks, List.pairwise_cons]
    exact ⟨l2, l1⟩
  exact this.imp (fun h => h.2)

/-- C18 at the graph `loop2`, source 0, target 1: the self-loop of node 0 is
an arc that points back to an extracted vertex. -/
theorem C18_extracted_entries_are_frozen_witness :
    1 ≤ 2 ∧ GraphOK loop2 2 ∧ 0 < 2 ∧ 1 < 2 ∧
    List.Pairwise (FrozenKept 2) (dj_marks loop2 2 0 1) :=
  ⟨by decide, by decide, by decide, by decide,
    C18_extracted_entries_are_frozen loop2 2 0 1 (by decide) (by decide) (by decide)
      (by decide)⟩


/-! ## The early exit -/

/-- Before the first iteration no entry has a predecessor. -/
theorem dj_init_pi {nodes : List node} {n source : Nat} (hg : GraphOK nodes n)
    (hs : source < n) (x : Int) (hx : 0 ≤ x) (hxn : x < n) :
    (ent (dj_init nodes n source) x).pi = -1 := by
  lift x to ℕ using hx
  have hx2 : x < n := by exact_mod_cast hxn
  by_cases hxs : x = source
  · subst hxs
    rw [(dj_init_source hg hs).2]
  · have hinj := (perm_facts hg.perm.1).2.2.1
    have hsp := init_loop_spec hinj n (le_refl n) x hx2
    rw [hg.2.1 x hx2] at hsp
    have h0 := init_loop_HInv hg.perm.1
    have h1 := h0.update_same_vind (source : Int)
      { ((List.range n).foldl (init_step nodes) fresh).A source with d := 0 } rfl
    have hsw := @swap_Moves n ((n : Int) - 1) _ _ h1 (source : Int) 0
      (by omega) (by omega) (le_refl _) (by omega) (by omega)
    simp only [dj_init, ent]
    rw [hsw.2.1 x (by omega) hxn, hsp.2, Function.update_noteq (by exact_mod_cast hxs), hsp.1]

/-- A relaxation round from the extracted vertex `u` keeps `PiInv`. -/
theorem dj_relax_PiInv {n : Nat} (u : Int) (hu : 0 ≤ u) (hun : u < n) (st : DjState) (a : arc)
    (h : HInv n st.Q st.heap_track) (hs : st.size < n) (ha : a.target < n)
    (hut : st.heap_track u = st.size + 1) (hP : PiInv n st) :
    PiInv n (dj_relax u st a) ∧ (dj_relax u st a).heap_track u = (dj_relax u st a).size + 1 := by
  obtain ⟨_, hsz, hfr, _, hnc, hc⟩ := dj_relax_spec u st a h hs ha
  cases hcond : dj_relax_cond st a
  · rw [hnc hcond]; exact ⟨hP, hut⟩
  · have hufz : st.size < st.heap_track u := by omega
    refine ⟨?_, by rw [hsz, hfr u hu hun hufz]; exact hut⟩
    intro x hx hxn
    rw [hc hcond x hx hxn, hsz]
    by_cases hxa : x = a.target
    · rw [if_pos hxa]
      simp only
      right
      exact ⟨hu, hun, by rw [hfr u hu hun hufz]; exact hufz⟩
    · rw [if_neg hxa]
      rcases hP x hx hxn with h1 | ⟨h1, h2, h3⟩
      · exact Or.inl h1
      · exact Or.inr ⟨h1, h2, by rw [hfr _ h1 h2 h3]; exact h3⟩

theorem dj_relax_fold_PiInv {n : Nat} (nodes : List node) (u : Int) (hu : 0 ≤ u) (hun : u < n)
    (l : List Nat) (hl : ∀ i ∈ l, (arc_at (node_at nodes u).arcv i).target < n) :
    ∀ st : DjState, HInv n st.Q st.heap_track → st.size < n →
      st.heap_track u = st.size + 1 → PiInv n st →
      PiInv n (l.foldl (fun s i => dj_relax u s (arc_at (node_at nodes u).arcv i)) st) ∧
      (l.foldl (fun s i => dj_relax u s (arc_at (node_at nodes u).arcv i)) st).heap_track u
        = st.size + 1 := by
  induction l with
  | nil => intro st _ _ hut hP; exact ⟨hP, hut⟩
  | cons i l ih =>
    intro st h hs hut hP
    have hi := hl i (List.mem_cons_self _ _)
    have hr := dj_relax_Moves u st (arc_at (node_at nodes u).arcv i) h hs hi
    have hsz := dj_relax_size u st (arc_at (node_at nodes u).arcv i)
    obtain ⟨p1, p2⟩ := dj_relax_PiInv u hu hun st _ h hs hi hut hP
    have := ih (fun j hj => hl j (List.mem_cons_of_mem _ hj)) _ hr.2.1
      (by rw [hsz]; exact hs) p2 p1
    simp only [List.foldl_cons]
    rw [hsz] at this
    exact this

/-- One iteration of the main loop without the early exit. -/
theorem dj_iter_full_spec {n : Nat} (nodes : List node) (hlen : nodes.length = n)
    (hg : ArcsOK nodes n) (st : DjState) (h : HInv n st.Q st.heap_track)
    (hs0 : 0 < st.size) (hs : st.size < n) (hP : PiInv n st) :
    HInv n (dj_iter_full nodes st).Q (dj_iter_full nodes st).heap_track ∧
    (dj_iter_full nodes st).size = st.size - 1 ∧ PiInv n (dj_iter_full nodes st) ∧
    0 ≤ (dj_extract st).2 ∧ (dj_extract st).2 < n ∧
    (dj_iter_full nodes st).heap_track (dj_extract st).2 = st.size ∧
    Later n st (dj_iter_full nodes st) := by
  obtain ⟨e1, e2, e3, e4, e5, e6, _⟩ := dj_extract_spec st h hs0 hs
  have hu := h.vr 0 (le_refl _) (by omega)
  rw [← e3] at hu e4
  have harcs : ∀ i ∈ List.range (node_at nodes (dj_extract st).2).narcs,
      (arc_at (node_at nodes (dj_extract st).2).arcv i).target < n :=
    fun i hi => hg.target_lt hu.1 (by rw [hlen]; exact hu.2) hi
  have hse : (dj_extract st).1.size < n := by rw [e2]; omega
  have hPe : PiInv n (dj_extract st).1 := by
    intro x hx hxn
    rw [e5 x hx hxn, e2]
    rcases hP x hx hxn with h1 | ⟨h1, h2, h3⟩
    · exact Or.inl h1
    · exact Or.inr ⟨h1, h2, by rw [e6 _ h1 h2 h3]; omega⟩
  have hra := dj_relax_all_HInv nodes (dj_extract st).2 _ harcs (dj_extract st).1 e1 hse
  obtain ⟨f1, f2⟩ := dj_relax_fold_PiInv nodes (dj_extract st).2 hu.1 hu.2 _ harcs
    (dj_extract st).1 e1 hse (by rw [e4, e2]; omega) hPe
  obtain ⟨_, s2⟩ := dj_relax_scan_Later nodes (dj_extract st).2 _ harcs (dj_extract st).1 e1 hse
  have hfirst : (dj_extract st).1 ∈ List.scanl
      (fun s i => dj_relax (dj_extract st).2 s (arc_at (node_at nodes (dj_extract st).2).arcv i))
      (dj_extract st).1 (List.range (node_at nodes (dj_extract st).2).narcs) := by
    cases List.range (node_at nodes (dj_extract st).2).narcs with
    | nil => simp
    | cons j l => simp [List.scanl_cons]
  simp only [dj_iter_full, dj_relax_all]
  refine ⟨hra.1, by rw [hra.2.1, e2], f1, hu.1, hu.2, by rw [f2, e2]; omega, ?_⟩
  exact (dj_extract_Later st h hs0 hs).chain (s2 _ hfirst).2

theorem dj_iter_eq (nodes : List node) (target : Nat) (st : DjState) :
    dj_iter nodes target st =
      if toU32 (dj_extract st).2 = target then { dj_iter_full nodes st with size := -1 }
      else dj_iter_full nodes st := rfl

/-- The main loop without the early exit keeps every extracted vertex. -/
theorem dj_loop_full_Later {n : Nat} (nodes : List node) (hlen : nodes.length = n)
    (hg : ArcsOK nodes n) (fuel : Nat) :
    ∀ st : DjState, HInv n st.Q st.heap_track → st.size < n → PiInv n st →
      Later n st (dj_loop_full nodes fuel st) := by
  induction fuel with
  | zero => intro st _ _ _; exact Later.same n st
  | succ fuel ih =>
    intro st h hs hP
    simp only [dj_loop_full]
    split_ifs with hs0
    · obtain ⟨i1, i2, i3, _, _, _, i7⟩ := dj_iter_full_spec nodes hlen hg st h hs0 hs hP
      exact i7.chain (ih _ i1 (by omega) i3)
    · exact Later.same n st

/-- The main loop with and without the early exit: either both end in the
same state, or the loop with the exit stops in the heap of a state `s` in
which the target is extracted, and the loop without the exit goes on from
`s`. -/
theorem dj_loop_cmp {n : Nat} (nodes : List node) (target : Nat) (hlen : nodes.length = n)
    (hg : ArcsOK nodes n) (hn32 : n < 4294967296) (fuel : Nat) :
    ∀ st : DjState, HInv n st.Q st.heap_track → st.size < n → PiInv n st →
      dj_loop nodes target fuel st = dj_loop_full nodes fuel st ∨
      ∃ (s : DjState) (k : Nat), HInv n s.Q s.heap_track ∧ s.size < n ∧ PiInv n s ∧
        s.size < s.heap_track target ∧
        (dj_loop nodes target fuel st).Q = s.Q ∧
        (dj_loop nodes target fuel st).heap_track = s.heap_track ∧
        dj_loop_full nodes fuel st = dj_loop_full nodes k s := by
  induction fuel with
  | zero => intro st _ _ _; exact Or.inl rfl
  | succ fuel ih =>
    intro st h hs hP
    simp only [dj_loop, dj_loop_full]
    by_cases hs0 : st.size > 0
    · rw [if_pos hs0, if_pos hs0]
      obtain ⟨i1, i2, i3, i4, i5, i6, _⟩ := dj_iter_full_spec nodes hlen hg st h hs0 hs hP
      rw [dj_iter_eq]
      by_cases hut : toU32 (dj_extract st).2 = target
      · rw [if_pos hut, dj_loop_of_size_le _ _ _ _ (by simp)]
        right
        refine ⟨dj_iter_full nodes st, fuel, i1, by omega, i3, ?_, rfl, rfl, rfl⟩
        rw [← (toU32_eq_natCast i4 i5 hn32).1 hut, i6, i2]
        omega
      · rw [if_neg hut]
        exact ih _ i1 (by omega) i3
    · rw [if_neg hs0, if_neg hs0]
      exact Or.inl rfl

/-- The predecessor walk gives the same result in two heaps that agree on a
set of vertices which is closed under taking predecessors. -/
theorem dj_walk_agree (n : Nat) (Q1 Q2 : Int → heap_node) (t1 t2 : Int → Int) (source : Nat)
    (P : Int → Prop) (hagree : ∀ u, P u → t1 u = t2 u ∧ Q1 (t1 u) = Q2 (t2 u))
    (hclosed : ∀ u, P u → (Q1 (t1 u)).pi = -1 ∨ P (Q1 (t1 u)).pi) (fuel : Nat) :
    ∀ (u : Int) (sol : List Int), u = -1 ∨ P u →
      dj_walk n Q1 t1 source fuel u sol = dj_walk n Q2 t2 source fuel u sol := by
  induction fuel with
  | zero => intro u sol _; rfl
  | succ fuel ih =>
    intro u sol hu
    rw [dj_walk]
    conv_rhs => rw [dj_walk]
    rcases hu with hu | hu
    · subst hu
      simp
    · obtain ⟨a1, a2⟩ := hagree u hu
      have a3 : Q2 (t1 u) = Q1 (t1 u) := by
        have := a2.symm
        rwa [← a1] at this
      rw [← a1, a3]
      split_ifs
      · exact ih _ _ (hclosed u hu)
      · rfl
      · rfl
      · rfl


/-- C17: for a graph of `n` nodes in which node `i` has number `i` and every
arc points into the graph, and for source and target below `n`, `djikstra`
with its early exit produces the same result (stored cost and printed route)
as the same function with the early exit removed from the main loop, and the
entry of the target (distance and predecessor) is the same in both final
heaps. -/
theorem C17_early_exit_preserves_result (nodes : List node) (n source target : Nat)
    (_hn : 1 ≤ n) (hn32 : n < 4294967296) (hg : GraphOK nodes n) (hs : source < n)
    (ht : target < n) :
    djikstra nodes n source target = djikstra_full nodes n source target ∧
    ent (dj_final nodes n source target) target
      = ent (dj_final_full nodes n source) target := by
  have hi := dj_init_HInv hg.perm.1 hs
  have hsz : (dj_init nodes n source).size < n := by rw [hi.2]; omega
  have hP0 : PiInv n (dj_init nodes n source) :=
    fun x hx hxn => Or.inl (dj_init_pi hg hs x hx hxn)
  rcases dj_loop_cmp nodes target hg.1 hg.2.2 hn32 n (dj_init nodes n source) hi.1 hsz hP0 with
    heq | ⟨s, k, h1, h2, h3, h4, hQ, hT, hfull⟩
  · simp only [djikstra, djikstra_full, dj_final, dj_final_full, heq, and_self]
  · have hL := dj_loop_full_Later nodes hg.1 hg.2.2 k s h1 h2 h3
    have ht0 : (0 : Int) ≤ target := by omega
    have htn : (target : Int) < n := by exact_mod_cast ht
    obtain ⟨f1, f2⟩ := hL.2 target ht0 htn h4
    have hw := dj_walk_agree n s.Q (dj_loop_full nodes k s).Q s.heap_track
      (dj_loop_full nodes k s).heap_track source
      (fun x => 0 ≤ x ∧ x < n ∧ s.size < s.heap_track x)
      (fun u hu => by
        obtain ⟨g1, g2⟩ := hL.2 u hu.1 hu.2.1 hu.2.2
        exact ⟨g1.symm, g2.symm⟩)
      (fun u hu => h3 u hu.1 hu.2.1) (n + 1) (s.Q (s.heap_track target)).pi [(target : Int)]
      (h3 target ht0 htn)
    have hent : s.Q (s.heap_track target)
        = (dj_loop_full nodes k s).Q ((dj_loop_full nodes k s).heap_track target) := f2.symm
    constructor
    · simp only [djikstra, djikstra_full, dj_final, dj_final_full]
      rw [hQ, hT, hfull, hw, hent]
    · simp only [ent, dj_final, dj_final_full]
      rw [hQ, hT, hfull, hent]

/-- C17 at the four-node scenario graph, source 0, target 1: the early exit
stops after the second iteration, the loop without it runs three. -/
theorem C17_early_exit_preserves_result_witness :
    1 ≤ 4 ∧ 4 < 4294967296 ∧ GraphOK scenario4 4 ∧ 0 < 4 ∧ 1 < 4 ∧
    (djikstra scenario4 4 0 1 = djikstra_full scenario4 4 0 1 ∧
      ent (dj_final scenario4 4 0 1) 1 = ent (dj_final_full scenario4 4 0) 1) :=
  ⟨by decide, by decide, by decide, by decide, by decide,
    C17_early_exit_preserves_result scenario4 4 0 1 (by decide) (by decide) (by decide)
      (by decide) (by decide)⟩


/-! ## Sift-up restores heap order -/

/-- Moving entries among the slots `0..b` permutes the entries of these
slots. -/
theorem Moves.slotsPerm {n : Nat} {b : Int} {A A1 : Int → heap_node} {t t1 : Int → Int}
    (h0 : HInv n A t) (h : Moves n b A t A1 t1) (hb : b < n) : SlotsPerm b A A1 := by
  unfold SlotsPerm
  have key : ∀ j : Nat, j < (b + 1).toNat →
      0 ≤ t (A1 j).v_ind ∧ t (A1 j).v_ind ≤ b ∧ A1 j = A (t (A1 j).v_ind) ∧
      0 ≤ (A1 j).v_ind ∧ (A1 j).v_ind < n ∧ t1 (A1 j).v_ind = j := by
    intro j hj
    have hj0 : (0 : Int) ≤ j := by omega
    have hjn : (j : Int) < n := by omega
    have hv := h.1.vr j hj0 hjn
    have ht1 := h.1.tv j hj0 hjn
    have hent := h.2.1 _ hv.1 hv.2
    rw [ht1] at hent
    have htr := h0.tr _ hv.1 hv.2
    refine ⟨htr.1, ?_, hent, hv.1, hv.2, ht1⟩
    by_contra hc
    have := h.2.2 _ hv.1 hv.2 (by omega)
    rw [ht1] at this
    omega
  have h1 : (List.range (b + 1).toNat).map (fun j : Nat => A1 j)
      = ((List.range (b + 1).toNat).map (fun j : Nat => (t (A1 j).v_ind).toNat)).map
          (fun j : Nat => A j) := by
    rw [List.map_map]
    apply List.map_congr_left
    intro j hj
    obtain ⟨k1, _, k3, _⟩ := key j (List.mem_range.1 hj)
    simp only [Function.comp]
    rw [Int.toNat_of_nonneg k1]
    exact k3
  have h2 : ((List.range (b + 1).toNat).map (fun j : Nat => (t (A1 j).v_ind).toNat)).Perm
      (List.range (b + 1).toNat) := by
    apply List.Subperm.perm_of_length_le
    · apply List.Nodup.subperm
      · apply List.Nodup.map_on _ (List.nodup_range _)
        intro x hx y hy e
        obtain ⟨x1, _, _, x4, x5, x6⟩ := key x (List.mem_range.1 hx)
        obtain ⟨y1, _, _, y4, y5, y6⟩ := key y (List.mem_range.1 hy)
        have e2 : t (A1 x).v_ind = t (A1 y).v_ind := by omega
        have e3 := h0.track_inj x4 x5 y4 y5 e2
        rw [e3, y6] at x6
        exact_mod_cast x6.symm
      · intro k hk
        obtain ⟨j, hj, e⟩ := List.mem_map.1 hk
        obtain ⟨j1, j2, _⟩ := key j (List.mem_range.1 hj)
        rw [List.mem_range]
        omega
    · simp
  rw [h1]
  exact h2.map _

theorem Pull_Up_P_eq {i : Int} (hi : 1 ≤ i) : Pull_Up_P i = (i - 1) / 2 := by
  unfold Pull_Up_P
  split_ifs <;> omega

/-- `Pull_Up` on a slot with a finite distance: when heap order holds for
every pair whose child is not `i` and the children of `i` are not smaller
than its parent, heap order holds everywhere afterwards, and the returned slot
holds the entry that was in slot `i`. -/
theorem Pull_Up_fuel_order {n : Nat} (size : Int) (hs : size < n) (fuel : Nat) :
    ∀ (A : Int → heap_node) (i : Int) (track : Int → Int), HInv n A track → 0 ≤ i →
      i ≤ size → i.toNat < fuel → (A i).d ≠ -1 →
      (∀ j : Int, 1 ≤ j → j ≤ size → j ≠ i → dist_le (A ((j - 1) / 2)).d (A j).d) →
      (1 ≤ i → ∀ c : Int, c = 2 * i + 1 ∨ c = 2 * i + 2 → c ≤ size →
        dist_le (A ((i - 1) / 2)).d (A c).d) →
      HeapOrderOn (Pull_Up_fuel fuel A i track).1.A size ∧
      ((Pull_Up_fuel fuel A i track).1.A (Pull_Up_fuel fuel A i track).2).v_ind
        = (A i).v_ind ∧
      (Pull_Up_fuel fuel A i track).1.track (A i).v_ind = (Pull_Up_fuel fuel A i track).2 := by
  induction fuel with
  | zero => intro A i track _ _ _ hf; omega
  | succ fuel ih =>
    intro A i track h hi his hf hfin hexc hchi
    rw [Pull_Up_fuel]
    by_cases hi1 : 1 ≤ i
    · have hPe := Pull_Up_P_eq hi1
      simp only [hPe]
      have hP0 : 0 ≤ (i - 1) / 2 := by omega
      have hPi : (i - 1) / 2 < i := by omega
      split_ifs with hc
      · -- the entry moves up to the parent slot
        simp only [Bool.and_eq_true, Bool.or_eq_true, decide_eq_true_eq] at hc
        have hsw := @swap_Moves n size A track h i ((i - 1) / 2) hi his hP0 (by omega) hs
        have hAP : (swap_Heap A i ((i - 1) / 2) track).A ((i - 1) / 2) = A i := by
          rw [swap_A, if_pos rfl]
        have hAi : (swap_Heap A i ((i - 1) / 2) track).A i = A ((i - 1) / 2) := by
          rw [swap_A, if_neg (by omega), if_pos rfl]
        have hAo : ∀ j : Int, j ≠ i → j ≠ (i - 1) / 2 →
            (swap_Heap A i ((i - 1) / 2) track).A j = A j := by
          intro j h1 h2
          rw [swap_A, if_neg h2, if_neg h1]
        have hexcP := fun (hP1 : 1 ≤ (i - 1) / 2) =>
          hexc ((i - 1) / 2) hP1 (by omega) (by omega)
        have := ih (swap_Heap A i ((i - 1) / 2) track).A ((i - 1) / 2)
          (swap_Heap A i ((i - 1) / 2) track).track hsw.1 hP0 (by omega) (by omega)
          (by rw [hAP]; exact hfin) ?_ ?_
        · rw [hAP] at this
          exact this
        · intro j hj1 hjs hjP
          by_cases hji : j = i
          · subst hji
            rw [hAP, hAi]
            unfold dist_le
            omega
          · rw [hAo j hji hjP]
            have hej := hexc j hj1 hjs hji
            by_cases hp1 : (j - 1) / 2 = (i - 1) / 2
            · rw [hp1, hAP]
              rw [hp1] at hej
              unfold dist_le at hej ⊢
              omega
            · by_cases hp2 : (j - 1) / 2 = i
              · rw [hp2, hAi]
                exact hchi hi1 j (by omega) hjs
              · rw [hAo _ hp2 hp1]
                exact hej
        · intro hP1 c hcc hcs
          have hPP : (swap_Heap A i ((i - 1) / 2) track).A (((i - 1) / 2 - 1) / 2)
              = A (((i - 1) / 2 - 1) / 2) := hAo _ (by omega) (by omega)
          rw [hPP]
          have hePP := hexcP hP1
          by_cases hci : c = i
          · rw [hci, hAi]
            exact hePP
          · rw [hAo c hci (by omega)]
            have hec := hexc c (by omega) hcs hci
            have hcp : (c - 1) / 2 = (i - 1) / 2 := by omega
            rw [hcp] at hec
            unfold dist_le at hec hePP ⊢
            omega
      · -- the entry stays
        simp only [Bool.and_eq_true, Bool.or_eq_true, decide_eq_true_eq] at hc
        refine ⟨?_, rfl, h.tv i hi (by omega)⟩
        intro j hj1 hjs
        show dist_le (A ((j - 1) / 2)).d (A j).d
        by_cases hji : j = i
        · subst hji
          unfold dist_le
          omega
        · exact hexc j hj1 hjs hji
    · have hi0 : i = 0 := by omega
      subst hi0
      have hroot : Pull_Up_fuel (fuel + 1) A 0 track = (⟨A, track⟩, 0) :=
        Pull_Up_fuel_root _ _ _
      rw [Pull_Up_fuel] at hroot
      rw [hroot]
      refine ⟨?_, rfl, h.tv 0 (le_refl _) (by omega)⟩
      intro j hj1 hjs
      exact hexc j hj1 hjs (by omega)

/-- C16: for a heap array with consistent position table, a bound `size`
inside the array and a slot `1 ≤ i ≤ size` that holds vertex `v` with a
finite distance: if heap order (with `-1` as the largest distance) holds on
the slots `0..size` for every parent/child pair whose child is not `i`, and
the children of `i` are not smaller than the parent of `i`, then after
`loc = Pull_Up(A, i, track)` heap order holds on all of the slots `0..size`,
`A[loc].v_ind = v` and `track[v] = loc`, and the entries in the slots
`0..size` are a permutation of the entries before the call. -/
theorem C16_sift_up_restores_heap_order (n : Nat) (A : Int → heap_node) (track : Int → Int)
    (size i : Int) (h : HInv n A track) (hs : size < n) (hi1 : 1 ≤ i) (his : i ≤ size)
    (hfin : (A i).d ≠ -1)
    (hexc : ∀ j : Int, 1 ≤ j → j ≤ size → j ≠ i → dist_le (A ((j - 1) / 2)).d (A j).d)
    (hchi : ∀ c : Int, c = 2 * i + 1 ∨ c = 2 * i + 2 → c ≤ size →
      dist_le (A ((i - 1) / 2)).d (A c).d) :
    HeapOrderOn (Pull_Up A i track).1.A size ∧
    ((Pull_Up A i track).1.A (Pull_Up A i track).2).v_ind = (A i).v_ind ∧
    (Pull_Up A i track).1.track (A i).v_ind = (Pull_Up A i track).2 ∧
    SlotsPerm size A (Pull_Up A i track).1.A := by
  have ho := Pull_Up_fuel_order size hs (i.toNat + 1) A i track h (by omega) his (by omega)
    hfin hexc (fun _ => hchi)
  have hm := Pull_Up_fuel_Moves (i.toNat + 1) A i track h (by omega) (by omega)
  exact ⟨ho.1, ho.2.1, ho.2.2, (hm.1.mono his).slotsPerm h hs⟩


theorem heapA3_HInv : HInv 3 heapA3 trackId := by
  refine ⟨?_, ?_, ?_, ?_⟩ <;> intro i h0 h1 <;>
    (have hi : i = 0 ∨ i = 1 ∨ i = 2 := by omega) <;> rcases hi with rfl | rfl | rfl <;>
    simp [heapA3, trackId]

/-- C16 at the three-slot heap `heapA3` with `size = 2` and `i = 2`. -/
theorem C16_sift_up_restores_heap_order_witness :
    HInv 3 heapA3 trackId ∧ (heapA3 2).d ≠ -1 ∧
    (HeapOrderOn (Pull_Up heapA3 2 trackId).1.A 2 ∧
      ((Pull_Up heapA3 2 trackId).1.A (Pull_Up heapA3 2 trackId).2).v_ind = (heapA3 2).v_ind ∧
      (Pull_Up heapA3 2 trackId).1.track (heapA3 2).v_ind = (Pull_Up heapA3 2 trackId).2 ∧
      SlotsPerm 2 heapA3 (Pull_Up heapA3 2 trackId).1.A) :=
  ⟨heapA3_HInv, by decide,
    C16_sift_up_restores_heap_order 3 heapA3 trackId 2 2 heapA3_HInv (by decide) (by decide)
      (by decide) (by decide)
      (fun j h1 h2 h3 => by
        have hj : j = 1 := by omega
        subst hj
        decide)
      (fun c hc hcs => by omega)⟩

/-! ## What a successful load says about the stream -/

theorem toU32_toI32 {v : Nat} (hv : v < 4294967296) : toU32 (toI32 v) = v := by
  unfold toU32 toI32
  rw [Nat.mod_eq_of_lt hv]
  split_ifs <;> omega

theorem read_uint_field_inv {f rest : List Nat} {v : Nat} (hb : ∀ b ∈ f, b < 256)
    (h : read_uint_field f = some (v, rest)) :
    f = be32 v ++ rest ∧ v < 4294967296 := by
  match f, hb, h with
  | b0 :: b1 :: b2 :: b3 :: r, hb, h =>
    simp only [read_uint_field, Option.some.injEq, Prod.mk.injEq] at h
    obtain ⟨hv, hr⟩ := h
    have h0 := hb b0 (by simp)
    have h1 := hb b1 (by simp)
    have h2 := hb b2 (by simp)
    have h3 := hb b3 (by simp)
    unfold be32_val at hv
    subst hr
    refine ⟨?_, by omega⟩
    simp only [be32, List.cons_append, List.nil_append, List.cons.injEq, and_true]
    omega
  | [], _, h => simp [read_uint_field] at h
  | [_], _, h => simp [read_uint_field] at h
  | [_, _], _, h => simp [read_uint_field] at h
  | [_, _, _], _, h => simp [read_uint_field] at h

theorem read_int_field_inv {f rest : List Nat} {x : Int} (hb : ∀ b ∈ f, b < 256)
    (h : read_int_field f = some (x, rest)) :
    f = be32 (toU32 x) ++ rest ∧ toI32 (toU32 x) = x := by
  unfold read_int_field at h
  cases h1 : read_uint_field f with
  | none => rw [h1] at h; simp at h
  | some p =>
    obtain ⟨v, r⟩ := p
    rw [h1] at h
    simp only [Option.some.injEq, Prod.mk.injEq] at h
    obtain ⟨hx, hr⟩ := h
    obtain ⟨e, hv⟩ := read_uint_field_inv hb h1
    subst hx hr
    rw [toU32_toI32 hv]
    exact ⟨e, rfl⟩

theorem bytes_of_append {f p rest : List Nat} (hb : ∀ b ∈ f, b < 256) (e : f = p ++ rest) :
    ∀ b ∈ rest, b < 256 := by
  intro b hbr
  exact hb b (by rw [e]; exact List.mem_append_right _ hbr)

theorem read_arc_inv {f rest : List Nat} {a : arc} (hb : ∀ b ∈ f, b < 256)
    (h : read_arc f = some (a, rest)) :
    ∃ da : DiskArc, f = ser_arc da ++ rest ∧ a = arc_of da := by
  unfold read_arc at h
  cases h1 : read_uint_field f with
  | none => rw [h1] at h; simp at h
  | some p =>
    obtain ⟨t, f1⟩ := p
    rw [h1] at h
    simp only at h
    obtain ⟨e1, ht⟩ := read_uint_field_inv hb h1
    cases h2 : read_uint_field f1 with
    | none => rw [h2] at h; simp at h
    | some q =>
      obtain ⟨w, f2⟩ := q
      rw [h2] at h
      simp only [Option.some.injEq, Prod.mk.injEq] at h
      obtain ⟨ha, hr⟩ := h
      obtain ⟨e2, hw⟩ := read_uint_field_inv (bytes_of_append hb e1) h2
      subst hr
      refine ⟨⟨t, w⟩, ?_, ?_⟩
      · rw [e1, e2, ser_arc, List.append_assoc]
      · rw [← ha, arc_of, Nat.mod_eq_of_lt ht, Nat.mod_eq_of_lt hw]

theorem read_arcs_loop_inv (k : Nat) :
    ∀ (err : Int) (f : List Nat) (acc : List arc), (∀ b ∈ f, b < 256) →
      (read_arcs_loop k err f acc).1 = 0 ∨ k = 0 →
      ∃ l : List DiskArc, l.length = k ∧
        f = ser_arcs l ++ (read_arcs_loop k err f acc).2.2 ∧
        (read_arcs_loop k err f acc).2.1 = acc ++ l.map arc_of := by
  induction k with
  | zero =>
    intro err f acc _ _
    exact ⟨[], rfl, by simp [read_arcs_loop, ser_arcs], by simp [read_arcs_loop]⟩
  | succ k ih =>
    intro err f acc hb h
    rw [read_arcs_loop] at h ⊢
    cases h1 : read_arc f with
    | none =>
      rw [h1] at h
      simp at h
    | some p =>
      obtain ⟨a, f1⟩ := p
      rw [h1] at h
      simp only at h ⊢
      obtain ⟨da, e1, ha⟩ := read_arc_inv hb h1
      have h' : (read_arcs_loop k 0 f1 (acc ++ [a])).1 = 0 ∨ k = 0 := by
        rcases h with h | h
        · exact Or.inl h
        · omega
      obtain ⟨l, hl, e2, e3⟩ := ih 0 f1 (acc ++ [a]) (bytes_of_append hb e1) h'
      refine ⟨da :: l, by simp [hl], ?_, ?_⟩
      · rw [ser_arcs, List.append_assoc, ← e2, e1]
      · rw [e3, ha]; simp

theorem read_node_inv {err0 : Int} {f rest : List Nat} {nd : node} (hb : ∀ b ∈ f, b < 256)
    (h : read_node err0 f = some (nd, rest)) :
    ∃ dn : DiskNode, f = ser_node dn ++ rest ∧ nd = node_of dn ∧ dn.id < 4294967296 := by
  unfold read_node at h
  cases h1 : read_uint_field f with
  | none => rw [h1] at h; simp at h
  | some p1 =>
    obtain ⟨num, f1⟩ := p1
    rw [h1] at h
    simp only at h
    obtain ⟨e1, hnum⟩ := read_uint_field_inv hb h1
    have hb1 := bytes_of_append hb e1
    cases h2 : read_int_field f1 with
    | none => rw [h2] at h; simp at h
    | some p2 =>
      obtain ⟨x, f2⟩ := p2
      rw [h2] at h
      simp only at h
      obtain ⟨e2, hx⟩ := read_int_field_inv hb1 h2
      have hb2 := bytes_of_append hb1 e2
      cases h3 : read_int_field f2 with
      | none => rw [h3] at h; simp at h
      | some p3 =>
        obtain ⟨y, f3⟩ := p3
        rw [h3] at h
        simp only at h
        obtain ⟨e3, hy⟩ := read_int_field_inv hb2 h3
        have hb3 := bytes_of_append hb2 e3
        cases h4 : read_uint_field f3 with
        | none => rw [h4] at h; simp at h
        | some p4 =>
          obtain ⟨narcs, f4⟩ := p4
          rw [h4] at h
          simp only at h
          obtain ⟨e4, _⟩ := read_uint_field_inv hb3 h4
          have hb4 := bytes_of_append hb3 e4
          by_cases herr : (read_arcs err0 f4 narcs).1 = 0
          · rw [if_neg (by rw [not_not]; exact herr)] at h
            simp only [Option.some.injEq, Prod.mk.injEq] at h
            obtain ⟨hnd, hr⟩ := h
            obtain ⟨l, hl, e5, e6⟩ := read_arcs_loop_inv narcs err0 f4 [] hb4 (Or.inl herr)
            refine ⟨⟨num, x, y, l⟩, ?_, ?_, hnum⟩
            · rw [ser_node, e1, e2, e3, e4, e5]
              simp only [List.append_assoc, hl]
              rw [← hr]
              rfl
            · rw [← hnd, node_of]
              simp only [hx, hy, hl, Nat.mod_eq_of_lt hnum, List.nil_append] at e6 ⊢
              rw [read_arcs, e6]
          · rw [if_pos herr] at h
            simp at h

theorem read_nodes_loop_inv (arcs_err : Nat → Int) (k : Nat) :
    ∀ (i : Nat) (err : Int) (f : List Nat) (acc : List node), (∀ b ∈ f, b < 256) →
      (read_nodes_loop arcs_err k i err f acc).1 = 0 ∨ k = 0 →
      ∃ g : List DiskNode, g.length = k ∧
        f = ser_nodes g ++ (read_nodes_loop arcs_err k i err f acc).2.2 ∧
        (read_nodes_loop arcs_err k i err f acc).2.1 = acc ++ g.map node_of ∧
        ∀ nd ∈ g, nd.id < 4294967296 := by
  induction k with
  | zero =>
    intro i err f acc _ _
    exact ⟨[], rfl, by simp [read_nodes_loop, ser_nodes], by simp [read_nodes_loop], by simp⟩
  | succ k ih =>
    intro i err f acc hb h
    rw [read_nodes_loop] at h ⊢
    cases h1 : read_node (arcs_err i) f with
    | none =>
      rw [h1] at h
      simp at h
    | some p =>
      obtain ⟨nd, f1⟩ := p
      rw [h1] at h
      simp only at h ⊢
      obtain ⟨dn, e1, hnd, hid⟩ := read_node_inv hb h1
      have h' : (read_nodes_loop arcs_err k (i + 1) 0 f1 (acc ++ [nd])).1 = 0 ∨ k = 0 := by
        rcases h with h | h
        · exact Or.inl h
        · omega
      obtain ⟨g, hg, e2, e3, e4⟩ := ih (i + 1) 0 f1 (acc ++ [nd]) (bytes_of_append hb e1) h'
      refine ⟨dn :: g, by simp [hg], ?_, ?_, ?_⟩
      · rw [ser_nodes, List.append_assoc, ← e2, e1]
      · rw [e3, hnd]; simp
      · intro x hx
        rcases List.mem_cons.1 hx with hx | hx
        · rw [hx]; exact hid
        · exact e4 x hx


/-- A stream on which `load_map` succeeds is a header, as many node records
as the header declares, and the unread rest; the loaded nodes are the records
in stream order. -/
theorem load_map_inv {ind : Indet} {f : List Nat} {L : Loaded} (hb : ∀ b ∈ f, b < 256)
    (h : load_map ind f = some L) :
    ∃ (ver reserved : Nat) (g : List DiskNode), ver ≤ 2 ∧
      f = serialise ver reserved g ++ L.rest ∧ L.nnodes = g.length ∧
      L.nodes = g.map node_of ∧ g.length < 4294967296 ∧ ∀ nd ∈ g, nd.id < 4294967296 := by
  match f, hb, h with
  | [], _, h => simp [load_map, read_header] at h
  | b :: f0, hb, h =>
    have hb256 : b < 256 := hb b (by simp)
    have hb0 : ∀ x ∈ f0, x < 256 := fun x hx => hb x (List.mem_cons_of_mem _ hx)
    simp only [load_map, read_header] at h
    cases h1 : read_uint_field f0 with
    | none => rw [h1] at h; simp at h
    | some p1 =>
      obtain ⟨n, f2⟩ := p1
      rw [h1] at h
      simp only at h
      obtain ⟨e1, hn⟩ := read_uint_field_inv hb0 h1
      have hb2 := bytes_of_append hb0 e1
      have hmod : b % 256 = b := Nat.mod_eq_of_lt hb256
      rw [hmod] at h
      -- the common end of both versions
      have fin : ∀ (f1 : List Nat), (∀ x ∈ f1, x < 256) →
          (if b > 2 then none else if n = 0 then none
            else if (read_nodes ind f1 n).1 ≠ 0 then none
            else some (⟨n, (read_nodes ind f1 n).2.1, (read_nodes ind f1 n).2.2⟩ : Loaded))
            = some L →
          b ≤ 2 ∧ ∃ g : List DiskNode, g.length = n ∧ f1 = ser_nodes g ++ L.rest ∧
            L.nnodes = n ∧ L.nodes = g.map node_of ∧ ∀ nd ∈ g, nd.id < 4294967296 := by
        intro f1 hb1 hL
        by_cases hv : b > 2
        · rw [if_pos hv] at hL; simp at hL
        · rw [if_neg hv] at hL
          by_cases hn0 : n = 0
          · rw [if_pos hn0] at hL; simp at hL
          · rw [if_neg hn0] at hL
            by_cases herr : (read_nodes ind f1 n).1 = 0
            · rw [if_neg (by rw [not_not]; exact herr)] at hL
              simp only [Option.some.injEq] at hL
              obtain ⟨g, hg, e2, e3, e4⟩ := read_nodes_loop_inv ind.arcs_err n 0 ind.nodes_err
                f1 [] hb1 (Or.inl herr)
              refine ⟨by omega, g, hg, ?_, ?_, ?_, e4⟩
              · rw [← hL]; exact e2
              · rw [← hL]
              · rw [← hL]
                simp only [read_nodes]
                rw [e3]; rfl
            · rw [if_pos herr] at hL; simp at hL
      by_cases hver : b > 1
      · rw [if_pos hver] at h
        cases h2 : read_uint_field f2 with
        | none => rw [h2] at h; simp at h
        | some p2 =>
          obtain ⟨r, f3⟩ := p2
          rw [h2] at h
          simp only at h
          obtain ⟨e2, _⟩ := read_uint_field_inv hb2 h2
          obtain ⟨hv, g, hg, e3, e4, e5, e6⟩ := fin f3 (bytes_of_append hb2 e2) h
          refine ⟨b, r, g, hv, ?_, by rw [e4, hg], e5, by rw [hg]; exact hn, e6⟩
          rw [serialise, if_pos (by omega), hg, e1, e2, e3]
          simp
      · rw [if_neg hver] at h
        obtain ⟨hv, g, hg, e3, e4, e5, e6⟩ := fin f2 hb2 h
        refine ⟨b, 0, g, hv, ?_, by rw [e4, hg], e5, by rw [hg]; exact hn, e6⟩
        rw [serialise, if_neg (by omega), hg, e1, e3]
        simp


/-- The version-1 stream of one node record with the on-disk number 5 loads
with success whatever the uninitialised locals hold. -/
theorem load_map_stream_id5 (ind : Indet) :
    load_map ind stream_id5 = some ⟨1, [⟨4, 0, 0, 1, [⟨4, 1⟩]⟩], []⟩ := by
  have := load_map_serialise ind 1 0 [⟨5, 0, 0, [⟨5, 1⟩]⟩] (Or.inl rfl) (by simp) (by decide)
    (by decide) (fun k hk hk2 => by
      have hk0 : k = 0 := by simpa using hk
      subst hk0
      simp at hk2)
  exact this

/-- C14 (failing input): the version-1 stream of one node record with the
on-disk number 5 (and one arc) loads with success, and the node stored at
array index 0 has `num = 4`, not 0. The uninitialised locals play no part
(`load_map_stream_id5`); they are taken as 0 here. -/
theorem C14_index_is_not_number_minus_one_on_stream_id5 :
    load_map ⟨fun _ => 0, 0⟩ stream_id5 = some ⟨1, [⟨4, 0, 0, 1, [⟨4, 1⟩]⟩], []⟩ ∧
    (node_at [(⟨4, 0, 0, 1, [⟨4, 1⟩]⟩ : node)] 0).num ≠ 0 :=
  ⟨by decide, by decide⟩

/-- Nothing in the loader compares a node number with an array index: every
byte stream on which `load_map` succeeds with node count `n` consists of a
header, `n` node records and the unread rest; the records are stored in stream
order, so for every `i < n` the node at array index `i` has `num = i` if and
only if the `i`-th record carries the on-disk number `i + 1`. -/
theorem load_map_num_eq_index_iff (ind : Indet) (f : List Nat)
    (L : Loaded) (hb : ∀ b ∈ f, b < 256) (h : load_map ind f = some L) :
    ∃ (ver reserved : Nat) (g : List DiskNode), ver ≤ 2 ∧
      f = serialise ver reserved g ++ L.rest ∧ L.nnodes = g.length ∧
      L.nodes.length = g.length ∧
      ∀ i : Nat, i < g.length →
        ((node_at L.nodes i).num = i ↔ (g.getD i ⟨0, 0, 0, []⟩).id = i + 1) := by
  obtain ⟨ver, r, g, hv, e1, e2, e3, e4, e5⟩ := load_map_inv hb h
  refine ⟨ver, r, g, hv, e1, e2, by rw [e3]; simp, ?_⟩
  intro i hi
  have hid := e5 _ (List.getElem_mem hi)
  rw [node_at_nat, e3, List.getD_eq_getElem _ _ (by simpa using hi),
    List.getD_eq_getElem _ _ hi, List.getElem_map]
  simp only [node_of]
  omega

/-- The stream whose single record carries the number 5 as an instance of
`load_map_num_eq_index_iff`. -/
theorem load_map_num_eq_index_iff_at_stream_id5 :
    (∀ b ∈ stream_id5, b < 256) ∧
    load_map ⟨fun _ => 0, 0⟩ stream_id5 = some ⟨1, [⟨4, 0, 0, 1, [⟨4, 1⟩]⟩], []⟩ ∧
    ∃ (ver reserved : Nat) (g : List DiskNode), ver ≤ 2 ∧
      stream_id5 = serialise ver reserved g ++ ([] : List Nat) ∧ 1 = g.length ∧
      ([⟨4, 0, 0, 1, [⟨4, 1⟩]⟩] : List node).length = g.length ∧
      ∀ i : Nat, i < g.length →
        ((node_at [(⟨4, 0, 0, 1, [⟨4, 1⟩]⟩ : node)] i).num = i ↔
          (g.getD i ⟨0, 0, 0, []⟩).id = i + 1) :=
  ⟨by decide, by decide,
    load_map_num_eq_index_iff ⟨fun _ => 0, 0⟩ stream_id5
      ⟨1, [⟨4, 0, 0, 1, [⟨4, 1⟩]⟩], []⟩ (by decide) (by decide)⟩

/-- The main loop without the early exit ends within its budget of `nnodes`
iterations. -/
theorem dj_final_full_exit {nodes : List node} {n : Nat} (hg : GraphOK nodes n) {source : Nat}
    (hs : source < n) : (dj_final_full nodes n source).size ≤ 0 := by
  have hi := dj_init_HInv hg.perm.1 hs
  have hP0 : PiInv n (dj_init nodes n source) :=
    fun x hx hxn => Or.inl (dj_init_pi hg hs x hx hxn)
  have key : ∀ (fuel : Nat) (st : DjState), HInv n st.Q st.heap_track → st.size < n →
      PiInv n st → st.size ≤ fuel → (dj_loop_full nodes fuel st).size ≤ 0 := by
    intro fuel
    induction fuel with
    | zero => intro st _ _ _ hf; simpa [dj_loop_full] using hf
    | succ fuel ih =>
      intro st h hsz hP hf
      simp only [dj_loop_full]
      split_ifs with h0
      · obtain ⟨i1, i2, i3, _⟩ := dj_iter_full_spec nodes hg.1 hg.2.2 st h h0 hsz hP
        exact ih _ i1 (by omega) i3 (by omega)
      · omega
  exact key n _ hi.1 (by rw [hi.2]; omega) hP0 (by rw [hi.2]; omega)


end RoadMap
